import Mathlib

/-!
Aura: image reference codec and deployment controller

A shallow embedding of `pkg/image/image.go`, `pkg/controller/controller.go`,
`pkg/docker/registry.go`, `pkg/store/releases.go` and the flat `aura.go` of
nrwiersma/aura, with the properties of the specification proved over it.
The docker client and the database library are collaborators of the code:
their methods are modelled by their contracts, as functions of the state of
the world outside.

Go strings are byte sequences.  They are modelled as lists of characters:
every separator the code looks for (`@`, `:`, `/`) is a single ASCII byte,
and an ASCII byte never occurs inside a multi-byte UTF-8 sequence, so
searching and splitting by bytes and by characters agree.
-/

set_option autoImplicit false

/-- A Go string. -/
abbrev Str := List Char

/-- A Go byte slice. -/
abbrev Bytes := List Nat

/-! ## The Go `strings` functions used by the code, at a one-byte separator -/

namespace strings

/-- Go `strings.Index(s, sep)` for a one-byte `sep`: the index of the first
occurrence, or `-1`. -/
def Index : Str → Char → Int
  | [], _ => -1
  | x :: xs, c =>
    if x = c then 0
    else if 0 ≤ Index xs c then Index xs c + 1 else -1

/-- Go `strings.LastIndex(s, sep)` for a one-byte `sep`: the index of the
last occurrence, or `-1`. -/
def LastIndex : Str → Char → Int
  | [], _ => -1
  | x :: xs, c =>
    if 0 ≤ LastIndex xs c then LastIndex xs c + 1
    else if x = c then 0 else -1

/-- Go `strings.Contains(s, sep)`, which is `Index(s, sep) >= 0`. -/
def Contains (s : Str) (c : Char) : Bool := decide (0 ≤ Index s c)

/-- Go `strings.Split(s, sep)` for a one-byte `sep`: the pieces between the
occurrences of `sep`; one more piece than there are occurrences. -/
def Split : Str → Char → List Str
  | [], _ => [[]]
  | x :: xs, c =>
    if x = c then [] :: Split xs c
    else
      match Split xs c with
      | [] => [[x]]
      | h :: t => (x :: h) :: t

/-- Go `strings.Join(parts, sep)`. -/
def Join : List Str → Str → Str
  | [], _ => []
  | [a], _ => a
  | a :: b :: rest, sep => a ++ sep ++ Join (b :: rest) sep

end strings

/-! ## Errors -/

/-- Go error values, as far as the code builds them. -/
inductive Error where
  /-- The value of `errors.New(msg)`. -/
  | new (msg : String)
  /-- The value of `fmt.Errorf(msg + ": %w", inner)`. -/
  | wrapf (msg : String) (inner : Error)
  /-- The value of `ValidationError{err: inner}`. -/
  | validation (inner : Error)
  deriving DecidableEq

namespace Error

/-- Go `errors.Unwrap`. -/
def Unwrap : Error → Option Error
  | new _ => none
  | wrapf _ inner => some inner
  | validation inner => some inner

/-- The error is a `ValidationError`. -/
def isValidation : Error → Bool
  | validation _ => true
  | _ => false

end Error

instance {ε α : Type} [DecidableEq ε] [DecidableEq α] : DecidableEq (Except ε α)
  | .ok a, .ok b => if h : a = b then isTrue (by rw [h]) else isFalse (by intro e; cases e; exact h rfl)
  | .error a, .error b => if h : a = b then isTrue (by rw [h]) else isFalse (by intro e; cases e; exact h rfl)
  | .ok _, .error _ => isFalse (by intro e; cases e)
  | .error _, .ok _ => isFalse (by intro e; cases e)

/-! ## `pkg/image` -/

namespace image

/-- Image contains the info for a docker image. -/
structure Image where
  Registry : Str
  Repository : Str
  Tag : Str
  Digest : Str
  deriving DecidableEq

/-- The Go zero value `Image{}`. -/
def Image.zero : Image := ⟨[], [], [], []⟩

/-- The method `Image.String`: the string representation of an image. -/
def Image.String (i : Image) : Str :=
  let repo := if i.Registry ≠ [] then i.Registry ++ ['/'] ++ i.Repository else i.Repository
  if i.Digest ≠ [] then repo ++ ['@'] ++ i.Digest
  else if i.Tag ≠ [] then repo ++ [':'] ++ i.Tag
  else repo

/-- The function `splitRepositoryTag`.  The slice accesses `parts[0]` and `parts[1]` are
in range (lemma `split_length`), the default is never used. -/
def splitRepositoryTag (repos : Str) : Str × Str :=
  if 0 ≤ strings.Index repos '@' then
    let parts := strings.Split repos '@'
    (parts.getD 0 [], parts.getD 1 [])
  else
    let n := strings.LastIndex repos ':'
    if n < 0 then (repos, [])
    else if ¬ strings.Contains (repos.drop (n.toNat + 1)) '/' then
      (repos.take n.toNat, repos.drop (n.toNat + 1))
    else (repos, [])

/-- The function `splitRepository`. -/
def splitRepository (fullRepo : Str) : Str × Str :=
  let parts := strings.Split fullRepo '/'
  if parts.length < 2 then ([], parts.getD 0 [])
  else if parts.length = 2 then ([], strings.Join parts ['/'])
  else (parts.getD 0 [], strings.Join (parts.drop 1) ['/'])

/-- The function `Decode` decodes a docker image reference. -/
def Decode (img : Str) : Except Error Image :=
  let rt := splitRepositoryTag img
  let rr := splitRepository rt.1
  if rr.2 = [] then .error (Error.new "invalid image format")
  else
    let i : Image := { Registry := rr.1, Repository := rr.2, Tag := [], Digest := [] }
    if strings.Contains rt.2 ':' then .ok { i with Digest := rt.2 }
    else .ok { i with Tag := rt.2 }

end image

namespace image

/-- The exception the round-trip property names: the text has a `:` and the
substring after its last `:` contains a `/`. -/
def colonThenSlash (s : Str) : Bool :=
  decide (0 ≤ strings.LastIndex s ':') &&
    strings.Contains (s.drop ((strings.LastIndex s ':').toNat + 1)) '/'

end image

/-! ## `pkg/store`: the records the controller exchanges with the store -/

namespace store

/-- App contains the info of an application.  A `*time.Time` is an optional
instant. -/
structure App where
  ID : Str
  Name : Str
  CreatedAt : Option Nat
  DeletedAt : Option Nat
  deriving DecidableEq

/-- Release contains the info for a release. -/
structure Release where
  ID : Str
  AppID : Str
  App : Option App
  Image : Option image.Image
  Version : Int
  Procfile : Bytes
  CreatedAt : Option Nat
  deriving DecidableEq

end store

/-! ## `pkg/controller` -/

namespace controller

/-- App contains the info of an application. -/
structure App where
  ID : Str
  Name : Str
  CreatedAt : Option Nat
  DeletedAt : Option Nat
  deriving DecidableEq

/-- The function `toApp`; a nil pointer is `none`. -/
def toApp : Option store.App → Option App
  | none => none
  | some app =>
    some { ID := app.ID, Name := app.Name, CreatedAt := app.CreatedAt, DeletedAt := app.DeletedAt }

/-- Release contains the info for a release. -/
structure Release where
  ID : Str
  App : Option App
  Image : Option image.Image
  Version : Int
  Procfile : Bytes
  CreatedAt : Option Nat
  deriving DecidableEq

/-- The function `toRelease`; a nil pointer is `none`. -/
def toRelease : Option store.Release → Option Release
  | none => none
  | some release =>
    some
      { ID := release.ID
        App := toApp release.App
        Image := release.Image
        Version := release.Version
        Procfile := release.Procfile
        CreatedAt := release.CreatedAt }

/-- The calls `Deploy` can make on its collaborators, with their arguments. -/
inductive Call where
  | Resolve (img : image.Image)
  | ExtractProcfile (img : Str)
  | CreateRelease (release : store.Release)
  deriving DecidableEq

/-- Registry represents an image registry.  A method is a function of its
arguments and of the state `σ` of the world outside the controller; it
returns the pair of Go results and the new state. -/
structure Registry (σ : Type) where
  Resolve : image.Image → σ → (image.Image × Option Error) × σ
  ExtractProcfile : Str → σ → (Bytes × Option Error) × σ

/-- Store represents a data store; of its methods `Deploy` uses
`CreateRelease` only. -/
structure Store (σ : Type) where
  CreateRelease : store.Release → σ → (Option store.Release × Option Error) × σ

/-- Controller manages the deployment of applications. -/
structure Controller (σ : Type) where
  reg : Registry σ
  store : Store σ

/-- DeployConfig contains application release configuration. -/
structure DeployConfig where
  App : Option App
  Image : image.Image
  deriving DecidableEq

/-- The method `DeployConfig.Validate`; `none` is a nil error. -/
def DeployConfig.Validate (c : DeployConfig) : Option Error :=
  match c.App with
  | none => some (Error.new "an application is required")
  | some app =>
    if app.ID = [] then some (Error.new "the application is invalid")
    else none

/-- The field `cfg.App.ID`, read by `Deploy` after `Validate` has passed, when `App`
is not nil. -/
def DeployConfig.appID (c : DeployConfig) : Str :=
  match c.App with
  | none => []
  | some app => app.ID

/-- The method `Controller.Deploy`.  The result is the pair of Go results, the state of
the world after the call, and the calls made on the collaborators, in
order. -/
def Controller.Deploy {σ : Type} (a : Controller σ) (cfg : DeployConfig) (st : σ) :
    (Option Release × Option Error) × σ × List Call :=
  match cfg.Validate with
  | some err => ((none, some (Error.validation err)), st, [])
  | none =>
    match a.reg.Resolve cfg.Image st with
    | ((_, some err), st1) =>
      ((none, some (Error.wrapf "could not resolve image" err)), st1, [Call.Resolve cfg.Image])
    | ((img, none), st1) =>
      match a.reg.ExtractProcfile img.String st1 with
      | ((_, some err), st2) =>
        ((none, some (Error.wrapf "could not extract procfile" err)), st2,
          [Call.Resolve cfg.Image, Call.ExtractProcfile img.String])
      | ((procFile, none), st2) =>
        let release : store.Release :=
          { ID := [], AppID := cfg.appID, App := none, Image := some img, Version := 0,
            Procfile := procFile, CreatedAt := none }
        match a.store.CreateRelease release st2 with
        | ((_, some err), st3) =>
          ((none, some (Error.wrapf "could not create release" err)), st3,
            [Call.Resolve cfg.Image, Call.ExtractProcfile img.String, Call.CreateRelease release])
        | ((stored, none), st3) =>
          ((toRelease stored, none), st3,
            [Call.Resolve cfg.Image, Call.ExtractProcfile img.String, Call.CreateRelease release])

/-- The collaborators of `TestController_Deploy`: mocks that return the
values of the test case whatever they are called with, `Resolve` the given
image and `ExtractProcfile` the bytes of `test`.  The state counts the calls
the mocks received. -/
def mockController (img : image.Image) (resolveErr extractErr : Option Error)
    (release : Option store.Release) (releaseErr : Option Error) : Controller Nat where
  reg :=
    { Resolve := fun _ n => ((img, resolveErr), n + 1)
      ExtractProcfile := fun _ n => (([116, 101, 115, 116], extractErr), n + 1) }
  store := { CreateRelease := fun _ n => ((release, releaseErr), n + 1) }

end controller

/-! ## The flat package `aura` (`aura.go`, `apps.go`, `releases.go`) -/

namespace aura

/-- App contains the info of an application. -/
structure App where
  ID : Str
  Name : Str
  CreatedAt : Option Nat
  DeletedAt : Option Nat
  deriving DecidableEq

/-- Release contains the info for a release. -/
structure Release where
  ID : Str
  AppID : Str
  App : Option App
  Image : Option image.Image
  Version : Int
  Procfile : Bytes
  CreatedAt : Option Nat
  deriving DecidableEq

/-- The calls `Deploy` can make on its collaborators, with their arguments. -/
inductive Call where
  | Resolve (img : image.Image)
  | ExtractProcfile (img : Str)
  | CreateRelease (release : Release)
  deriving DecidableEq

/-- Registry represents an image registry. -/
structure Registry (σ : Type) where
  Resolve : image.Image → σ → (image.Image × Option Error) × σ
  ExtractProcfile : Str → σ → (Bytes × Option Error) × σ

/-- Aura manages the deployment of applications: the registry, and the
release service over the database, of which `Deploy` uses `Create`. -/
structure Aura (σ : Type) where
  reg : Registry σ
  releasesCreate : Release → σ → (Option Release × Option Error) × σ

/-- DeployConfig contains application release configuration. -/
structure DeployConfig where
  App : Option App
  Image : image.Image
  deriving DecidableEq

/-- The method `DeployConfig.Validate`; `none` is a nil error. -/
def DeployConfig.Validate (c : DeployConfig) : Option Error :=
  match c.App with
  | none => some (Error.new "an application is required")
  | some app =>
    if app.ID = [] then some (Error.new "the application is invalid")
    else none

/-- The field `cfg.App.ID`, read by `Deploy` after `Validate` has passed, when `App`
is not nil. -/
def DeployConfig.appID (c : DeployConfig) : Str :=
  match c.App with
  | none => []
  | some app => app.ID

/-- The method `Aura.Deploy`, with the same shape of result as `Controller.Deploy`. -/
def Aura.Deploy {σ : Type} (a : Aura σ) (cfg : DeployConfig) (st : σ) :
    (Option Release × Option Error) × σ × List Call :=
  match cfg.Validate with
  | some err => ((none, some (Error.validation err)), st, [])
  | none =>
    match a.reg.Resolve cfg.Image st with
    | ((_, some err), st1) =>
      ((none, some (Error.wrapf "could not resolve image" err)), st1, [Call.Resolve cfg.Image])
    | ((img, none), st1) =>
      match a.reg.ExtractProcfile img.String st1 with
      | ((_, some err), st2) =>
        ((none, some (Error.wrapf "could not extract procfile" err)), st2,
          [Call.Resolve cfg.Image, Call.ExtractProcfile img.String])
      | ((procFile, none), st2) =>
        let release : Release :=
          { ID := [], AppID := cfg.appID, App := none, Image := some img, Version := 0,
            Procfile := procFile, CreatedAt := none }
        match a.releasesCreate release st2 with
        | ((_, some err), st3) =>
          ((none, some (Error.wrapf "could not create release" err)), st3,
            [Call.Resolve cfg.Image, Call.ExtractProcfile img.String, Call.CreateRelease release])
        | ((stored, none), st3) =>
          ((stored, none), st3,
            [Call.Resolve cfg.Image, Call.ExtractProcfile img.String, Call.CreateRelease release])

/-- Collaborators that return fixed values whatever they are called with;
the state counts the calls they received. -/
def mockAura (img : image.Image) (resolveErr extractErr : Option Error)
    (release : Option Release) (releaseErr : Option Error) : Aura Nat where
  reg :=
    { Resolve := fun _ n => ((img, resolveErr), n + 1)
      ExtractProcfile := fun _ n => (([116, 101, 115, 116], extractErr), n + 1) }
  releasesCreate := fun _ n => ((release, releaseErr), n + 1)

end aura

namespace image

/-- The pair of Go results of `Decode`: the image, `Image{}` on failure, and
the error. -/
def decodeResults (img : Str) : Image × Option Error :=
  match Decode img with
  | .ok i => (i, none)
  | .error e => (Image.zero, some e)

end image

/-! ## `path/filepath` on a Unix system, as far as `ExtractProcfile` uses it -/

namespace filepath

/-- One path element met by `Clean`, given the elements kept so far (last
kept element first): an empty element and `.` are dropped, `..` removes the
element before it, or is kept at the start of a path that is not rooted,
and any other element is kept. -/
def cleanElem (rooted : Bool) (kept : List Str) (e : Str) : List Str :=
  if e = [] ∨ e = ['.'] then kept
  else if e = ['.', '.'] then
    match kept with
    | [] => if rooted then [] else [e]
    | top :: rest => if top = ['.', '.'] then e :: kept else rest
  else e :: kept

/-- Go `filepath.Clean`: the shortest path equivalent to `path`. -/
def Clean (path : Str) : Str :=
  if path = [] then ['.']
  else
    let rooted : Bool := path.head? = some '/'
    let body := strings.Join ((strings.Split path '/').foldl (cleanElem rooted) []).reverse ['/']
    if rooted then '/' :: body
    else if body = [] then ['.'] else body

/-- Go `filepath.Join(a, b)`: the elements from the first non-empty one on,
joined with `/` and cleaned. -/
def Join (a b : Str) : Str :=
  if a ≠ [] then Clean (a ++ ['/'] ++ b)
  else if b ≠ [] then Clean b
  else []

end filepath

/-! ## `pkg/docker` -/

namespace docker

/-- The fields of `docker.PullImageOptions` that `Resolve` sets. -/
structure PullImageOptions where
  Registry : Str
  Repository : Str
  Tag : Str
  deriving DecidableEq

/-- The field of `docker.Image` that `Resolve` reads. -/
structure Image where
  RepoDigests : List Str
  deriving DecidableEq

/-- The fields of `docker.Config` that the code sets or reads. -/
structure Config where
  Image : Str
  WorkingDir : Str
  deriving DecidableEq

/-- The fields of `docker.Container` that the code reads; `Config` is a
pointer. -/
structure Container where
  ID : Str
  Config : Option Config
  deriving DecidableEq

/-- The requests the registry can send to the docker client, with their
arguments. -/
inductive Call where
  | PullImage (opts : PullImageOptions)
  | InspectImage (name : Str)
  | CreateContainer (img : Str)
  | InspectContainer (id : Str)
  | DownloadFromContainer (id : Str) (path : Str)
  | RemoveContainer (id : Str)
  deriving DecidableEq

/-- The methods of `docker.Client` that the code calls.  A method is a
function of its arguments and of the state `σ` of the docker daemon; it
returns its Go results and the new state.  A method that returns a pointer
and an error returns one or the other. -/
structure Client (σ : Type) where
  PullImage : PullImageOptions → σ → Option Error × σ
  InspectImage : Str → σ → Except Error Image × σ
  CreateContainer : Str → σ → Except Error Container × σ
  InspectContainerWithOptions : Str → σ → Except Error Container × σ
  DownloadFromContainer : Str → Str → σ → (Bytes × Option Error) × σ
  RemoveContainer : Str → σ → Option Error × σ

/-- The reader of `archive/tar` over a byte slice: the error of the first
`Next`, and the result of copying the first entry to a buffer. -/
structure Tar where
  Next : Bytes → Option Error
  Copy : Bytes → Except Error Bytes

/-- Registry is a docker registry: the docker client, and with it the tar
reader of the standard library that `readTar` uses. -/
structure Registry (σ : Type) where
  client : Client σ
  tar : Tar

/-- The options `Resolve` pulls with: the fields of the image, the digest in
place of the tag when the image has one. -/
def pullOptions (img : image.Image) : PullImageOptions :=
  { Registry := img.Registry
    Repository := img.Repository
    Tag := if img.Digest ≠ [] then img.Digest else img.Tag }

/-- The method `Registry.Resolve` resolves a docker image.  The result is the
pair of Go results, the state of the daemon after the call, and the requests
sent to the client, in order. -/
def Registry.Resolve {σ : Type} (r : Registry σ) (img : image.Image) (st : σ) :
    (image.Image × Option Error) × σ × List Call :=
  let opts := pullOptions img
  match r.client.PullImage opts st with
  | (some err, st1) => ((img, some (Error.wrapf "pulling image" err)), st1, [Call.PullImage opts])
  | (none, st1) =>
    if img.Digest ≠ [] then ((img, none), st1, [Call.PullImage opts])
    else
      match r.client.InspectImage img.String st1 with
      | (.error err, st2) =>
        ((img, some (Error.wrapf "inspecting image" err)), st2,
          [Call.PullImage opts, Call.InspectImage img.String])
      | (.ok i, st2) =>
        if i.RepoDigests.length = 0 then
          ((img, none), st2, [Call.PullImage opts, Call.InspectImage img.String])
        else
          (image.decodeResults (i.RepoDigests.getD 0 []), st2,
            [Call.PullImage opts, Call.InspectImage img.String])

/-- The method `Registry.createContainer`. -/
def Registry.createContainer {σ : Type} (r : Registry σ) (img : Str) (st : σ) :
    (Str × Option Error) × σ × List Call :=
  match r.client.CreateContainer img st with
  | (.error err, st1) =>
    (([], some (Error.wrapf "creating container" err)), st1, [Call.CreateContainer img])
  | (.ok ctr, st1) => ((ctr.ID, none), st1, [Call.CreateContainer img])

/-- The method `Registry.removeContainer`. -/
def Registry.removeContainer {σ : Type} (r : Registry σ) (id : Str) (st : σ) :
    Option Error × σ × List Call :=
  match r.client.RemoveContainer id st with
  | (some err, st1) => (some (Error.wrapf "removing container" err), st1, [Call.RemoveContainer id])
  | (none, st1) => (none, st1, [Call.RemoveContainer id])

/-- The function `readTar`: the content of the first entry of a tar archive. -/
def readTar (t : Tar) (b : Bytes) : Bytes × Option Error :=
  match t.Next b with
  | some err => ([], some (Error.wrapf "reading tar" err))
  | none =>
    match t.Copy b with
    | .error err => ([], some (Error.wrapf "reading tar" err))
    | .ok content => (content, none)

/-- The method `Registry.downloadFile`. -/
def Registry.downloadFile {σ : Type} (r : Registry σ) (id path : Str) (st : σ) :
    (Bytes × Option Error) × σ × List Call :=
  match r.client.DownloadFromContainer id path st with
  | ((_, some err), st1) => (([], some err), st1, [Call.DownloadFromContainer id path])
  | ((buf, none), st1) => (readTar r.tar buf, st1, [Call.DownloadFromContainer id path])

/-- The path `ExtractProcfile` downloads: `Procfile` joined to the working
directory of the container, which is empty when the container has no
configuration. -/
def procfilePath (ctr : Container) : Str :=
  let basePath : Str :=
    match ctr.Config with
    | none => []
    | some cfg => cfg.WorkingDir
  filepath.Join basePath "Procfile".toList

/-- The statements of `ExtractProcfile` that follow the `defer`: inspect the
container, build the path, download the file. -/
def Registry.extractBody {σ : Type} (r : Registry σ) (ctrID : Str) (st : σ) :
    (Bytes × Option Error) × σ × List Call :=
  match r.client.InspectContainerWithOptions ctrID st with
  | (.error err, st1) =>
    (([], some (Error.wrapf "inspecting container" err)), st1, [Call.InspectContainer ctrID])
  | (.ok ctr, st1) =>
    let path := procfilePath ctr
    match r.downloadFile ctrID path st1 with
    | ((_, some err), st2, calls) =>
      (([], some (Error.wrapf "downloading procfile" err)), st2,
        Call.InspectContainer ctrID :: calls)
    | ((b, none), st2, calls) => ((b, none), st2, Call.InspectContainer ctrID :: calls)

/-- The method `Registry.ExtractProcfile` extracts a procfile from an image.
The deferred `removeContainer` runs after the statements that follow the
`defer`, on each of their exits, and its error is dropped. -/
def Registry.ExtractProcfile {σ : Type} (r : Registry σ) (img : Str) (st : σ) :
    (Bytes × Option Error) × σ × List Call :=
  match r.createContainer img st with
  | ((_, some err), st1, calls) => (([], some err), st1, calls)
  | ((ctrID, none), st1, calls) =>
    match r.extractBody ctrID st1 with
    | (res, st2, calls2) =>
      match r.removeContainer ctrID st2 with
      | (_, st3, calls3) => (res, st3, calls ++ calls2 ++ calls3)

/-- A docker daemon that answers like the HTTP server of `registry_test.go`:
each request has a fixed answer, and the state counts the requests
received. -/
def mockClient (pull : Option Error) (inspectImage : Except Error Image)
    (create inspect : Except Error Container) (download : Bytes × Option Error)
    (remove : Option Error) : Client Nat where
  PullImage := fun _ n => (pull, n + 1)
  InspectImage := fun _ n => (inspectImage, n + 1)
  CreateContainer := fun _ n => (create, n + 1)
  InspectContainerWithOptions := fun _ n => (inspect, n + 1)
  DownloadFromContainer := fun _ _ n => (download, n + 1)
  RemoveContainer := fun _ n => (remove, n + 1)

/-- The client as the docker daemon sees it: each method answers as the
method of the client does, and the state holds, next to the state of the
daemon, the requests the daemon has received, in order. -/
def Client.recording {σ : Type} (c : Client σ) : Client (σ × List Call) where
  PullImage := fun opts s =>
    ((c.PullImage opts s.1).1, (c.PullImage opts s.1).2, s.2 ++ [Call.PullImage opts])
  InspectImage := fun name s =>
    ((c.InspectImage name s.1).1, (c.InspectImage name s.1).2, s.2 ++ [Call.InspectImage name])
  CreateContainer := fun img s =>
    ((c.CreateContainer img s.1).1, (c.CreateContainer img s.1).2,
      s.2 ++ [Call.CreateContainer img])
  InspectContainerWithOptions := fun id s =>
    ((c.InspectContainerWithOptions id s.1).1, (c.InspectContainerWithOptions id s.1).2,
      s.2 ++ [Call.InspectContainer id])
  DownloadFromContainer := fun id path s =>
    ((c.DownloadFromContainer id path s.1).1, (c.DownloadFromContainer id path s.1).2,
      s.2 ++ [Call.DownloadFromContainer id path])
  RemoveContainer := fun id s =>
    ((c.RemoveContainer id s.1).1, (c.RemoveContainer id s.1).2,
      s.2 ++ [Call.RemoveContainer id])

/-- The requests that the docker daemon receives while `ExtractProcfile`
runs, in order. -/
def Registry.received {σ : Type} (r : Registry σ) (img : Str) (st : σ) : List Call :=
  ((Registry.mk r.client.recording r.tar).ExtractProcfile img (st, [])).2.1.2

/-- A docker daemon that answers like the server of
`TestRegistry_ExtractProcfileHandlesWorkingDirectory`: the container `foo`
with the given configuration, and the archive for a download of the given
path only.  The state holds the requests received, in order. -/
def fileDaemon (cfg : Option Config) (path : Str) (archive : Bytes) : Client (List Call) where
  PullImage := fun opts log => (none, log ++ [Call.PullImage opts])
  InspectImage := fun name log => (.ok ⟨[]⟩, log ++ [Call.InspectImage name])
  CreateContainer := fun img log =>
    (.ok ⟨"foo".toList, none⟩, log ++ [Call.CreateContainer img])
  InspectContainerWithOptions := fun id log =>
    (.ok ⟨"foo".toList, cfg⟩, log ++ [Call.InspectContainer id])
  DownloadFromContainer := fun id p log =>
    (if p = path then (archive, none) else ([], some (Error.new "no such file")),
      log ++ [Call.DownloadFromContainer id p])
  RemoveContainer := fun id log => (none, log ++ [Call.RemoveContainer id])

/-- A tar reader that finds one entry, the whole input. -/
def mockTar : Tar where
  Next := fun _ => none
  Copy := fun b => .ok b

/-- A registry over a daemon that answers the image requests as given and
the container requests like the server of `TestRegistry_ExtractProcfile`:
the container `foo` without a configuration, one file in the archive. -/
def mockRegistry (pull : Option Error) (inspectImage : Except Error Image) : Registry Nat where
  client :=
    mockClient pull inspectImage (.ok ⟨"foo".toList, none⟩) (.ok ⟨"foo".toList, none⟩)
      ([119, 101, 98], none) none
  tar := mockTar

end docker

/-! ## `gorm` and the database, as far as `pkg/store` uses them -/

namespace Error

/-- Go `errors.Is`: the error is the target, or wraps an error that is. -/
def Is : Error → Error → Bool
  | new msg, target => decide (new msg = target)
  | wrapf msg inner, target => decide (wrapf msg inner = target) || Is inner target
  | validation inner, target => decide (validation inner = target) || Is inner target

end Error

namespace gorm

/-- The error `gorm.ErrRecordNotFound`, which `First` returns when no row
matches. -/
def ErrRecordNotFound : Error := Error.new "record not found"

end gorm

namespace store

/-- A row of the table `releases`: the image is stored as the text that
`Image.Value` gives, a nil image as NULL. -/
structure ReleaseRow where
  ID : Str
  AppID : Str
  Image : Option Str
  Version : Int
  Procfile : Bytes
  CreatedAt : Option Nat
  deriving DecidableEq

/-- The content of the database behind a `Database` handle: the committed
rows of the two tables, in the order of their insertion. -/
structure Database where
  apps : List App
  releases : List ReleaseRow
  deriving DecidableEq

/-- What the world outside decides in one call of `CreateRelease`: whether
the version query, the call of `tx.Create` and the commit fail, the values
of `ksuid.New().String()` and `time.Now().UTC()` in the `BeforeCreate` hook
of the release, and their values in the `BeforeCreate` hook of the app,
which runs when the release carries an app. -/
structure Env where
  lookupErr : Option Error
  insertErr : Option Error
  commitErr : Option Error
  newID : Str
  now : Nat
  newAppID : Str
  appNow : Nat
  deriving DecidableEq

/-- A failing version query reports an error other than record-not-found;
record-not-found is the answer of a query that ran and matched no row. -/
def Env.lookupSound (env : Env) : Prop :=
  ∀ e, env.lookupErr = some e → e.Is gorm.ErrRecordNotFound = false

/-- An open transaction: the rows it has inserted in the two tables and not
yet committed. -/
structure Tx where
  pendingApps : List App
  pending : List ReleaseRow
  deriving DecidableEq

/-- The columns of a release.  The association `App` is not a column: gorm
saves it in the table `apps` and copies its primary key to `AppID` before
it writes the row of the release, see `Tx.Create`. -/
def Release.row (r : Release) : ReleaseRow :=
  { ID := r.ID, AppID := r.AppID, Image := r.Image.map image.Image.String,
    Version := r.Version, Procfile := r.Procfile, CreatedAt := r.CreatedAt }

/-- The method `Release.BeforeCreate`, the pre-creation hook. -/
def Release.BeforeCreate (r : Release) (env : Env) : Release :=
  { r with ID := env.newID, CreatedAt := some env.now }

/-- The method `App.BeforeCreate`, the pre-creation hook: it gives the app a
new ID, whatever ID it had. -/
def App.BeforeCreate (a : App) (env : Env) : App :=
  { a with ID := env.newAppID, CreatedAt := some env.appNow }

/-- The first row in the order `version DESC`: a row of the greatest
version, if there is a row. -/
def firstByVersionDesc : List ReleaseRow → Option ReleaseRow
  | [] => none
  | r :: rs =>
    match firstByVersionDesc rs with
    | none => some r
    | some m => if r.Version < m.Version then some m else some r

/-- Go `db.Begin()`: a transaction with nothing pending. -/
def Tx.Begin : Tx := ⟨[], []⟩

/-- The query `tx.Where("app_id = ?", appID).Order("version DESC").First(..)`
over the committed rows and the rows pending in the transaction itself.  The
destination is a release that gorm allocates before it runs the query; it
stays the zero release when the query fails or matches no row. -/
def Tx.First (tx : Tx) (db : Database) (env : Env) (appID : Str) : Int × Option Error :=
  match env.lookupErr with
  | some e => (0, some e)
  | none =>
    match firstByVersionDesc ((db.releases ++ tx.pending).filter (fun row => row.AppID = appID)) with
    | none => (0, some gorm.ErrRecordNotFound)
    | some row => (row.Version, none)

/-- The method `Database.currentVersion`: the version read from the
destination of the query, and the error of the query. -/
def Database.currentVersion (db : Database) (tx : Tx) (env : Env) (appID : Str) :
    Int × Option Error :=
  tx.First db env appID

/-- The step of `tx.Create(release)` that saves the app of the release.
`Release.App` is a belongs-to association with the foreign key `AppID`, and
gorm creates the value of such an association before the row that refers to
it: the `BeforeCreate` hook of the app runs, and the app is inserted with
`ON CONFLICT DO NOTHING`, that is unless a row has its primary key.  The
result is the transaction and the app as the hook left it. -/
def Tx.saveApp (tx : Tx) (db : Database) (env : Env) (a : App) : Tx × App :=
  if (db.apps ++ tx.pendingApps).any (fun row => row.ID = (a.BeforeCreate env).ID) then
    (tx, a.BeforeCreate env)
  else ({ tx with pendingApps := tx.pendingApps ++ [a.BeforeCreate env] }, a.BeforeCreate env)

/-- Go `tx.Create(release)`, unless it fails: the `BeforeCreate` hook of the
release runs; when `release.App` is not nil the app is saved and its primary
key is written to `release.AppID`; then the row of the release is inserted
in the transaction.  When the call fails the transaction is rolled back by
the caller, and what it had inserted does not matter. -/
def Tx.Create (tx : Tx) (db : Database) (env : Env) (release : Release) :
    (Tx × Release) × Option Error :=
  match env.insertErr with
  | some e => ((tx, release.BeforeCreate env), some e)
  | none =>
    match release.App with
    | none =>
      (({ tx with pending := tx.pending ++ [(release.BeforeCreate env).row] },
        release.BeforeCreate env), none)
    | some a =>
      let saved := tx.saveApp db env a
      let created : Release :=
        { release.BeforeCreate env with AppID := saved.2.ID, App := some saved.2 }
      (({ saved.1 with pending := saved.1.pending ++ [created.row] }, created), none)

/-- Go `tx.Commit()`: the pending rows become committed rows, unless the
commit fails; then nothing changes. -/
def Tx.Commit (tx : Tx) (db : Database) (env : Env) : (Database × Tx) × Option Error :=
  match env.commitErr with
  | some e => ((db, tx), some e)
  | none =>
    (({ apps := db.apps ++ tx.pendingApps, releases := db.releases ++ tx.pending }, ⟨[], []⟩),
      none)

/-- Go `tx.Rollback()`: the pending rows are dropped; after a commit there
are none. -/
def Tx.Rollback (_tx : Tx) (db : Database) : Database × Tx :=
  (db, ⟨[], []⟩)

/-- The statements of `CreateRelease` after the version lookup: set the
version, create the release in the transaction, commit; the deferred
rollback runs on each exit. -/
def Database.insertAndCommit (db : Database) (tx : Tx) (env : Env) (release : Release)
    (ver : Int) : (Option Release × Option Error) × Database :=
  match tx.Create db env { release with Version := ver + 1 } with
  | ((tx1, _), some e) => ((none, some (Error.wrapf "creating release" e)), (tx1.Rollback db).1)
  | ((tx1, created), none) =>
    match tx1.Commit db env with
    | ((db1, tx2), cerr) => ((some created, cerr), (tx2.Rollback db1).1)

/-- The method `Database.CreateRelease` creates a release.  The result is the
pair of Go results and the content of the database after the deferred
rollback.  Line 87 of `releases.go` builds a locking statement and reads its
`Error` field: no method that runs a statement is called on it, so it sends
nothing to the database. -/
def Database.CreateRelease (db : Database) (env : Env) (release : Release) :
    (Option Release × Option Error) × Database :=
  let tx := Tx.Begin
  match db.currentVersion tx env release.AppID with
  | (ver, some e) =>
    if e.Is gorm.ErrRecordNotFound then db.insertAndCommit tx env release ver
    else ((none, some (Error.wrapf "getting latest release version" e)), (tx.Rollback db).1)
  | (ver, none) => db.insertAndCommit tx env release ver

/-- A call of `CreateRelease` between two of its statements that reach the
database: before the version query, after it, after the insert, and
returned.  The call holds no lock at any of them. -/
inductive Progress where
  | start (env : Env) (release : Release)
  | looked (env : Env) (tx : Tx) (release : Release) (ver : Int)
  | inserted (env : Env) (tx : Tx) (created : Release)
  | done (result : Option Release × Option Error)
  deriving DecidableEq

/-- The next statement of a call of `CreateRelease` that reaches the
database, run on the committed content `db`: the version query, the insert
in the transaction of the call, or the commit. -/
def Progress.step (db : Database) : Progress → Database × Progress
  | .start env release =>
    match db.currentVersion Tx.Begin env release.AppID with
    | (ver, some e) =>
      if e.Is gorm.ErrRecordNotFound then (db, .looked env Tx.Begin release ver)
      else
        ((Tx.Begin.Rollback db).1,
          .done (none, some (Error.wrapf "getting latest release version" e)))
    | (ver, none) => (db, .looked env Tx.Begin release ver)
  | .looked env tx release ver =>
    match tx.Create db env { release with Version := ver + 1 } with
    | ((tx1, _), some e) =>
      ((tx1.Rollback db).1, .done (none, some (Error.wrapf "creating release" e)))
    | ((tx1, created), none) => (db, .inserted env tx1 created)
  | .inserted env tx created =>
    match tx.Commit db env with
    | ((db1, tx2), cerr) => ((tx2.Rollback db1).1, .done (some created, cerr))
  | .done result => (db, .done result)

/-- Concurrent calls of `CreateRelease` on one database: the schedule names,
step after step, the call that runs its next statement. -/
def runSchedule (db : Database) (calls : List Progress) : List Nat → Database × List Progress
  | [] => (db, calls)
  | i :: rest =>
    match calls.get? i with
    | none => runSchedule db calls rest
    | some call => runSchedule (call.step db).1 (calls.set i (call.step db).2) rest

/-- The method `Database.UpdateApp`: `Save` writes all fields of the rows
that have the ID of the app, and inserts the app when no row has it; the
table `releases` is not written. -/
def Database.UpdateApp (db : Database) (app : App) (err : Option Error) :
    Option Error × Database :=
  match err with
  | some e => (some e, db)
  | none =>
    if db.apps.any (fun row => row.ID = app.ID) then
      (none, { db with apps := db.apps.map (fun row => if row.ID = app.ID then app else row) })
    else (none, { db with apps := db.apps ++ [app] })

/-- The method `Database.DeleteApp` deletes an app: it sets `DeletedAt` to
the current time and updates the app. -/
def Database.DeleteApp (db : Database) (now : Nat) (app : App) (err : Option Error) :
    Option Error × Database :=
  db.UpdateApp { app with DeletedAt := some now } err

/-- The store states reached from a store without releases, whatever apps
it holds, by calls of `CreateRelease`, successful or not, and of
`DeleteApp`, one after the other. -/
inductive Reachable : Database → Prop where
  | empty (apps : List App) : Reachable ⟨apps, []⟩
  | createRelease (db : Database) (env : Env) (release : Release) :
      Reachable db → env.lookupSound → Reachable (db.CreateRelease env release).2
  | deleteApp (db : Database) (now : Nat) (app : App) (err : Option Error) :
      Reachable db → Reachable (db.DeleteApp now app err).2

/-- The store states reached as in `Reachable` when every call of
`CreateRelease` names its app by `AppID` and passes a nil `App`, as the
controller does. -/
inductive ReachableByAppID : Database → Prop where
  | empty (apps : List App) : ReachableByAppID ⟨apps, []⟩
  | createRelease (db : Database) (env : Env) (release : Release) :
      ReachableByAppID db → env.lookupSound → release.App = none →
      ReachableByAppID (db.CreateRelease env release).2
  | deleteApp (db : Database) (now : Nat) (app : App) (err : Option Error) :
      ReachableByAppID db → ReachableByAppID (db.DeleteApp now app err).2

/-- The release that a successful `tx.Create` hands back: the hook has set
its ID and its creation time, and when it carries an app, that app is as its
own hook left it and `AppID` is the ID of that app. -/
def Release.created (r : Release) (env : Env) : Release :=
  match r.App with
  | none => r.BeforeCreate env
  | some a =>
    { r.BeforeCreate env with AppID := (a.BeforeCreate env).ID, App := some (a.BeforeCreate env) }

/-- The rows that a successful `tx.Create` of a release adds to the table
`apps`: the app of the release as its hook left it, when the release carries
one and no row has the new ID. -/
def Database.appsAdded (db : Database) (env : Env) (r : Release) : List App :=
  match r.App with
  | none => []
  | some a =>
    if db.apps.any (fun row => row.ID = (a.BeforeCreate env).ID) then []
    else [a.BeforeCreate env]

/-- The versions of the stored releases of an app, in the order of their
insertion. -/
def Database.versionsOf (db : Database) (appID : Str) : List Int :=
  (db.releases.filter (fun row => row.AppID = appID)).map (fun row => row.Version)

/-- An environment in which nothing fails, for a release that carries no
app: the hook of an app does not run, and its values are left empty. -/
def Env.quiet (newID : Str) (now : Nat) : Env :=
  { lookupErr := none, insertErr := none, commitErr := none, newID := newID, now := now,
    newAppID := [], appNow := 0 }

/-- An environment in which nothing fails, for a release that carries an
app. -/
def Env.quietApp (newID : Str) (now : Nat) (newAppID : Str) (appNow : Nat) : Env :=
  { lookupErr := none, insertErr := none, commitErr := none, newID := newID, now := now,
    newAppID := newAppID, appNow := appNow }

/-- The versions 1, 2, ..., n. -/
def versionsUpTo (n : Nat) : List Int :=
  (List.range n).map (fun (i : Nat) => (i : Int) + 1)

/-- The store after two releases of the app `a1`, the soft deletion of that
app, a third release of it and a release of the app `a2`, nothing
failing. -/
def demoDatabase : Database :=
  let db1 := ((Database.mk [] []).CreateRelease (Env.quiet "r1".toList 1)
    ⟨[], "a1".toList, none, none, 0, [], none⟩).2
  let db2 := (db1.CreateRelease (Env.quiet "r2".toList 2)
    ⟨[], "a1".toList, none, none, 0, [], none⟩).2
  let db3 := (db2.DeleteApp 3 ⟨"a1".toList, "app".toList, some 0, none⟩ none).2
  let db4 := (db3.CreateRelease (Env.quiet "r3".toList 4)
    ⟨[], "a1".toList, none, none, 0, [], none⟩).2
  (db4.CreateRelease (Env.quiet "r4".toList 5) ⟨[], "a2".toList, none, none, 0, [], none⟩).2

/-- The store after two calls of `CreateRelease` on the empty store that pass
the app in the field `App`, as `TestAura_CreateRelease` does: the first
passes a new app, which is saved under the ID `a1`; the second passes that
app and its ID as `AppID`. -/
def skewDatabase : Database :=
  let db1 := ((Database.mk [] []).CreateRelease (Env.quietApp "r1".toList 2 "a1".toList 1)
    ⟨[], [], some ⟨[], "test app".toList, none, none⟩, none, 0, [], none⟩).2
  (db1.CreateRelease (Env.quietApp "r2".toList 4 "a2".toList 3)
    ⟨[], "a1".toList, some ⟨"a1".toList, "test app".toList, some 1, none⟩, none, 0, [],
      none⟩).2

end store

/-! ## `database/sql/driver` values, `Image.Scan` and `Image.Value` -/

namespace driver

/-- Go `driver.Value`: what a database driver hands to `Scan` and takes from
`Value`, without the floating-point numbers. -/
inductive Value where
  | null
  | int64 (n : Int)
  | bool (b : Bool)
  | bytes (b : Bytes)
  | string (s : Str)
  | time (t : Nat)
  deriving DecidableEq

end driver

namespace image

/-- The method `Image.Scan` decodes an image from a database field.  The
result is the receiver after the call and the error. -/
def Image.Scan (i : Image) (src : driver.Value) : Image × Option Error :=
  match src with
  | .string b =>
    match Decode b with
    | .error err => (i, some err)
    | .ok img => (img, none)
  | _ => (i, none)

/-- The method `Image.Value` encodes an image into a database field. -/
def Image.Value (i : Image) : driver.Value × Option Error :=
  (driver.Value.string i.String, none)

end image

/-! ## `strconv.Atoi` -/

namespace strconv

/-- The value of a run of decimal digits after the digits read so far, if
every byte is a digit. -/
def digits : Str → Nat → Option Nat
  | [], acc => some acc
  | c :: rest, acc =>
    if '0'.toNat ≤ c.toNat ∧ c.toNat ≤ '9'.toNat then digits rest (acc * 10 + (c.toNat - '0'.toNat))
    else none

/-- The error `strconv.ErrSyntax` inside the `NumError` of `Atoi`. -/
def ErrSyntax : Error := Error.wrapf "strconv.Atoi" (Error.new "invalid syntax")

/-- The error `strconv.ErrRange` inside the `NumError` of `Atoi`. -/
def ErrRange : Error := Error.wrapf "strconv.Atoi" (Error.new "value out of range")

/-- Go `strconv.Atoi` for a 64-bit `int`: an optional sign and at least one
decimal digit, within the range of `int`. -/
def Atoi (s : Str) : Except Error Int :=
  match s with
  | [] => .error ErrSyntax
  | c :: rest =>
    let body := if c = '-' ∨ c = '+' then rest else s
    if body = [] then .error ErrSyntax
    else
      match digits body 0 with
      | none => .error ErrSyntax
      | some n =>
        let v : Int := if c = '-' then -(n : Int) else (n : Int)
        if v < -(2 ^ 63 : Int) ∨ (2 ^ 63 : Int) ≤ v then .error ErrRange
        else .ok v

end strconv

/-! ## The flat package `aura`: queries -/

namespace aura

/-- The error `ErrNotFound`, returned when a record is not found. -/
def ErrNotFound : Error := Error.new "not found"

/-- AppsQuery contains an applications query. -/
structure AppsQuery where
  ID : Str
  Name : Str
  deriving DecidableEq

/-- ReleasesQuery contains a release query. -/
structure ReleasesQuery where
  App : Option App
  Version : Int
  deriving DecidableEq

/-- The rows that `ReleasesQuery.scope` lets through: those of the app when
`App` is not nil, and of the version when `Version` is greater than 0. -/
def ReleasesQuery.scope (q : ReleasesQuery) (row : Release) : Bool :=
  (match q.App with
    | none => true
    | some app => decide (row.AppID = app.ID)) &&
  (if q.Version > 0 then decide (row.Version = q.Version) else true)

end aura

/-! ## `api`: the handler of `GET /apps/{app}/releases/{version}` -/

namespace api

/-- The methods of `Delegate` that the handler calls. -/
structure Delegate (σ : Type) where
  AppsFind : aura.AppsQuery → σ → (Option aura.App × Option Error) × σ
  ReleasesFind : aura.ReleasesQuery → σ → (Option aura.Release × Option Error) × σ

/-- The calls the handler can make on the delegate, with their arguments. -/
inductive Call where
  | AppsFind (q : aura.AppsQuery)
  | ReleasesFind (q : aura.ReleasesQuery)
  deriving DecidableEq

/-- The body of a response: the message of `render.JSONError`, or the release
that `toReleaseResp` and `render.JSON` render. -/
inductive Body where
  | error (msg : String)
  | release (release : Option aura.Release)
  deriving DecidableEq

/-- The response written by the handler. -/
structure Response where
  status : Nat
  body : Body
  deriving DecidableEq

/-- The handler `Server.handleGetRelease`, on the path parameters `app` and
`version`.  The result is the response, the state of the world after the
request, and the calls made on the delegate, in order. -/
def handleGetRelease {σ : Type} (s : Delegate σ) (appID verStr : Str) (st : σ) :
    Response × σ × List Call :=
  match strconv.Atoi verStr with
  | .error _ => (⟨400, .error "version must be a positive integer"⟩, st, [])
  | .ok ver =>
    match s.AppsFind ⟨appID, []⟩ st with
    | ((_, some err), st1) =>
      if err.Is aura.ErrNotFound then
        (⟨404, .error "app not found"⟩, st1, [Call.AppsFind ⟨appID, []⟩])
      else (⟨500, .error "internal server error"⟩, st1, [Call.AppsFind ⟨appID, []⟩])
    | ((app, none), st1) =>
      match s.ReleasesFind ⟨app, ver⟩ st1 with
      | ((_, some err), st2) =>
        if err.Is aura.ErrNotFound then
          (⟨404, .error "release not found"⟩, st2,
            [Call.AppsFind ⟨appID, []⟩, Call.ReleasesFind ⟨app, ver⟩])
        else
          (⟨500, .error "internal server error"⟩, st2,
            [Call.AppsFind ⟨appID, []⟩, Call.ReleasesFind ⟨app, ver⟩])
      | ((release, none), st2) =>
        (⟨200, .release release⟩, st2,
          [Call.AppsFind ⟨appID, []⟩, Call.ReleasesFind ⟨app, ver⟩])

/-- A delegate over fixed lists of apps and releases: `AppsFind` returns the
first app with the ID asked for, `ReleasesFind` the release of the lowest
version among those that the scope of the query lets through, as
`releaseService.First` orders by version.  The state counts the calls. -/
def listDelegate (apps : List aura.App) (releases : List aura.Release) : Delegate Nat where
  AppsFind := fun q n =>
    match apps.find? (fun a => decide (a.ID = q.ID)) with
    | none => ((none, some aura.ErrNotFound), n + 1)
    | some a => ((some a, none), n + 1)
  ReleasesFind := fun q n =>
    match (releases.filter q.scope).foldl
        (fun (best : Option aura.Release) r =>
          match best with
          | none => some r
          | some b => if r.Version < b.Version then some r else some b) none with
    | none => ((none, some aura.ErrNotFound), n + 1)
    | some r => ((some r, none), n + 1)

end api

/-! ## `pkg/store`: the apps queries -/

namespace store

/-- The error `ErrNotFound`, returned when a record is not found. -/
def ErrNotFound : Error := Error.new "not found"

/-- AppsQuery contains an applications query. -/
structure AppsQuery where
  ID : Str
  Name : Str
  deriving DecidableEq

/-- The rows that `AppsQuery.scope` lets through: `deleted_at` is null, the
ID is the one asked for if one is, and so for the name. -/
def AppsQuery.scope (q : AppsQuery) (row : App) : Bool :=
  decide (row.DeletedAt = none) &&
  (if q.ID ≠ [] then decide (row.ID = q.ID) else true) &&
  (if q.Name ≠ [] then decide (row.Name = q.Name) else true)

/-- The rows in the order of `order("name")`: by name, rows of one name in
the order of their insertion. -/
def orderByName (rows : List App) : List App :=
  rows.insertionSort (fun a b => a.Name ≤ b.Name)

/-- The method `Database.Apps` gets all apps matching the query; `err` is the
failure of the query, if it fails. -/
def Database.Apps (db : Database) (q : AppsQuery) (err : Option Error) :
    List App × Option Error :=
  match err with
  | some e => ([], some e)
  | none => (orderByName (db.apps.filter q.scope), none)

/-- The method `Database.App` gets the first app that matches the query. -/
def Database.App (db : Database) (q : AppsQuery) (err : Option Error) :
    Option App × Option Error :=
  match err with
  | some e => if e.Is gorm.ErrRecordNotFound then (none, some ErrNotFound) else (none, some e)
  | none =>
    match orderByName (db.apps.filter q.scope) with
    | [] => (none, some ErrNotFound)
    | app :: _ => (some app, none)

end store

/-! ## Lemmas on the `strings` model -/

namespace strings

theorem index_ge (s : Str) (c : Char) : -1 ≤ Index s c := by
  induction s with
  | nil => simp [Index]
  | cons x xs ih =>
    unfold Index
    split_ifs <;> omega

theorem index_nonneg_iff (s : Str) (c : Char) : 0 ≤ Index s c ↔ c ∈ s := by
  induction s with
  | nil => simp [Index]
  | cons x xs ih =>
    unfold Index
    by_cases hx : x = c
    · simp [hx]
    · have hc : ¬ c = x := fun h => hx h.symm
      by_cases h0 : 0 ≤ Index xs c
      · simp only [hx, h0, if_true, if_false, List.mem_cons, hc, false_or]
        constructor
        · intro _; exact ih.mp h0
        · intro _; omega
      · simp only [hx, h0, if_false, List.mem_cons, hc, false_or]
        constructor
        · intro h; omega
        · intro h; exact absurd (ih.mpr h) h0

theorem contains_iff (s : Str) (c : Char) : Contains s c = true ↔ c ∈ s := by
  simp [Contains, index_nonneg_iff]

theorem lastIndex_nonneg_iff (s : Str) (c : Char) : 0 ≤ LastIndex s c ↔ c ∈ s := by
  induction s with
  | nil => simp [LastIndex]
  | cons x xs ih =>
    unfold LastIndex
    by_cases h0 : 0 ≤ LastIndex xs c
    · simp only [h0, if_true, List.mem_cons]
      constructor
      · intro _; exact Or.inr (ih.mp h0)
      · intro _; omega
    · have hm : c ∉ xs := fun h => h0 (ih.mpr h)
      by_cases hx : x = c
      · simp [h0, hx]
      · have hc : ¬ c = x := fun h => hx h.symm
        simp [h0, hx, hc, hm]

theorem lastIndex_append (p t : Str) (c : Char) (h : c ∉ t) :
    LastIndex (p ++ c :: t) c = p.length := by
  induction p with
  | nil =>
    have h0 : ¬ 0 ≤ LastIndex t c := fun h1 => h ((lastIndex_nonneg_iff t c).mp h1)
    simp [LastIndex, h0]
  | cons x xs ih =>
    have h0 : (0 : Int) ≤ (xs.length : Int) := Int.natCast_nonneg _
    show LastIndex (x :: (xs ++ c :: t)) c = ((x :: xs).length : Int)
    unfold LastIndex
    rw [ih]
    simp [h0]

theorem split_ne_nil (s : Str) (c : Char) : Split s c ≠ [] := by
  induction s with
  | nil => simp [Split]
  | cons x xs ih =>
    unfold Split
    split_ifs
    · simp
    · split <;> simp

theorem split_of_not_mem (s : Str) (c : Char) (h : c ∉ s) : Split s c = [s] := by
  induction s with
  | nil => simp [Split]
  | cons x xs ih =>
    have hx : ¬ x = c := fun e => h (by simp [e])
    have hxs : c ∉ xs := fun e => h (by simp [e])
    simp [Split, hx, ih hxs]

theorem split_append (a r : Str) (c : Char) (h : c ∉ a) :
    Split (a ++ c :: r) c = a :: Split r c := by
  induction a with
  | nil => simp [Split]
  | cons x xs ih =>
    have hx : ¬ x = c := fun e => h (by simp [e])
    have hxs : c ∉ xs := fun e => h (by simp [e])
    simp [Split, hx, ih hxs]

theorem split_length (s : Str) (c : Char) : (Split s c).length = s.count c + 1 := by
  induction s with
  | nil => simp [Split]
  | cons x xs ih =>
    unfold Split
    by_cases hx : x = c
    · simp [hx, ih]
    · simp only [hx, if_false]
      have hc : (x == c) = false := by simp [hx]
      rw [List.count_cons, hc]
      cases hs : Split xs c with
      | nil => exact absurd hs (split_ne_nil xs c)
      | cons h t =>
        rw [hs] at ih
        simpa using ih

theorem join_split (s : Str) (c : Char) : Join (Split s c) [c] = s := by
  induction s with
  | nil => simp [Split, Join]
  | cons x xs ih =>
    unfold Split
    by_cases hx : x = c
    · simp only [hx, if_true]
      cases hs : Split xs c with
      | nil => exact absurd hs (split_ne_nil xs c)
      | cons h t =>
        rw [hs] at ih
        simp [Join, ih]
    · simp only [hx, if_false]
      cases hs : Split xs c with
      | nil => exact absurd hs (split_ne_nil xs c)
      | cons h t =>
        rw [hs] at ih
        cases t with
        | nil => simpa [Join] using ih
        | cons b rest =>
          simp only [Join, List.cons_append] at ih ⊢
          rw [ih]

theorem split_head (s : Str) (c : Char) :
    (Split s c).getD 0 [] = s.takeWhile (fun x => !(x == c)) := by
  induction s with
  | nil => simp [Split]
  | cons x xs ih =>
    unfold Split
    by_cases hx : x = c
    · simp [hx]
    · simp only [hx, if_false]
      cases hs : Split xs c with
      | nil => exact absurd hs (split_ne_nil xs c)
      | cons h t =>
        rw [hs] at ih
        simp only [List.getD_cons_zero] at ih
        simp [List.takeWhile_cons, hx, ih]

/-- The first occurrence of a byte splits the string around it. -/
theorem exists_first (s : Str) (c : Char) (h : c ∈ s) :
    ∃ a r, s = a ++ c :: r ∧ c ∉ a := by
  induction s with
  | nil => simp at h
  | cons x xs ih =>
    by_cases hx : x = c
    · exact ⟨[], xs, by simp [hx], by simp⟩
    · have hc : ¬ c = x := fun e => hx e.symm
      have hm : c ∈ xs := by simpa [hc] using h
      obtain ⟨a, r, e, ha⟩ := ih hm
      exact ⟨x :: a, r, by simp [e], by simp [hc, ha]⟩

/-- The last occurrence of a byte splits the string around it. -/
theorem exists_last (s : Str) (c : Char) (h : c ∈ s) :
    ∃ p t, s = p ++ c :: t ∧ c ∉ t := by
  induction s with
  | nil => simp at h
  | cons x xs ih =>
    by_cases hm : c ∈ xs
    · obtain ⟨p, t, e, ht⟩ := ih hm
      exact ⟨x :: p, t, by simp [e], ht⟩
    · have hx : x = c := by
        rcases List.mem_cons.mp h with e | e
        · exact e.symm
        · exact absurd e hm
      exact ⟨[], xs, by simp [hx], hm⟩

end strings

/-! ## Lemmas on the two splitting steps of `Decode` -/

namespace image

open strings

theorem splitRepositoryTag_at (a r : Str) (h : '@' ∉ a) :
    splitRepositoryTag (a ++ '@' :: r) = (a, r.takeWhile (fun x => !(x == '@'))) := by
  have hi : 0 ≤ Index (a ++ '@' :: r) '@' := (index_nonneg_iff _ _).mpr (by simp)
  unfold splitRepositoryTag
  rw [if_pos hi, split_append a r '@' h]
  simp only [List.getD_cons_zero, List.getD_cons_succ]
  rw [split_head]

theorem splitRepositoryTag_plain (s : Str) (h1 : '@' ∉ s) (h2 : ':' ∉ s) :
    splitRepositoryTag s = (s, []) := by
  have hi : ¬ 0 ≤ Index s '@' := fun h => h1 ((index_nonneg_iff _ _).mp h)
  have hl : LastIndex s ':' < 0 := by
    have : ¬ 0 ≤ LastIndex s ':' := fun h => h2 ((lastIndex_nonneg_iff _ _).mp h)
    omega
  unfold splitRepositoryTag
  rw [if_neg hi]
  simp [hl]

theorem splitRepositoryTag_tag (p t : Str) (h1 : '@' ∉ p ++ ':' :: t) (h2 : ':' ∉ t)
    (h3 : '/' ∉ t) : splitRepositoryTag (p ++ ':' :: t) = (p, t) := by
  have hi : ¬ 0 ≤ Index (p ++ ':' :: t) '@' := fun h => h1 ((index_nonneg_iff _ _).mp h)
  have hc : ¬ Contains t '/' = true := fun h => h3 ((contains_iff _ _).mp h)
  unfold splitRepositoryTag
  rw [if_neg hi]
  simp only [lastIndex_append p t ':' h2, Int.toNat_ofNat]
  have hd : List.drop (p.length + 1) (p ++ ':' :: t) = t := by
    rw [List.drop_append]
    simp
  have hn : ¬ ((p.length : Int) < 0) := by omega
  rw [if_neg hn, hd, if_pos hc]
  simp

theorem splitRepositoryTag_quirk (p t : Str) (h1 : '@' ∉ p ++ ':' :: t) (h2 : ':' ∉ t)
    (h3 : '/' ∈ t) : splitRepositoryTag (p ++ ':' :: t) = (p ++ ':' :: t, []) := by
  have hi : ¬ 0 ≤ Index (p ++ ':' :: t) '@' := fun h => h1 ((index_nonneg_iff _ _).mp h)
  have hc : Contains t '/' = true := (contains_iff _ _).mpr h3
  unfold splitRepositoryTag
  rw [if_neg hi]
  simp only [lastIndex_append p t ':' h2, Int.toNat_ofNat]
  have hd : List.drop (p.length + 1) (p ++ ':' :: t) = t := by
    rw [List.drop_append]
    simp
  have hn : ¬ ((p.length : Int) < 0) := by omega
  rw [if_neg hn, hd, if_neg (not_not.mpr hc)]

theorem splitRepository_none (p : Str) (h : '/' ∉ p) : splitRepository p = ([], p) := by
  simp [splitRepository, split_of_not_mem p '/' h]

theorem splitRepository_one (a r : Str) (ha : '/' ∉ a) (hr : '/' ∉ r) :
    splitRepository (a ++ '/' :: r) = ([], a ++ '/' :: r) := by
  simp [splitRepository, split_append a r '/' ha, split_of_not_mem r '/' hr, Join]

theorem splitRepository_many (a r : Str) (ha : '/' ∉ a) (hr : '/' ∈ r) :
    splitRepository (a ++ '/' :: r) = (a, r) := by
  have hl : 2 ≤ (Split r '/').length := by
    rw [split_length]
    have := List.count_pos_iff.mpr hr
    omega
  unfold splitRepository
  simp only [split_append a r '/' ha, List.length_cons, List.getD_cons_zero, List.drop_succ_cons,
    List.drop_zero, join_split]
  rw [if_neg (by omega), if_neg (by omega)]

theorem splitRepository_snd_eq_nil_iff (p : Str) : (splitRepository p).2 = [] ↔ p = [] := by
  constructor
  · intro h
    by_cases hm : '/' ∈ p
    · obtain ⟨a, r, e, ha⟩ := exists_first p '/' hm
      subst e
      by_cases hr : '/' ∈ r
      · rw [splitRepository_many a r ha hr] at h
        simp only at h
        subst h
        simp at hr
      · rw [splitRepository_one a r ha hr] at h
        simp at h
    · rw [splitRepository_none p hm] at h
      exact h
  · intro h
    subst h
    decide

end image

namespace image

open strings

/-- The function `Decode` fails exactly when the repository part is empty. -/
theorem decode_fails_iff_part (s : Str) :
    Decode s = .error (Error.new "invalid image format") ↔ (splitRepositoryTag s).1 = [] := by
  rw [← splitRepository_snd_eq_nil_iff]
  unfold Decode
  by_cases h : (splitRepository (splitRepositoryTag s).1).2 = []
  · simp [h]
  · simp only [h, if_false, iff_false]
    split_ifs <;> simp

/-- A successful `Decode` in terms of the two splitting steps. -/
theorem decode_ok_of_part (s : Str) (h : (splitRepositoryTag s).1 ≠ []) :
    Decode s = .ok
      { Registry := (splitRepository (splitRepositoryTag s).1).1
        Repository := (splitRepository (splitRepositoryTag s).1).2
        Tag := if Contains (splitRepositoryTag s).2 ':' then [] else (splitRepositoryTag s).2
        Digest := if Contains (splitRepositoryTag s).2 ':' then (splitRepositoryTag s).2 else [] } := by
  have h2 : ¬ (splitRepository (splitRepositoryTag s).1).2 = [] :=
    fun e => h ((splitRepository_snd_eq_nil_iff _).mp e)
  unfold Decode
  simp only [h2, if_false]
  split_ifs <;> rfl

/-- The repository part is empty exactly on the three shapes of text listed. -/
theorem part_eq_nil_iff (s : Str) :
    (splitRepositoryTag s).1 = [] ↔
      (s = [] ∨ (∃ r, s = '@' :: r) ∨
        ('@' ∉ s ∧ ∃ t, s = ':' :: t ∧ ':' ∉ t ∧ '/' ∉ t)) := by
  by_cases hat : '@' ∈ s
  · obtain ⟨a, r, e, ha⟩ := exists_first s '@' hat
    subst e
    rw [splitRepositoryTag_at a r ha]
    constructor
    · intro h
      simp only at h
      subst h
      exact Or.inr (Or.inl ⟨r, rfl⟩)
    · rintro (h | ⟨r', h⟩ | ⟨h, _⟩)
      · simp at h
      · cases a with
        | nil => rfl
        | cons x xs =>
          simp only [List.cons_append, List.cons.injEq] at h
          exact absurd h.1 (fun e => ha (by simp [e]))
      · exact absurd hat h
  · by_cases hc : ':' ∈ s
    · obtain ⟨p, t, e, ht⟩ := exists_last s ':' hc
      subst e
      by_cases hs : '/' ∈ t
      · rw [splitRepositoryTag_quirk p t hat ht hs]
        constructor
        · intro h
          simp at h
        · rintro (h | ⟨r', h⟩ | ⟨_, t', h, _, hs'⟩)
          · simp at h
          · exact absurd (by rw [h]; simp) hat
          · have : '/' ∈ p ++ ':' :: t := by simp [hs]
            rw [h] at this
            simp at this
            exact absurd this hs'
      · rw [splitRepositoryTag_tag p t hat ht hs]
        constructor
        · intro h
          simp only at h
          subst h
          exact Or.inr (Or.inr ⟨hat, t, rfl, ht, hs⟩)
        · rintro (h | ⟨r', h⟩ | ⟨_, t', h, hc', _⟩)
          · simp at h
          · exact absurd (by rw [h]; simp) hat
          · cases p with
            | nil => rfl
            | cons x xs =>
              simp only [List.cons_append, List.cons.injEq] at h
              exact absurd (by rw [← h.2]; simp) hc'
    · rw [splitRepositoryTag_plain s hat hc]
      constructor
      · intro h
        exact Or.inl h
      · rintro (h | ⟨r', h⟩ | ⟨_, t', h, _, _⟩)
        · exact h
        · exact absurd (by rw [h]; simp) hat
        · exact absurd (by rw [h]; simp) hc

/-- C2: `Decode(s)` returns an error if and only if the repository it would
produce is empty, which is exactly when `s` is empty, or starts with `@`, or
contains no `@`, starts with `:` and contains no other `:` and no `/`; for
every other text `Decode` succeeds with a non-empty `Repository`; in
particular `Decode("")` fails. -/
theorem decode_error_iff (s : Str) :
    (Decode s = .error (Error.new "invalid image format") ↔
        (splitRepository (splitRepositoryTag s).1).2 = []) ∧
    (Decode s = .error (Error.new "invalid image format") ↔
        (s = [] ∨ (∃ r, s = '@' :: r) ∨
          ('@' ∉ s ∧ ∃ t, s = ':' :: t ∧ ':' ∉ t ∧ '/' ∉ t))) ∧
    (¬ (s = [] ∨ (∃ r, s = '@' :: r) ∨
          ('@' ∉ s ∧ ∃ t, s = ':' :: t ∧ ':' ∉ t ∧ '/' ∉ t)) →
        ∃ img, Decode s = .ok img ∧ img.Repository ≠ []) ∧
    (∀ e, Decode s = .error e → e = Error.new "invalid image format") ∧
    Decode [] = .error (Error.new "invalid image format") := by
  refine ⟨?_, ?_, ?_, ?_, by decide⟩
  · rw [decode_fails_iff_part, splitRepository_snd_eq_nil_iff]
  · rw [decode_fails_iff_part, part_eq_nil_iff]
  · intro h
    have hp : (splitRepositoryTag s).1 ≠ [] := fun e => h ((part_eq_nil_iff s).mp e)
    refine ⟨_, decode_ok_of_part s hp, ?_⟩
    exact fun e => hp ((splitRepository_snd_eq_nil_iff _).mp e)
  · intro e he
    by_cases hp : (splitRepositoryTag s).1 = []
    · rw [(decode_fails_iff_part s).mpr hp] at he
      cases he
      rfl
    · rw [decode_ok_of_part s hp] at he
      cases he

end image

namespace image

open strings

/-- What a successful `Decode` returned, in terms of the two splitting steps. -/
theorem decode_ok_inv (s : Str) (img : Image) (h : Decode s = .ok img) :
    (splitRepositoryTag s).1 ≠ [] ∧
    img.Registry = (splitRepository (splitRepositoryTag s).1).1 ∧
    img.Repository = (splitRepository (splitRepositoryTag s).1).2 ∧
    img.Tag = (if Contains (splitRepositoryTag s).2 ':' then [] else (splitRepositoryTag s).2) ∧
    img.Digest = (if Contains (splitRepositoryTag s).2 ':' then (splitRepositoryTag s).2 else []) := by
  have hp : (splitRepositoryTag s).1 ≠ [] := by
    intro e
    rw [(decode_fails_iff_part s).mpr e] at h
    cases h
  rw [decode_ok_of_part s hp] at h
  cases h
  exact ⟨hp, rfl, rfl, rfl, rfl⟩

/-- C3 (as stated) fails: `foo@bar` contains `@` and has the non-empty part
`foo` before it, yet the text after the `@` becomes the Tag, not the Digest;
and in `a@b:c@d` the Digest is `b:c`, not the text `b:c@d` after the first
`@`. -/
theorem decode_at_digest_counterexample :
    Decode "foo@bar".toList = .ok ⟨[], "foo".toList, "bar".toList, []⟩ ∧
    ¬ (∃ img, Decode "foo@bar".toList = .ok img ∧ img.Digest = "bar".toList ∧ img.Tag = []) ∧
    Decode "a@b:c@d".toList = .ok ⟨[], "a".toList, [], "b:c".toList⟩ ∧
    ¬ (∃ img, Decode "a@b:c@d".toList = .ok img ∧ img.Digest = "b:c@d".toList ∧ img.Tag = []) := by
  refine ⟨by decide, ?_, by decide, ?_⟩
  · rintro ⟨img, h, hd, _⟩
    have e : Decode "foo@bar".toList = .ok ⟨[], "foo".toList, "bar".toList, []⟩ := by decide
    rw [e] at h
    cases h
    revert hd
    decide
  · rintro ⟨img, h, hd, _⟩
    have e : Decode "a@b:c@d".toList = .ok ⟨[], "a".toList, [], "b:c".toList⟩ := by decide
    rw [e] at h
    cases h
    revert hd
    decide

/-- C3 (amended): for every text `a ++ "@" ++ r` whose part `a` before the
first `@` is non-empty, `Decode` succeeds and splits at the first `@`:
registry and repository come from `a`, and the text `q` after that `@`, cut
at the next `@` if there is one, becomes the Digest (with an empty Tag) when
it contains `:`, and the Tag (with an empty Digest) when it does not.  When
`r` has no further `@` and contains `:`, the Digest is all of `r`. -/
theorem decode_at (a r : Str) (ha : a ≠ []) (hat : '@' ∉ a) :
    ∃ img, Decode (a ++ '@' :: r) = .ok img ∧
      (img.Registry, img.Repository) = splitRepository a ∧
      (':' ∈ r.takeWhile (fun x => !(x == '@')) →
        img.Digest = r.takeWhile (fun x => !(x == '@')) ∧ img.Tag = []) ∧
      (':' ∉ r.takeWhile (fun x => !(x == '@')) →
        img.Tag = r.takeWhile (fun x => !(x == '@')) ∧ img.Digest = []) ∧
      ('@' ∉ r → ':' ∈ r → img.Digest = r ∧ img.Tag = []) := by
  have hs := splitRepositoryTag_at a r hat
  have hp : (splitRepositoryTag (a ++ '@' :: r)).1 ≠ [] := by rw [hs]; exact ha
  refine ⟨_, decode_ok_of_part _ hp, ?_⟩
  rw [hs]
  have key1 : ':' ∈ r.takeWhile (fun x => !(x == '@')) →
      Contains (r.takeWhile (fun x => !(x == '@'))) ':' = true := (contains_iff _ _).mpr
  have key2 : ':' ∉ r.takeWhile (fun x => !(x == '@')) →
      ¬ Contains (r.takeWhile (fun x => !(x == '@'))) ':' = true :=
    fun h e => h ((contains_iff _ _).mp e)
  refine ⟨rfl, ?_, ?_, ?_⟩
  · intro h
    simp [key1 h]
  · intro h
    simp [key2 h]
  · intro h1 h2
    have hq : r.takeWhile (fun x => !(x == '@')) = r := by
      rw [List.takeWhile_eq_self_iff]
      intro x hx
      have : x ≠ '@' := fun e => h1 (e ▸ hx)
      simp [this]
    rw [hq]
    simp [(contains_iff r ':').mpr h2]

/-- C3 (amended) at the text `foo/bar@sha256:c3ab8` of the test. -/
theorem decode_at_witness :
    "foo/bar".toList ≠ [] ∧ '@' ∉ "foo/bar".toList ∧
    ∃ img, Decode ("foo/bar".toList ++ '@' :: "sha256:c3ab8".toList) = .ok img ∧
      (img.Registry, img.Repository) = splitRepository "foo/bar".toList ∧
      (':' ∈ "sha256:c3ab8".toList.takeWhile (fun x => !(x == '@')) →
        img.Digest = "sha256:c3ab8".toList.takeWhile (fun x => !(x == '@')) ∧ img.Tag = []) ∧
      (':' ∉ "sha256:c3ab8".toList.takeWhile (fun x => !(x == '@')) →
        img.Tag = "sha256:c3ab8".toList.takeWhile (fun x => !(x == '@')) ∧ img.Digest = []) ∧
      ('@' ∉ "sha256:c3ab8".toList → ':' ∈ "sha256:c3ab8".toList →
        img.Digest = "sha256:c3ab8".toList ∧ img.Tag = []) :=
  ⟨by decide, by decide, decode_at "foo/bar".toList "sha256:c3ab8".toList (by decide) (by decide)⟩

end image

namespace image

open strings

/-- C4 (as stated) fails: `:x` has no `@` and contains `:`, the text `x`
after its last `:` has no `/`, yet `Decode` returns an error and no image
with Tag `x`. -/
theorem decode_colon_counterexample :
    '@' ∉ ":x".toList ∧ ':' ∈ ":x".toList ∧
    ":x".toList = [] ++ ':' :: "x".toList ∧ ':' ∉ "x".toList ∧ '/' ∉ "x".toList ∧
    Decode ":x".toList = .error (Error.new "invalid image format") ∧
    ¬ (∃ img, Decode ":x".toList = .ok img ∧ img.Tag = "x".toList) := by
  refine ⟨by decide, by decide, by decide, by decide, by decide, by decide, ?_⟩
  rintro ⟨img, h, _⟩
  have e : Decode ":x".toList = .error (Error.new "invalid image format") := by decide
  rw [e] at h
  cases h

/-- C4 (amended): for every text `p ++ ":" ++ t` without `@`, where `t` is the
text after the last `:`.  If `t` contains no `/` and `p` is non-empty,
`Decode` returns Tag `t`, an empty Digest, and the registry and repository
of `p`; if `t` contains no `/` and `p` is empty, `Decode` fails.  If `t`
contains a `/`, `Decode` returns an empty Tag and Digest and the registry
and repository of the whole text. -/
theorem decode_colon (p t : Str) (hat : '@' ∉ p ++ ':' :: t) (ht : ':' ∉ t) :
    ('/' ∉ t → p ≠ [] →
      ∃ img, Decode (p ++ ':' :: t) = .ok img ∧ img.Tag = t ∧ img.Digest = [] ∧
        (img.Registry, img.Repository) = splitRepository p) ∧
    ('/' ∉ t → p = [] →
      Decode (p ++ ':' :: t) = .error (Error.new "invalid image format")) ∧
    ('/' ∈ t →
      ∃ img, Decode (p ++ ':' :: t) = .ok img ∧ img.Tag = [] ∧ img.Digest = [] ∧
        (img.Registry, img.Repository) = splitRepository (p ++ ':' :: t)) := by
  have hct : ¬ Contains t ':' = true := fun e => ht ((contains_iff _ _).mp e)
  refine ⟨?_, ?_, ?_⟩
  · intro hs hp
    have e := splitRepositoryTag_tag p t hat ht hs
    have hp2 : (splitRepositoryTag (p ++ ':' :: t)).1 ≠ [] := by rw [e]; exact hp
    refine ⟨_, decode_ok_of_part _ hp2, ?_⟩
    rw [e]
    simp [hct]
  · intro hs hp
    have e := splitRepositoryTag_tag p t hat ht hs
    exact (decode_fails_iff_part _).mpr (by rw [e]; exact hp)
  · intro hs
    have e := splitRepositoryTag_quirk p t hat ht hs
    have hp2 : (splitRepositoryTag (p ++ ':' :: t)).1 ≠ [] := by rw [e]; simp
    refine ⟨_, decode_ok_of_part _ hp2, ?_⟩
    rw [e]
    simp [Contains, Index]

/-- C4 (amended) at `foo/bar:latest`: the text after the last `:` is the Tag. -/
theorem decode_colon_witness :
    '@' ∉ "foo/bar".toList ++ ':' :: "latest".toList ∧ ':' ∉ "latest".toList ∧
    (('/' ∉ "latest".toList → "foo/bar".toList ≠ [] →
      ∃ img, Decode ("foo/bar".toList ++ ':' :: "latest".toList) = .ok img ∧
        img.Tag = "latest".toList ∧ img.Digest = [] ∧
        (img.Registry, img.Repository) = splitRepository "foo/bar".toList) ∧
    ('/' ∉ "latest".toList → "foo/bar".toList = [] →
      Decode ("foo/bar".toList ++ ':' :: "latest".toList) =
        .error (Error.new "invalid image format")) ∧
    ('/' ∈ "latest".toList →
      ∃ img, Decode ("foo/bar".toList ++ ':' :: "latest".toList) = .ok img ∧
        img.Tag = [] ∧ img.Digest = [] ∧
        (img.Registry, img.Repository) =
          splitRepository ("foo/bar".toList ++ ':' :: "latest".toList))) :=
  ⟨by decide, by decide, decode_colon "foo/bar".toList "latest".toList (by decide) (by decide)⟩

/-- C5: for every text `s` that `Decode` accepts, with repository part `p`
(the first component of `splitRepositoryTag s`): `p` has one more
`/`-separated segment than it has `/`; with fewer than three segments the
Registry is empty and the Repository is `p`; with three or more segments
the Registry is the first segment and the Repository is the remaining
segments joined with `/`, that is, `p = Registry ++ "/" ++ Repository` with
no `/` in the Registry. -/
theorem decode_registry (s : Str) (img : Image) (h : Decode s = .ok img) :
    (Split (splitRepositoryTag s).1 '/').length = (splitRepositoryTag s).1.count '/' + 1 ∧
    ((Split (splitRepositoryTag s).1 '/').length < 3 →
      img.Registry = [] ∧ img.Repository = (splitRepositoryTag s).1) ∧
    (3 ≤ (Split (splitRepositoryTag s).1 '/').length →
      img.Registry = (Split (splitRepositoryTag s).1 '/').getD 0 [] ∧
      img.Repository = Join ((Split (splitRepositoryTag s).1 '/').drop 1) ['/'] ∧
      '/' ∉ img.Registry ∧
      (splitRepositoryTag s).1 = img.Registry ++ '/' :: img.Repository) := by
  obtain ⟨_, h1, h2, _, _⟩ := decode_ok_inv s img h
  generalize (splitRepositoryTag s).1 = p at h1 h2 ⊢
  refine ⟨split_length p '/', ?_, ?_⟩
  · intro hl
    rw [split_length] at hl
    by_cases hm : '/' ∈ p
    · obtain ⟨a, r, e, ha⟩ := exists_first p '/' hm
      subst e
      have hr : '/' ∉ r := by
        intro hr
        have h3 := List.count_pos_iff.mpr hr
        have h4 : List.count '/' (a ++ '/' :: r) = List.count '/' r + 1 := by
          simp [List.count_append, List.count_eq_zero_of_not_mem ha]
        omega
      rw [splitRepository_one a r ha hr] at h1 h2
      exact ⟨h1, h2⟩
    · rw [splitRepository_none p hm] at h1 h2
      exact ⟨h1, h2⟩
  · intro hl
    rw [split_length] at hl
    have hm : '/' ∈ p := List.count_pos_iff.mp (by omega)
    obtain ⟨a, r, e, ha⟩ := exists_first p '/' hm
    subst e
    have hr : '/' ∈ r := by
      apply List.count_pos_iff.mp
      have h4 : List.count '/' (a ++ '/' :: r) = List.count '/' r + 1 := by
        simp [List.count_append, List.count_eq_zero_of_not_mem ha]
      omega
    rw [splitRepository_many a r ha hr] at h1 h2
    simp only at h1 h2
    rw [h1, h2, split_append a r '/' ha]
    simp [join_split, ha]

/-- C5 at `ghcr.io/foo/bar:latest`, which `Decode` accepts. -/
theorem decode_registry_witness :
    Decode "ghcr.io/foo/bar:latest".toList =
      .ok ⟨"ghcr.io".toList, "foo/bar".toList, "latest".toList, []⟩ ∧
    ((Split (splitRepositoryTag "ghcr.io/foo/bar:latest".toList).1 '/').length =
      (splitRepositoryTag "ghcr.io/foo/bar:latest".toList).1.count '/' + 1 ∧
    ((Split (splitRepositoryTag "ghcr.io/foo/bar:latest".toList).1 '/').length < 3 →
      "ghcr.io".toList = [] ∧
      "foo/bar".toList = (splitRepositoryTag "ghcr.io/foo/bar:latest".toList).1) ∧
    (3 ≤ (Split (splitRepositoryTag "ghcr.io/foo/bar:latest".toList).1 '/').length →
      "ghcr.io".toList = (Split (splitRepositoryTag "ghcr.io/foo/bar:latest".toList).1 '/').getD 0 [] ∧
      "foo/bar".toList =
        Join ((Split (splitRepositoryTag "ghcr.io/foo/bar:latest".toList).1 '/').drop 1) ['/'] ∧
      '/' ∉ "ghcr.io".toList ∧
      (splitRepositoryTag "ghcr.io/foo/bar:latest".toList).1 =
        "ghcr.io".toList ++ '/' :: "foo/bar".toList)) :=
  ⟨by decide, decode_registry "ghcr.io/foo/bar:latest".toList
    ⟨"ghcr.io".toList, "foo/bar".toList, "latest".toList, []⟩ (by decide)⟩

/-- C6: every image that `Decode` returns without error has at most one of
Tag and Digest non-empty. -/
theorem decode_tag_digest_exclusive (s : Str) (img : Image) (h : Decode s = .ok img) :
    img.Tag = [] ∨ img.Digest = [] := by
  obtain ⟨_, _, _, ht, hd⟩ := decode_ok_inv s img h
  by_cases hc : Contains (splitRepositoryTag s).2 ':' = true
  · left
    rw [ht, if_pos hc]
  · right
    rw [hd, if_neg hc]

/-- C6 at `foo/bar@sha256:c3ab8`: the Digest is set and the Tag is empty. -/
theorem decode_tag_digest_exclusive_witness :
    Decode "foo/bar@sha256:c3ab8".toList = .ok ⟨[], "foo/bar".toList, [], "sha256:c3ab8".toList⟩ ∧
    (([] : Str) = [] ∨ "sha256:c3ab8".toList = []) :=
  ⟨by decide, decode_tag_digest_exclusive "foo/bar@sha256:c3ab8".toList
    ⟨[], "foo/bar".toList, [], "sha256:c3ab8".toList⟩ (by decide)⟩

end image

namespace image

open strings

/-- C7: for every image with at most one of Tag and Digest set, `String()` is
the Repository, prefixed by Registry and `/` exactly when the Registry is
non-empty, and suffixed by `@` and the Digest when the Digest is set, by `:`
and the Tag when the Tag is set, and by nothing when neither is set. -/
theorem string_format (i : Image) (h : i.Tag = [] ∨ i.Digest = []) :
    ∃ pre : Str,
      (i.Registry ≠ [] → pre = i.Registry ++ ['/']) ∧
      (i.Registry = [] → pre = []) ∧
      (i.Digest ≠ [] → i.String = pre ++ i.Repository ++ ['@'] ++ i.Digest) ∧
      (i.Tag ≠ [] → i.String = pre ++ i.Repository ++ [':'] ++ i.Tag) ∧
      (i.Tag = [] → i.Digest = [] → i.String = pre ++ i.Repository) := by
  refine ⟨if i.Registry ≠ [] then i.Registry ++ ['/'] else [], ?_, ?_, ?_, ?_, ?_⟩
  · intro hr
    rw [if_pos hr]
  · intro hr
    rw [if_neg (not_not.mpr hr)]
  · intro hd
    unfold Image.String
    by_cases hr : i.Registry = [] <;> simp [hr, hd]
  · intro ht
    have hd : i.Digest = [] := h.resolve_left ht
    unfold Image.String
    by_cases hr : i.Registry = [] <;> simp [hr, hd, ht]
  · intro ht hd
    unfold Image.String
    by_cases hr : i.Registry = [] <;> simp [hr, hd, ht]

/-- C7 at the image of the test: Registry `foo`, Repository `bar/baz`, Tag
`latest` gives `foo/bar/baz:latest`. -/
theorem string_format_witness :
    (("latest".toList = [] ∨ ([] : Str) = []) ∧
      ∃ pre : Str,
        ("foo".toList ≠ [] → pre = "foo".toList ++ ['/']) ∧
        ("foo".toList = [] → pre = []) ∧
        (([] : Str) ≠ [] → (Image.mk "foo".toList "bar/baz".toList "latest".toList []).String =
          pre ++ "bar/baz".toList ++ ['@'] ++ []) ∧
        ("latest".toList ≠ [] → (Image.mk "foo".toList "bar/baz".toList "latest".toList []).String =
          pre ++ "bar/baz".toList ++ [':'] ++ "latest".toList) ∧
        ("latest".toList = [] → ([] : Str) = [] →
          (Image.mk "foo".toList "bar/baz".toList "latest".toList []).String =
            pre ++ "bar/baz".toList)) ∧
    (Image.mk "foo".toList "bar/baz".toList "latest".toList []).String =
      "foo/bar/baz:latest".toList :=
  ⟨⟨Or.inr rfl, string_format ⟨"foo".toList, "bar/baz".toList, "latest".toList, []⟩ (Or.inr rfl)⟩,
    by decide⟩

/-- The text `String()` gives for a decoded image, over the two parts that
`splitRepositoryTag` made of the input. -/
theorem string_of_decode (s : Str) (img : Image) (h : Decode s = .ok img) :
    img.String =
      (if (splitRepository (splitRepositoryTag s).1).1 ≠ [] then
          (splitRepository (splitRepositoryTag s).1).1 ++ ['/'] ++
            (splitRepository (splitRepositoryTag s).1).2
        else (splitRepository (splitRepositoryTag s).1).2) ++
      (if ':' ∈ (splitRepositoryTag s).2 then '@' :: (splitRepositoryTag s).2
        else if (splitRepositoryTag s).2 ≠ [] then ':' :: (splitRepositoryTag s).2 else []) := by
  obtain ⟨_, h1, h2, h3, h4⟩ := decode_ok_inv s img h
  unfold Image.String
  rw [h1, h2, h3, h4]
  generalize (splitRepositoryTag s).2 = q
  by_cases hc : ':' ∈ q
  · have hq : q ≠ [] := by
      intro e
      rw [e] at hc
      simp at hc
    have hc2 : Contains q ':' = true := (contains_iff _ _).mpr hc
    simp [hc, hc2, hq]
  · have hc2 : ¬ Contains q ':' = true := fun e => hc ((contains_iff _ _).mp e)
    by_cases hq : q = []
    · simp [hq, hc2, Contains, Index]
    · simp [hc, hc2, hq]

/-- Formatting registry and repository gives back the repository part,
unless that part starts with `/` and has a further `/`: then the empty first
segment is taken as an absent registry and the leading `/` is lost. -/
theorem format_splitRepository (p : Str) :
    ((∀ r, p = '/' :: r → '/' ∉ r) ∧
      (if (splitRepository p).1 ≠ [] then
          (splitRepository p).1 ++ ['/'] ++ (splitRepository p).2
        else (splitRepository p).2) = p) ∨
    (∃ r, p = '/' :: r ∧ '/' ∈ r ∧
      (if (splitRepository p).1 ≠ [] then
          (splitRepository p).1 ++ ['/'] ++ (splitRepository p).2
        else (splitRepository p).2) = r) := by
  by_cases hm : '/' ∈ p
  · obtain ⟨a, r, e, ha⟩ := exists_first p '/' hm
    subst e
    by_cases hr : '/' ∈ r
    · rw [splitRepository_many a r ha hr]
      cases a with
      | nil =>
        right
        exact ⟨r, rfl, hr, by simp⟩
      | cons x xs =>
        left
        refine ⟨?_, by simp⟩
        intro r' e
        simp only [List.cons_append, List.cons.injEq] at e
        exact absurd e.1 (fun e' => ha (by simp [e']))
    · rw [splitRepository_one a r ha hr]
      left
      refine ⟨?_, by simp⟩
      intro r' e
      cases a with
      | nil =>
        simp only [List.nil_append, List.cons.injEq, true_and] at e
        rw [← e]
        exact hr
      | cons x xs =>
        simp only [List.cons_append, List.cons.injEq] at e
        exact absurd e.1 (fun e' => ha (by simp [e']))
  · rw [splitRepository_none p hm]
    left
    refine ⟨?_, by simp⟩
    intro r' e
    exact absurd (by rw [e]; simp) hm

end image

namespace strings

/-- Two splittings of a string at a byte that occurs in neither tail are the
same splitting. -/
theorem last_unique (p1 t1 p2 t2 : Str) (c : Char) (e : p1 ++ c :: t1 = p2 ++ c :: t2)
    (h1 : c ∉ t1) (h2 : c ∉ t2) : p1 = p2 ∧ t1 = t2 := by
  rcases List.append_eq_append_iff.mp e with ⟨a, ea, eb⟩ | ⟨a, ea, eb⟩
  · cases a with
    | nil =>
      simp only [List.nil_append, List.cons.injEq, true_and] at eb
      simp only [List.append_nil] at ea
      exact ⟨ea.symm, eb⟩
    | cons x xs =>
      simp only [List.cons_append, List.cons.injEq] at eb
      exact absurd (by rw [eb.2]; simp) h1
  · cases a with
    | nil =>
      simp only [List.nil_append, List.cons.injEq, true_and] at eb
      simp only [List.append_nil] at ea
      exact ⟨ea, eb.symm⟩
    | cons x xs =>
      simp only [List.cons_append, List.cons.injEq] at eb
      exact absurd (by rw [eb.2]; simp) h2

/-- A splitting at a byte that occurs on neither side is the only splitting
at that byte. -/
theorem only_unique (p d a d2 : Str) (c : Char) (e : p ++ c :: d = a ++ c :: d2)
    (hp : c ∉ p) (hd : c ∉ d) : a = p ∧ d2 = d := by
  rcases List.append_eq_append_iff.mp e with ⟨b, ea, eb⟩ | ⟨b, ea, eb⟩
  · cases b with
    | nil =>
      simp only [List.nil_append, List.cons.injEq, true_and] at eb
      simp only [List.append_nil] at ea
      exact ⟨ea, eb.symm⟩
    | cons x xs =>
      simp only [List.cons_append, List.cons.injEq] at eb
      exact absurd (by rw [eb.2]; simp) hd
  · cases b with
    | nil =>
      simp only [List.nil_append, List.cons.injEq, true_and] at eb
      simp only [List.append_nil] at ea
      exact ⟨ea.symm, eb⟩
    | cons x xs =>
      simp only [List.cons_append, List.cons.injEq] at eb
      exact absurd (by rw [ea, ← eb.1]; simp) hp

theorem not_mem_takeWhile_ne (d : Str) (c : Char) :
    c ∉ d.takeWhile (fun x => !(x == c)) := by
  intro h
  have := List.mem_takeWhile_imp h
  simp at this

theorem takeWhile_ne_eq_self (d : Str) (c : Char) (h : c ∉ d) :
    d.takeWhile (fun x => !(x == c)) = d := by
  rw [List.takeWhile_eq_self_iff]
  intro x hx
  have : x ≠ c := fun e => h (e ▸ hx)
  simp [this]

end strings

namespace image

open strings

/-- How a text relates to the two parts `splitRepositoryTag` makes of it. -/
theorem splitRepositoryTag_shape (s : Str) :
    ('@' ∈ s ∧ ∃ d, s = (splitRepositoryTag s).1 ++ '@' :: d ∧ '@' ∉ (splitRepositoryTag s).1 ∧
      (splitRepositoryTag s).2 = d.takeWhile (fun x => !(x == '@'))) ∨
    ('@' ∉ s ∧ s = (splitRepositoryTag s).1 ∧ (splitRepositoryTag s).2 = [] ∧
      ∀ p, s ≠ p ++ [':']) ∨
    ('@' ∉ s ∧ s = (splitRepositoryTag s).1 ++ ':' :: (splitRepositoryTag s).2 ∧
      ':' ∉ (splitRepositoryTag s).2 ∧ '/' ∉ (splitRepositoryTag s).2) := by
  by_cases hat : '@' ∈ s
  · left
    obtain ⟨a, r, e, ha⟩ := exists_first s '@' hat
    subst e
    rw [splitRepositoryTag_at a r ha]
    exact ⟨hat, r, rfl, ha, rfl⟩
  · right
    by_cases hc : ':' ∈ s
    · obtain ⟨p, t, e, ht⟩ := exists_last s ':' hc
      subst e
      by_cases hs : '/' ∈ t
      · left
        rw [splitRepositoryTag_quirk p t hat ht hs]
        refine ⟨hat, rfl, rfl, ?_⟩
        intro p2 e
        have := (last_unique p t p2 [] ':' e ht (by simp)).2
        rw [this] at hs
        simp at hs
      · right
        rw [splitRepositoryTag_tag p t hat ht hs]
        exact ⟨hat, rfl, ht, hs⟩
    · left
      rw [splitRepositoryTag_plain s hat hc]
      refine ⟨hat, rfl, rfl, ?_⟩
      intro p2 e
      exact hc (by rw [e]; simp)

end image

namespace image

open strings

/-- The text of a decoded image: a formatted repository part `F`, which is
the repository part itself unless an empty first segment was dropped, and
the qualifier that `String()` appends. -/
theorem string_decode_parts (s : Str) (img : Image) (h : Decode s = .ok img) :
    ∃ F : Str,
      img.String = F ++
        (if ':' ∈ (splitRepositoryTag s).2 then '@' :: (splitRepositoryTag s).2
          else if (splitRepositoryTag s).2 ≠ [] then ':' :: (splitRepositoryTag s).2 else []) ∧
      (((∀ r, (splitRepositoryTag s).1 = '/' :: r → '/' ∉ r) ∧ F = (splitRepositoryTag s).1) ∨
        (∃ r, (splitRepositoryTag s).1 = '/' :: r ∧ '/' ∈ r ∧ F = r)) :=
  ⟨_, string_of_decode s img h, format_splitRepository _⟩

/-- C1 (amended): for every text `s` that `Decode` accepts, formatting the
decoded image gives back `s` exactly when (a) the repository part of `s`
does not start with `/` and contain a further `/`, (b) every `@` of `s` is
followed by a text without `@` that contains `:` (so `s` has at most one
`@`, and a digest with `:` after it), and (c) `s`, if it has no `@`, does
not end with `:`.  The texts in which a `/` follows the last `:` are
covered: they round-trip under the same conditions. -/
theorem decode_string_roundtrip (s : Str) (img : Image) (h : Decode s = .ok img) :
    img.String = s ↔
      ((∀ r, (splitRepositoryTag s).1 = '/' :: r → '/' ∉ r) ∧
        (∀ a d, s = a ++ '@' :: d → '@' ∉ d ∧ ':' ∈ d) ∧
        ('@' ∉ s → ∀ p, s ≠ p ++ [':'])) := by
  obtain ⟨F, hS, hF⟩ := string_decode_parts s img h
  have hshape := splitRepositoryTag_shape s
  generalize (splitRepositoryTag s).1 = p at hS hF hshape ⊢
  generalize (splitRepositoryTag s).2 = q at hS hshape
  generalize hX : (if ':' ∈ q then '@' :: q else if q ≠ [] then ':' :: q else []) = X at hS
  rw [hS]
  constructor
  · intro hrt
    have hXlen : X.length ≤ q.length + 1 := by
      rw [← hX]
      split_ifs <;> simp
    have hlen : p.length + X.length ≤ s.length := by
      rcases hshape with ⟨_, d, e, _, hq⟩ | ⟨_, e, hq, _⟩ | ⟨_, e, _, _⟩
      · have h1 : q.length ≤ d.length := by
          rw [hq]
          exact (List.takeWhile_sublist _).length_le
        have h2 : s.length = p.length + (d.length + 1) := by
          rw [e]
          simp
        omega
      · have h1 : X = [] := by
          rw [← hX, hq]
          simp
        rw [h1, ← e]
        simp
      · have h2 : s.length = p.length + (q.length + 1) := by
          rw [e]
          simp
        omega
    have hrl : F.length + X.length = s.length := by
      rw [← hrt]
      simp
    rcases hF with ⟨hreg, hFp⟩ | ⟨r, e, _, hFr⟩
    · refine ⟨hreg, ?_, ?_⟩
      · rw [hFp] at hrt
        rcases hshape with ⟨_, d, e, hp, hq⟩ | ⟨hm, _, _, _⟩ | ⟨hm, _, _, _⟩
        · have hXd : X = '@' :: d := List.append_cancel_left (hrt.trans e)
          by_cases hc : ':' ∈ q
          · rw [if_pos hc, hXd] at hX
            have hqd : q = d := by simpa using hX
            have hd : '@' ∉ d := by
              have := not_mem_takeWhile_ne d '@'
              rw [← hq, hqd] at this
              exact this
            intro a d2 e2
            obtain ⟨_, e3⟩ := only_unique p d a d2 '@' (e.symm.trans e2) hp hd
            rw [e3]
            exact ⟨hd, hqd ▸ hc⟩
          · rw [if_neg hc, hXd] at hX
            split_ifs at hX
            simp at hX
        · intro a d e2
          exact absurd (by rw [e2]; simp) hm
        · intro a d e2
          exact absurd (by rw [e2]; simp) hm
      · intro hn
        rw [hFp] at hrt
        rcases hshape with ⟨hm, _⟩ | ⟨_, _, _, hne⟩ | ⟨_, e, hq1, _⟩
        · exact absurd hm hn
        · exact hne
        · intro p2 e2
          have hXd : X = ':' :: q := List.append_cancel_left (hrt.trans e)
          rw [if_neg hq1, hXd] at hX
          have hq0 : q ≠ [] := by
            intro e0
            rw [if_neg (not_not.mpr e0)] at hX
            simp at hX
          exact hq0 (last_unique p q p2 [] ':' (e.symm.trans e2) hq1 (by simp)).2
    · exfalso
      have h1 : p.length = r.length + 1 := by
        rw [e]
        simp
      rw [hFr] at hrl
      omega
  · rintro ⟨hreg, hat, hcolon⟩
    rcases hF with ⟨_, hFp⟩ | ⟨r, e, hr, _⟩
    · rw [hFp]
      rcases hshape with ⟨_, d, e, _, hq⟩ | ⟨_, e, hq, _⟩ | ⟨hm, e, hq1, _⟩
      · obtain ⟨hd1, hd2⟩ := hat p d e
        rw [takeWhile_ne_eq_self d '@' hd1] at hq
        rw [← hX, hq, if_pos hd2]
        exact e.symm
      · rw [← hX, hq]
        simpa using e.symm
      · have hq0 : q ≠ [] := by
          intro e0
          rw [e0] at e
          exact hcolon hm p e
        rw [← hX, if_neg hq1, if_pos hq0]
        exact e.symm
    · exact absurd hr (hreg r e)

end image

namespace image

/-- C1 (as stated) fails.  None of these four texts has a `/` after its last
`:`, `Decode` accepts each, and formatting the decoded image gives another
text: `foo@bar` comes back as `foo:bar` (a digest without `:` is taken as a
tag), `/a/b` as `a/b` (the empty first segment is lost), `a:` as `a` (the
empty tag is lost), and `a@b:c@d` as `a@b:c` (the text from the second `@`
on is lost). -/
theorem decode_string_roundtrip_counterexample :
    (colonThenSlash "foo@bar".toList = false ∧
      Decode "foo@bar".toList = .ok ⟨[], "foo".toList, "bar".toList, []⟩ ∧
      (Image.mk [] "foo".toList "bar".toList []).String = "foo:bar".toList ∧
      (Image.mk [] "foo".toList "bar".toList []).String ≠ "foo@bar".toList) ∧
    (colonThenSlash "/a/b".toList = false ∧
      Decode "/a/b".toList = .ok ⟨[], "a/b".toList, [], []⟩ ∧
      (Image.mk [] "a/b".toList [] []).String = "a/b".toList ∧
      (Image.mk [] "a/b".toList [] []).String ≠ "/a/b".toList) ∧
    (colonThenSlash "a:".toList = false ∧
      Decode "a:".toList = .ok ⟨[], "a".toList, [], []⟩ ∧
      (Image.mk [] "a".toList [] []).String = "a".toList ∧
      (Image.mk [] "a".toList [] []).String ≠ "a:".toList) ∧
    (colonThenSlash "a@b:c@d".toList = false ∧
      Decode "a@b:c@d".toList = .ok ⟨[], "a".toList, [], "b:c".toList⟩ ∧
      (Image.mk [] "a".toList [] "b:c".toList).String = "a@b:c".toList ∧
      (Image.mk [] "a".toList [] "b:c".toList).String ≠ "a@b:c@d".toList) := by
  decide

/-- C1 (amended) at `ghcr.io/foo/bar:latest`, which round-trips; and at
`foo/bar:baz/bat`, a text with a `/` after its last `:`, which round-trips
too. -/
theorem decode_string_roundtrip_witness :
    (Decode "ghcr.io/foo/bar:latest".toList =
        .ok ⟨"ghcr.io".toList, "foo/bar".toList, "latest".toList, []⟩ ∧
      ((Image.mk "ghcr.io".toList "foo/bar".toList "latest".toList []).String =
          "ghcr.io/foo/bar:latest".toList ↔
        ((∀ r, (splitRepositoryTag "ghcr.io/foo/bar:latest".toList).1 = '/' :: r → '/' ∉ r) ∧
          (∀ a d, "ghcr.io/foo/bar:latest".toList = a ++ '@' :: d → '@' ∉ d ∧ ':' ∈ d) ∧
          ('@' ∉ "ghcr.io/foo/bar:latest".toList →
            ∀ p, "ghcr.io/foo/bar:latest".toList ≠ p ++ [':']))) ∧
      (Image.mk "ghcr.io".toList "foo/bar".toList "latest".toList []).String =
        "ghcr.io/foo/bar:latest".toList) ∧
    (colonThenSlash "foo/bar:baz/bat".toList = true ∧
      Decode "foo/bar:baz/bat".toList = .ok ⟨"foo".toList, "bar:baz/bat".toList, [], []⟩ ∧
      (Image.mk "foo".toList "bar:baz/bat".toList [] []).String = "foo/bar:baz/bat".toList) :=
  ⟨⟨by decide,
      decode_string_roundtrip "ghcr.io/foo/bar:latest".toList
        ⟨"ghcr.io".toList, "foo/bar".toList, "latest".toList, []⟩ (by decide),
      by decide⟩,
    by decide⟩

end image

/-! ## The deployment controller -/

namespace controller

/-- C8: for every DeployConfig whose App is nil or whose App.ID is empty,
`Controller.Deploy` and the flat `Aura.Deploy` return a nil release and a
ValidationError, make no call to `Resolve`, `ExtractProcfile` or
`CreateRelease`, and leave the world as it was. -/
theorem deploy_invalid {σ : Type} (a : Controller σ) (b : aura.Aura σ) (cfg : DeployConfig)
    (cfg2 : aura.DeployConfig) (st : σ)
    (h : cfg.App = none ∨ ∃ app, cfg.App = some app ∧ app.ID = [])
    (h2 : cfg2.App = none ∨ ∃ app, cfg2.App = some app ∧ app.ID = []) :
    ((a.Deploy cfg st).1.1 = none ∧
      (∃ e, (a.Deploy cfg st).1.2 = some e ∧ e.isValidation = true) ∧
      (a.Deploy cfg st).2.2 = [] ∧ (a.Deploy cfg st).2.1 = st) ∧
    ((b.Deploy cfg2 st).1.1 = none ∧
      (∃ e, (b.Deploy cfg2 st).1.2 = some e ∧ e.isValidation = true) ∧
      (b.Deploy cfg2 st).2.2 = [] ∧ (b.Deploy cfg2 st).2.1 = st) := by
  constructor
  · have hv : ∃ err, cfg.Validate = some err := by
      rcases h with h | ⟨app, h, hid⟩
      · exact ⟨Error.new "an application is required", by simp [DeployConfig.Validate, h]⟩
      · exact ⟨Error.new "the application is invalid", by simp [DeployConfig.Validate, h, hid]⟩
    obtain ⟨err, hv⟩ := hv
    simp [Controller.Deploy, hv, Error.isValidation]
  · have hv : ∃ err, cfg2.Validate = some err := by
      rcases h2 with h | ⟨app, h, hid⟩
      · exact ⟨Error.new "an application is required", by simp [aura.DeployConfig.Validate, h]⟩
      · exact ⟨Error.new "the application is invalid",
          by simp [aura.DeployConfig.Validate, h, hid]⟩
    obtain ⟨err, hv⟩ := hv
    simp [aura.Aura.Deploy, hv, Error.isValidation]

/-- C8 on the two failing configurations of the test, a nil App for the
controller and an App with an empty ID for the flat package, with
collaborators that would succeed if they were called. -/
theorem deploy_invalid_witness :
    ((DeployConfig.mk none image.Image.zero).App = none ∨
      ∃ app, (DeployConfig.mk none image.Image.zero).App = some app ∧ app.ID = []) ∧
    ((aura.DeployConfig.mk (some ⟨[], [], none, none⟩) image.Image.zero).App = none ∨
      ∃ app, (aura.DeployConfig.mk (some ⟨[], [], none, none⟩) image.Image.zero).App = some app ∧
        app.ID = []) ∧
    ((((mockController image.Image.zero none none none none).Deploy
          (DeployConfig.mk none image.Image.zero) 0).1.1 = none ∧
      (∃ e, ((mockController image.Image.zero none none none none).Deploy
          (DeployConfig.mk none image.Image.zero) 0).1.2 = some e ∧ e.isValidation = true) ∧
      ((mockController image.Image.zero none none none none).Deploy
          (DeployConfig.mk none image.Image.zero) 0).2.2 = [] ∧
      ((mockController image.Image.zero none none none none).Deploy
          (DeployConfig.mk none image.Image.zero) 0).2.1 = 0) ∧
    (((aura.mockAura image.Image.zero none none none none).Deploy
          (aura.DeployConfig.mk (some ⟨[], [], none, none⟩) image.Image.zero) 0).1.1 = none ∧
      (∃ e, ((aura.mockAura image.Image.zero none none none none).Deploy
          (aura.DeployConfig.mk (some ⟨[], [], none, none⟩) image.Image.zero) 0).1.2 = some e ∧
        e.isValidation = true) ∧
      ((aura.mockAura image.Image.zero none none none none).Deploy
          (aura.DeployConfig.mk (some ⟨[], [], none, none⟩) image.Image.zero) 0).2.2 = [] ∧
      ((aura.mockAura image.Image.zero none none none none).Deploy
          (aura.DeployConfig.mk (some ⟨[], [], none, none⟩) image.Image.zero) 0).2.1 = 0)) :=
  ⟨Or.inl rfl, Or.inr ⟨_, rfl, rfl⟩,
    deploy_invalid (mockController image.Image.zero none none none none)
      (aura.mockAura image.Image.zero none none none none)
      (DeployConfig.mk none image.Image.zero)
      (aura.DeployConfig.mk (some ⟨[], [], none, none⟩) image.Image.zero) 0
      (Or.inl rfl) (Or.inr ⟨_, rfl, rfl⟩)⟩

end controller

namespace controller

theorem validate_eq_none (cfg : DeployConfig) (app : App) (hA : cfg.App = some app)
    (hID : app.ID ≠ []) : cfg.Validate = none ∧ cfg.appID = app.ID := by
  simp [DeployConfig.Validate, DeployConfig.appID, hA, hID]

/-- The release or the error of `Deploy` is nil, whatever the configuration
and the collaborators. -/
theorem deploy_release_or_error {σ : Type} (a : Controller σ) (cfg : DeployConfig) (st : σ) :
    (a.Deploy cfg st).1.1 = none ∨ (a.Deploy cfg st).1.2 = none := by
  unfold Controller.Deploy
  cases hv : cfg.Validate with
  | some err => simp
  | none =>
    rcases hR : a.reg.Resolve cfg.Image st with ⟨⟨img, _ | e⟩, st1⟩
    · rcases hE : a.reg.ExtractProcfile img.String st1 with ⟨⟨pf, _ | e⟩, st2⟩
      · rcases hC : a.store.CreateRelease
            { ID := [], AppID := cfg.appID, App := none, Image := some img, Version := 0,
              Procfile := pf, CreatedAt := none } st2 with ⟨⟨stored, _ | e⟩, st3⟩
        · simp [hR, hE, hC]
        · simp [hR, hE, hC]
      · simp [hR, hE]
    · simp [hR]

/-- C9: for every valid DeployConfig, if `Resolve`, `ExtractProcfile` or
`CreateRelease` fails, `Deploy` aborts at that step: it returns a nil release
and an error that wraps the error of the failing step, and the failing call
is the last call it made (no later step is invoked).  `Deploy` never returns
a release together with an error. -/
theorem deploy_aborts {σ : Type} (a : Controller σ) (cfg : DeployConfig) (st : σ) (app : App)
    (hA : cfg.App = some app) (hID : app.ID ≠ []) :
    (∀ img e st1, a.reg.Resolve cfg.Image st = ((img, some e), st1) →
      a.Deploy cfg st =
        ((none, some (Error.wrapf "could not resolve image" e)), st1, [Call.Resolve cfg.Image]) ∧
      (Error.wrapf "could not resolve image" e).Unwrap = some e) ∧
    (∀ img st1 pf e st2, a.reg.Resolve cfg.Image st = ((img, none), st1) →
      a.reg.ExtractProcfile img.String st1 = ((pf, some e), st2) →
      a.Deploy cfg st =
        ((none, some (Error.wrapf "could not extract procfile" e)), st2,
          [Call.Resolve cfg.Image, Call.ExtractProcfile img.String]) ∧
      (Error.wrapf "could not extract procfile" e).Unwrap = some e) ∧
    (∀ img st1 pf st2 stored e st3, a.reg.Resolve cfg.Image st = ((img, none), st1) →
      a.reg.ExtractProcfile img.String st1 = ((pf, none), st2) →
      a.store.CreateRelease ⟨[], app.ID, none, some img, 0, pf, none⟩ st2 =
        ((stored, some e), st3) →
      a.Deploy cfg st =
        ((none, some (Error.wrapf "could not create release" e)), st3,
          [Call.Resolve cfg.Image, Call.ExtractProcfile img.String,
            Call.CreateRelease ⟨[], app.ID, none, some img, 0, pf, none⟩]) ∧
      (Error.wrapf "could not create release" e).Unwrap = some e) ∧
    (∀ cfg2 st0, (a.Deploy cfg2 st0).1.1 = none ∨ (a.Deploy cfg2 st0).1.2 = none) := by
  obtain ⟨hv, hid⟩ := validate_eq_none cfg app hA hID
  refine ⟨?_, ?_, ?_, fun cfg2 st0 => deploy_release_or_error a cfg2 st0⟩
  · intro img e st1 hR
    refine ⟨?_, rfl⟩
    simp [Controller.Deploy, hv, hR]
  · intro img st1 pf e st2 hR hE
    refine ⟨?_, rfl⟩
    simp [Controller.Deploy, hv, hR, hE]
  · intro img st1 pf st2 stored e st3 hR hE hC
    refine ⟨?_, rfl⟩
    simp [Controller.Deploy, hv, hR, hE, hid, hC]

/-- C9 on the three failing cases of the test (resolve error, extract error,
store error), the store returning a release next to its error. -/
theorem deploy_aborts_witness :
    (mockController ⟨[], "foo/bar".toList, [], []⟩ (some (Error.new "test")) none none none).Deploy
        ⟨some ⟨"123".toList, [], none, none⟩, ⟨[], "foo/bar".toList, [], []⟩⟩ 0 =
      ((none, some (Error.wrapf "could not resolve image" (Error.new "test"))), 1,
        [Call.Resolve ⟨[], "foo/bar".toList, [], []⟩]) ∧
    (mockController ⟨[], "foo/bar".toList, [], []⟩ none (some (Error.new "test")) none none).Deploy
        ⟨some ⟨"123".toList, [], none, none⟩, ⟨[], "foo/bar".toList, [], []⟩⟩ 0 =
      ((none, some (Error.wrapf "could not extract procfile" (Error.new "test"))), 2,
        [Call.Resolve ⟨[], "foo/bar".toList, [], []⟩, Call.ExtractProcfile "foo/bar".toList]) ∧
    (mockController ⟨[], "foo/bar".toList, [], []⟩ none none
        (some ⟨"9".toList, "123".toList, none, none, 1, [], none⟩)
        (some (Error.new "test"))).Deploy
        ⟨some ⟨"123".toList, [], none, none⟩, ⟨[], "foo/bar".toList, [], []⟩⟩ 0 =
      ((none, some (Error.wrapf "could not create release" (Error.new "test"))), 3,
        [Call.Resolve ⟨[], "foo/bar".toList, [], []⟩, Call.ExtractProcfile "foo/bar".toList,
          Call.CreateRelease
            ⟨[], "123".toList, none, some ⟨[], "foo/bar".toList, [], []⟩, 0,
              [116, 101, 115, 116], none⟩]) :=
  ⟨((deploy_aborts
        (mockController ⟨[], "foo/bar".toList, [], []⟩ (some (Error.new "test")) none none none)
        ⟨some ⟨"123".toList, [], none, none⟩, ⟨[], "foo/bar".toList, [], []⟩⟩ 0
        ⟨"123".toList, [], none, none⟩ rfl (by decide)).1 _ _ _ rfl).1,
    ((deploy_aborts
        (mockController ⟨[], "foo/bar".toList, [], []⟩ none (some (Error.new "test")) none none)
        ⟨some ⟨"123".toList, [], none, none⟩, ⟨[], "foo/bar".toList, [], []⟩⟩ 0
        ⟨"123".toList, [], none, none⟩ rfl (by decide)).2.1 _ _ _ _ _ rfl rfl).1,
    ((deploy_aborts
        (mockController ⟨[], "foo/bar".toList, [], []⟩ none none
          (some ⟨"9".toList, "123".toList, none, none, 1, [], none⟩) (some (Error.new "test")))
        ⟨some ⟨"123".toList, [], none, none⟩, ⟨[], "foo/bar".toList, [], []⟩⟩ 0
        ⟨"123".toList, [], none, none⟩ rfl (by decide)).2.2.1 _ _ _ _ _ _ _ rfl rfl rfl).1⟩

/-- C10: for every valid DeployConfig for which all three steps succeed,
`Deploy` calls `Resolve` with the image of the configuration,
`ExtractProcfile` with `String()` of the image `Resolve` returned, and
`CreateRelease` with a release that has the AppID of the configuration, the
resolved image, the extracted bytes and no other field set; it returns the
release the store returned, converted by `toRelease` (same ID, App, Image,
Version, Procfile and CreatedAt), with a nil error. -/
theorem deploy_success {σ : Type} (a : Controller σ) (cfg : DeployConfig) (st : σ) (app : App)
    (hA : cfg.App = some app) (hID : app.ID ≠ [])
    (img : image.Image) (st1 : σ) (hR : a.reg.Resolve cfg.Image st = ((img, none), st1))
    (pf : Bytes) (st2 : σ) (hE : a.reg.ExtractProcfile img.String st1 = ((pf, none), st2))
    (stored : Option store.Release) (st3 : σ)
    (hC : a.store.CreateRelease ⟨[], app.ID, none, some img, 0, pf, none⟩ st2 =
      ((stored, none), st3)) :
    a.Deploy cfg st =
      ((toRelease stored, none), st3,
        [Call.Resolve cfg.Image, Call.ExtractProcfile img.String,
          Call.CreateRelease ⟨[], app.ID, none, some img, 0, pf, none⟩]) ∧
    (∀ r, stored = some r →
      ∃ out, (a.Deploy cfg st).1.1 = some out ∧ out.ID = r.ID ∧ out.App = toApp r.App ∧
        out.Image = r.Image ∧ out.Version = r.Version ∧ out.Procfile = r.Procfile ∧
        out.CreatedAt = r.CreatedAt) ∧
    (stored = none → (a.Deploy cfg st).1.1 = none) := by
  obtain ⟨hv, hid⟩ := validate_eq_none cfg app hA hID
  have hD : a.Deploy cfg st =
      ((toRelease stored, none), st3,
        [Call.Resolve cfg.Image, Call.ExtractProcfile img.String,
          Call.CreateRelease ⟨[], app.ID, none, some img, 0, pf, none⟩]) := by
    simp [Controller.Deploy, hv, hR, hE, hid, hC]
  refine ⟨hD, ?_, ?_⟩
  · intro r hr
    rw [hD, hr]
    exact ⟨_, rfl, rfl, rfl, rfl, rfl, rfl, rfl⟩
  · intro hr
    rw [hD, hr]
    rfl

/-- C10 on the successful case of the test: App `123`, image `foo/bar`, the
store returning release `123` of version 1 created at instant 7. -/
theorem deploy_success_witness :
    (mockController ⟨[], "foo/bar".toList, [], []⟩ none none
        (some ⟨"123".toList, [], some ⟨"123".toList, [], none, none⟩, none, 1, [], some 7⟩)
        none).Deploy
        ⟨some ⟨"123".toList, [], none, none⟩, ⟨[], "foo/bar".toList, [], []⟩⟩ 0 =
      ((some ⟨"123".toList, some ⟨"123".toList, [], none, none⟩, none, 1, [], some 7⟩, none), 3,
        [Call.Resolve ⟨[], "foo/bar".toList, [], []⟩, Call.ExtractProcfile "foo/bar".toList,
          Call.CreateRelease
            ⟨[], "123".toList, none, some ⟨[], "foo/bar".toList, [], []⟩, 0,
              [116, 101, 115, 116], none⟩]) :=
  (deploy_success
    (mockController ⟨[], "foo/bar".toList, [], []⟩ none none
      (some ⟨"123".toList, [], some ⟨"123".toList, [], none, none⟩, none, 1, [], some 7⟩) none)
    ⟨some ⟨"123".toList, [], none, none⟩, ⟨[], "foo/bar".toList, [], []⟩⟩ 0
    ⟨"123".toList, [], none, none⟩ rfl (by decide)
    ⟨[], "foo/bar".toList, [], []⟩ 1 rfl [116, 101, 115, 116] 2 rfl
    (some ⟨"123".toList, [], some ⟨"123".toList, [], none, none⟩, none, 1, [], some 7⟩) 3 rfl).1

end controller

/-! ## The docker registry -/

namespace docker

/-- C15: for every image whose Digest is non-empty, when the pull succeeds
`Resolve` returns that image unchanged with a nil error; the pull, which
names the digest in place of the tag, is the only request it sends: the
image is not inspected. -/
theorem resolve_digest {σ : Type} (r : Registry σ) (img : image.Image) (st st1 : σ)
    (hd : img.Digest ≠ [])
    (hp : r.client.PullImage ⟨img.Registry, img.Repository, img.Digest⟩ st = (none, st1)) :
    r.Resolve img st =
      ((img, none), st1, [Call.PullImage ⟨img.Registry, img.Repository, img.Digest⟩]) := by
  simp [Registry.Resolve, pullOptions, hd, hp]

/-- C15 on the image of `TestRegistry_ResolveHandlesDigest`. -/
theorem resolve_digest_witness :
    (mockRegistry none (.ok ⟨[]⟩)).Resolve ⟨[], "some/repo".toList, [], "sha256:c3ab8".toList⟩ 0 =
      ((⟨[], "some/repo".toList, [], "sha256:c3ab8".toList⟩, none), 1,
        [Call.PullImage ⟨[], "some/repo".toList, "sha256:c3ab8".toList⟩]) :=
  resolve_digest (mockRegistry none (.ok ⟨[]⟩))
    ⟨[], "some/repo".toList, [], "sha256:c3ab8".toList⟩ 0 1 (by decide) rfl

/-- C16: for every image without a digest, when the pull and the inspect
succeed and the inspected image reports no repo digest, `Resolve` returns
the original image unchanged with a nil error. -/
theorem resolve_no_digests {σ : Type} (r : Registry σ) (img : image.Image) (st st1 st2 : σ)
    (i : Image) (hd : img.Digest = [])
    (hp : r.client.PullImage ⟨img.Registry, img.Repository, img.Tag⟩ st = (none, st1))
    (hi : r.client.InspectImage img.String st1 = (.ok i, st2)) (h0 : i.RepoDigests = []) :
    r.Resolve img st =
      ((img, none), st2,
        [Call.PullImage ⟨img.Registry, img.Repository, img.Tag⟩, Call.InspectImage img.String]) := by
  simp [Registry.Resolve, pullOptions, hd, hp, hi, h0]

/-- C16 on the image of `TestRegistry_ResolveHandlesNoDigest`. -/
theorem resolve_no_digests_witness :
    (mockRegistry none (.ok ⟨[]⟩)).Resolve ⟨[], "some/repo".toList, "latest".toList, []⟩ 0 =
      ((⟨[], "some/repo".toList, "latest".toList, []⟩, none), 2,
        [Call.PullImage ⟨[], "some/repo".toList, "latest".toList⟩,
          Call.InspectImage (image.Image.mk [] "some/repo".toList "latest".toList []).String]) :=
  resolve_no_digests (mockRegistry none (.ok ⟨[]⟩))
    ⟨[], "some/repo".toList, "latest".toList, []⟩ 0 1 2 ⟨[]⟩ rfl rfl rfl rfl

/-- C18: for every image without a digest, when the pull and the inspect
succeed and the reported repo digests are a non-empty list, the results of
`Resolve` are exactly those of `Decode` on the first reported digest: the
decoded image with a nil error, or `Image{}` with the error of `Decode`;
the later digests play no part. -/
theorem resolve_first_digest {σ : Type} (r : Registry σ) (img : image.Image) (st st1 st2 : σ)
    (i : Image) (first : Str) (others : List Str) (hd : img.Digest = [])
    (hp : r.client.PullImage ⟨img.Registry, img.Repository, img.Tag⟩ st = (none, st1))
    (hi : r.client.InspectImage img.String st1 = (.ok i, st2))
    (hf : i.RepoDigests = first :: others) :
    r.Resolve img st =
      (image.decodeResults first, st2,
        [Call.PullImage ⟨img.Registry, img.Repository, img.Tag⟩, Call.InspectImage img.String]) ∧
    (∀ out, image.Decode first = .ok out → (r.Resolve img st).1 = (out, none)) ∧
    (∀ e, image.Decode first = .error e → (r.Resolve img st).1 = (image.Image.zero, some e)) := by
  have h : r.Resolve img st =
      (image.decodeResults first, st2,
        [Call.PullImage ⟨img.Registry, img.Repository, img.Tag⟩,
          Call.InspectImage img.String]) := by
    simp [Registry.Resolve, pullOptions, hd, hp, hi, hf]
  refine ⟨h, ?_, ?_⟩
  · intro out ho
    rw [h]
    simp [image.decodeResults, ho]
  · intro e he
    rw [h]
    simp [image.decodeResults, he]

/-- C18 on the image and the answer of `TestRegistry_Resolve`, with a second
digest added to the answer. -/
theorem resolve_first_digest_witness :
    (mockRegistry none (.ok ⟨["some/repo@sha256:c3ab8".toList, "x@y:z".toList]⟩)).Resolve
        ⟨[], "some/repo".toList, "latest".toList, []⟩ 0 =
      ((⟨[], "some/repo".toList, [], "sha256:c3ab8".toList⟩, none), 2,
        [Call.PullImage ⟨[], "some/repo".toList, "latest".toList⟩,
          Call.InspectImage (image.Image.mk [] "some/repo".toList "latest".toList []).String]) :=
  (resolve_first_digest
    (mockRegistry none (.ok ⟨["some/repo@sha256:c3ab8".toList, "x@y:z".toList]⟩))
    ⟨[], "some/repo".toList, "latest".toList, []⟩ 0 1 2
    ⟨["some/repo@sha256:c3ab8".toList, "x@y:z".toList]⟩
    "some/repo@sha256:c3ab8".toList ["x@y:z".toList] rfl rfl rfl rfl).1

end docker

namespace docker

/-- C19: `Resolve` always pulls first.  It returns an error if and only if
the pull fails, or the image has no digest and the inspect fails, or the
image has no digest and decoding the first reported digest fails.  On a pull
failure and on an inspect failure the error wraps the error of the client
and the failing request is the last one sent. -/
theorem resolve_error_iff {σ : Type} (r : Registry σ) (img : image.Image) (st : σ) :
    (∃ others, (r.Resolve img st).2.2 = Call.PullImage (pullOptions img) :: others) ∧
    ((r.Resolve img st).1.2 ≠ none ↔
      ((r.client.PullImage (pullOptions img) st).1 ≠ none ∨
        ((r.client.PullImage (pullOptions img) st).1 = none ∧ img.Digest = [] ∧
          ∃ e, (r.client.InspectImage img.String
            (r.client.PullImage (pullOptions img) st).2).1 = .error e) ∨
        ((r.client.PullImage (pullOptions img) st).1 = none ∧ img.Digest = [] ∧
          ∃ i first others e,
            (r.client.InspectImage img.String
              (r.client.PullImage (pullOptions img) st).2).1 = .ok i ∧
            i.RepoDigests = first :: others ∧ image.Decode first = .error e))) ∧
    (∀ e st1, r.client.PullImage (pullOptions img) st = (some e, st1) →
      r.Resolve img st =
        ((img, some (Error.wrapf "pulling image" e)), st1, [Call.PullImage (pullOptions img)]) ∧
      (Error.wrapf "pulling image" e).Unwrap = some e) ∧
    (∀ st1 e st2, img.Digest = [] → r.client.PullImage (pullOptions img) st = (none, st1) →
      r.client.InspectImage img.String st1 = (.error e, st2) →
      r.Resolve img st =
        ((img, some (Error.wrapf "inspecting image" e)), st2,
          [Call.PullImage (pullOptions img), Call.InspectImage img.String]) ∧
      (Error.wrapf "inspecting image" e).Unwrap = some e) := by
  refine ⟨?_, ?_, ?_, ?_⟩
  · unfold Registry.Resolve
    rcases hp : r.client.PullImage (pullOptions img) st with ⟨_ | e, st1⟩
    · by_cases hd : img.Digest = []
      · rcases hi : r.client.InspectImage img.String st1 with ⟨e | i, st2⟩
        · simp [hp, hd, hi]
        · by_cases h0 : i.RepoDigests.length = 0 <;> simp [hp, hd, hi, h0]
      · simp [hp, hd]
    · simp [hp]
  · unfold Registry.Resolve
    rcases hp : r.client.PullImage (pullOptions img) st with ⟨_ | e, st1⟩
    · by_cases hd : img.Digest = []
      · rcases hi : r.client.InspectImage img.String st1 with ⟨e | i, st2⟩
        · simp [hp, hd, hi]
        · cases hr : i.RepoDigests with
          | nil => simp [hp, hd, hi, hr]
          | cons first others =>
            cases hdec : image.Decode first with
            | error e => simp [hp, hd, hi, hr, image.decodeResults, hdec]
            | ok out => simp [hp, hd, hi, hr, image.decodeResults, hdec]
      · simp [hp, hd]
    · simp [hp]
  · intro e st1 hp
    refine ⟨?_, rfl⟩
    simp [Registry.Resolve, hp]
  · intro st1 e st2 hd hp hi
    refine ⟨?_, rfl⟩
    simp [Registry.Resolve, hp, hd, hi]

end docker

namespace image

open strings

/-- Splitting the formatted name of a well-formed registry and repository
gives them back. -/
theorem splitRepository_format (reg repo : Str)
    (h0 : reg = [] → repo.count '/' ≤ 1)
    (h1 : reg ≠ [] → '/' ∉ reg ∧ '/' ∈ repo) :
    splitRepository (if reg ≠ [] then reg ++ ['/'] ++ repo else repo) = (reg, repo) := by
  by_cases hr : reg = []
  · rw [if_neg (not_not.mpr hr), hr]
    have hc := h0 hr
    by_cases hm : '/' ∈ repo
    · obtain ⟨a, t, e, ha⟩ := exists_first repo '/' hm
      subst e
      have ht : '/' ∉ t := by
        intro ht
        have h3 := List.count_pos_iff.mpr ht
        have h4 : List.count '/' (a ++ '/' :: t) = List.count '/' t + 1 := by
          simp [List.count_append, List.count_eq_zero_of_not_mem ha]
        omega
      exact splitRepository_one a t ha ht
    · exact splitRepository_none repo hm
  · rw [if_pos hr]
    obtain ⟨h2, h3⟩ := h1 hr
    have e : reg ++ ['/'] ++ repo = reg ++ '/' :: repo := by simp
    rw [e]
    exact splitRepository_many reg repo h2 h3

/-- Decoding the formatted name of a well-formed registry and repository,
followed by `@` and a digest that contains `:` and no `@`, gives the
digest-qualified image of that registry and repository. -/
theorem decode_name_digest (reg repo d : Str) (hrepo : repo ≠ [])
    (hreg : '@' ∉ reg) (hrep : '@' ∉ repo)
    (h0 : reg = [] → repo.count '/' ≤ 1)
    (h1 : reg ≠ [] → '/' ∉ reg ∧ '/' ∈ repo)
    (hd1 : ':' ∈ d) (hd2 : '@' ∉ d) :
    Decode ((if reg ≠ [] then reg ++ ['/'] ++ repo else repo) ++ '@' :: d) =
      .ok ⟨reg, repo, [], d⟩ := by
  have hat : '@' ∉ (if reg ≠ [] then reg ++ ['/'] ++ repo else repo) := by
    split_ifs <;> simp [hreg, hrep]
  have hne : (if reg ≠ [] then reg ++ ['/'] ++ repo else repo) ≠ [] := by
    split_ifs <;> simp [hrepo]
  have hs := splitRepositoryTag_at _ d hat
  rw [takeWhile_ne_eq_self d '@' hd2] at hs
  have hp : (splitRepositoryTag
      ((if reg ≠ [] then reg ++ ['/'] ++ repo else repo) ++ '@' :: d)).1 ≠ [] := by
    rw [hs]
    exact hne
  rw [decode_ok_of_part _ hp, hs]
  simp only [splitRepository_format reg repo h0 h1, (contains_iff d ':').mpr hd1, if_true]

end image

namespace docker

set_option maxRecDepth 4000

/-- C17 (as stated) fails: the image `docker.io/library/alpine:latest` is
tag-qualified, the pull and the inspect succeed, and the daemon reports the
repo digest `alpine@sha256:c3ab8`, under its short name; `Resolve` returns
Registry empty and Repository `alpine`, not those of the input.  Likewise
for `some/repo:latest` when the first digest reported is that of another
name of the same image. -/
theorem resolve_tag_counterexample :
    (mockRegistry none (.ok ⟨["alpine@sha256:c3ab8".toList]⟩)).Resolve
        ⟨"docker.io".toList, "library/alpine".toList, "latest".toList, []⟩ 0 =
      ((⟨[], "alpine".toList, [], "sha256:c3ab8".toList⟩, none), 2,
        [Call.PullImage ⟨"docker.io".toList, "library/alpine".toList, "latest".toList⟩,
          Call.InspectImage "docker.io/library/alpine:latest".toList]) ∧
    image.Decode "docker.io/library/alpine:latest".toList =
      .ok ⟨"docker.io".toList, "library/alpine".toList, "latest".toList, []⟩ ∧
    ("docker.io".toList ≠ ([] : Str) ∧ "library/alpine".toList ≠ "alpine".toList) ∧
    ((mockRegistry none
          (.ok ⟨["other/name@sha256:c3ab8".toList, "some/repo@sha256:c3ab8".toList]⟩)).Resolve
        ⟨[], "some/repo".toList, "latest".toList, []⟩ 0).1 =
      (⟨[], "other/name".toList, [], "sha256:c3ab8".toList⟩, none) :=
  ⟨by decide, by decide, by decide, by decide⟩

/-- C17 (amended): for every image without a digest, so for every
tag-qualified image, with a non-empty Repository, no `@` in Registry and
Repository, and either an empty Registry and at most
one `/` in the Repository or a non-empty Registry without `/` and a
Repository with a `/`: when the pull and the inspect succeed and the first
reported repo digest is the name of the image (Registry, `/` and Repository,
or the Repository alone) followed by `@` and a digest that contains `:` and
no `@`, `Resolve` returns the image with that Digest, an empty Tag, and
the Registry and Repository of the input. -/
theorem resolve_tag_to_digest {σ : Type} (r : Registry σ) (img : image.Image) (st st1 st2 : σ)
    (i : Image) (d : Str) (others : List Str)
    (hd : img.Digest = [])
    (hrepo : img.Repository ≠ []) (hreg : '@' ∉ img.Registry) (hrep : '@' ∉ img.Repository)
    (h0 : img.Registry = [] → img.Repository.count '/' ≤ 1)
    (h1 : img.Registry ≠ [] → '/' ∉ img.Registry ∧ '/' ∈ img.Repository)
    (hp : r.client.PullImage ⟨img.Registry, img.Repository, img.Tag⟩ st = (none, st1))
    (hi : r.client.InspectImage img.String st1 = (.ok i, st2))
    (hf : i.RepoDigests =
      ((if img.Registry ≠ [] then img.Registry ++ ['/'] ++ img.Repository else img.Repository) ++
        '@' :: d) :: others)
    (hd1 : ':' ∈ d) (hd2 : '@' ∉ d) :
    r.Resolve img st =
      ((⟨img.Registry, img.Repository, [], d⟩, none), st2,
        [Call.PullImage ⟨img.Registry, img.Repository, img.Tag⟩, Call.InspectImage img.String]) ∧
    d ≠ [] := by
  have hdec := image.decode_name_digest img.Registry img.Repository d hrepo hreg hrep h0 h1 hd1 hd2
  refine ⟨?_, ?_⟩
  · have h : r.Resolve img st =
        (image.decodeResults
          ((if img.Registry ≠ [] then img.Registry ++ ['/'] ++ img.Repository
            else img.Repository) ++ '@' :: d), st2,
          [Call.PullImage ⟨img.Registry, img.Repository, img.Tag⟩,
            Call.InspectImage img.String]) := by
      simp [Registry.Resolve, pullOptions, hd, hp, hi, hf]
    rw [h]
    simp only [image.decodeResults, hdec]
  · intro e
    rw [e] at hd1
    simp at hd1

/-- C17 (amended) on the image and the answer of `TestRegistry_Resolve`. -/
theorem resolve_tag_to_digest_witness :
    (mockRegistry none (.ok ⟨["some/repo@sha256:c3ab8".toList]⟩)).Resolve
        ⟨[], "some/repo".toList, "latest".toList, []⟩ 0 =
      ((⟨[], "some/repo".toList, [], "sha256:c3ab8".toList⟩, none), 2,
        [Call.PullImage ⟨[], "some/repo".toList, "latest".toList⟩,
          Call.InspectImage (image.Image.mk [] "some/repo".toList "latest".toList []).String]) :=
  (resolve_tag_to_digest (mockRegistry none (.ok ⟨["some/repo@sha256:c3ab8".toList]⟩))
    ⟨[], "some/repo".toList, "latest".toList, []⟩ 0 1 2 ⟨["some/repo@sha256:c3ab8".toList]⟩
    "sha256:c3ab8".toList [] rfl (by decide) (by decide) (by decide)
    (fun _ => by decide) (fun h => absurd rfl h) rfl rfl rfl (by decide) (by decide)).1

end docker

namespace docker

/-- The statements after the `defer` inspect the container and may download
from it: they send no other request. -/
theorem extractBody_calls {σ : Type} (r : Registry σ) (ctrID : Str) (st : σ) :
    (r.extractBody ctrID st).2.2 = [Call.InspectContainer ctrID] ∨
    ∃ path, (r.extractBody ctrID st).2.2 =
      [Call.InspectContainer ctrID, Call.DownloadFromContainer ctrID path] := by
  unfold Registry.extractBody
  rcases hi : r.client.InspectContainerWithOptions ctrID st with ⟨e | ctr, st1⟩
  · left
    simp
  · right
    refine ⟨procfilePath ctr, ?_⟩
    simp only
    unfold Registry.downloadFile
    rcases hdl : r.client.DownloadFromContainer ctrID (procfilePath ctr) st1 with
      ⟨⟨buf, _ | e⟩, st2⟩
    · rcases ht : readTar r.tar buf with ⟨b, _ | e⟩ <;> simp [ht]
    · simp

/-- After a successful creation, `ExtractProcfile` returns what the
statements after the `defer` returned, and sends their requests followed by
one removal. -/
theorem extractProcfile_created {σ : Type} (r : Registry σ) (img : Str) (st st1 : σ)
    (ctr : Container) (hc : r.client.CreateContainer img st = (.ok ctr, st1)) :
    (r.ExtractProcfile img st).1 = (r.extractBody ctr.ID st1).1 ∧
    (r.ExtractProcfile img st).2.2 =
      Call.CreateContainer img :: ((r.extractBody ctr.ID st1).2.2 ++
        [Call.RemoveContainer ctr.ID]) := by
  unfold Registry.ExtractProcfile Registry.createContainer Registry.removeContainer
  rcases hb : r.extractBody ctr.ID st1 with ⟨res, st2, calls2⟩
  rcases hr : r.client.RemoveContainer ctr.ID st2 with ⟨_ | e, st3⟩ <;> simp [hc, hb, hr]

/-- The runs of `ExtractProcfile`, by the answers of the client: what it
returns, the state in which it leaves the daemon, and the requests it
sends.  The state is the one after the removal that the client carried out,
on every path on which the container was created. -/
theorem extractProcfile_paths {σ : Type} (r : Registry σ) (img : Str) (st : σ) :
    (∀ e st1, r.client.CreateContainer img st = (.error e, st1) →
      r.ExtractProcfile img st =
        (([], some (Error.wrapf "creating container" e)), st1, [Call.CreateContainer img])) ∧
    (∀ ctr st1 e st2, r.client.CreateContainer img st = (.ok ctr, st1) →
      r.client.InspectContainerWithOptions ctr.ID st1 = (.error e, st2) →
      r.ExtractProcfile img st =
        (([], some (Error.wrapf "inspecting container" e)),
          (r.client.RemoveContainer ctr.ID st2).2,
          [Call.CreateContainer img, Call.InspectContainer ctr.ID,
            Call.RemoveContainer ctr.ID])) ∧
    (∀ ctr st1 c st2 buf e st3, r.client.CreateContainer img st = (.ok ctr, st1) →
      r.client.InspectContainerWithOptions ctr.ID st1 = (.ok c, st2) →
      r.client.DownloadFromContainer ctr.ID (procfilePath c) st2 = ((buf, some e), st3) →
      r.ExtractProcfile img st =
        (([], some (Error.wrapf "downloading procfile" e)),
          (r.client.RemoveContainer ctr.ID st3).2,
          [Call.CreateContainer img, Call.InspectContainer ctr.ID,
            Call.DownloadFromContainer ctr.ID (procfilePath c),
            Call.RemoveContainer ctr.ID])) ∧
    (∀ ctr st1 c st2 buf st3 b e, r.client.CreateContainer img st = (.ok ctr, st1) →
      r.client.InspectContainerWithOptions ctr.ID st1 = (.ok c, st2) →
      r.client.DownloadFromContainer ctr.ID (procfilePath c) st2 = ((buf, none), st3) →
      readTar r.tar buf = (b, some e) →
      r.ExtractProcfile img st =
        (([], some (Error.wrapf "downloading procfile" e)),
          (r.client.RemoveContainer ctr.ID st3).2,
          [Call.CreateContainer img, Call.InspectContainer ctr.ID,
            Call.DownloadFromContainer ctr.ID (procfilePath c),
            Call.RemoveContainer ctr.ID])) ∧
    (∀ ctr st1 c st2 buf st3 b, r.client.CreateContainer img st = (.ok ctr, st1) →
      r.client.InspectContainerWithOptions ctr.ID st1 = (.ok c, st2) →
      r.client.DownloadFromContainer ctr.ID (procfilePath c) st2 = ((buf, none), st3) →
      readTar r.tar buf = (b, none) →
      r.ExtractProcfile img st =
        ((b, none), (r.client.RemoveContainer ctr.ID st3).2,
          [Call.CreateContainer img, Call.InspectContainer ctr.ID,
            Call.DownloadFromContainer ctr.ID (procfilePath c),
            Call.RemoveContainer ctr.ID])) := by
  refine ⟨?_, ?_, ?_, ?_, ?_⟩
  · intro e st1 hc
    simp [Registry.ExtractProcfile, Registry.createContainer, hc]
  · intro ctr st1 e st2 hc hi
    rcases hr : r.client.RemoveContainer ctr.ID st2 with ⟨_ | e2, st4⟩ <;>
      simp [Registry.ExtractProcfile, Registry.createContainer, Registry.extractBody,
        Registry.removeContainer, hc, hi, hr]
  · intro ctr st1 c st2 buf e st3 hc hi hdl
    rcases hr : r.client.RemoveContainer ctr.ID st3 with ⟨_ | e2, st4⟩ <;>
      simp [Registry.ExtractProcfile, Registry.createContainer, Registry.extractBody,
        Registry.downloadFile, Registry.removeContainer, hc, hi, hdl, hr]
  · intro ctr st1 c st2 buf st3 b e hc hi hdl ht
    rcases hr : r.client.RemoveContainer ctr.ID st3 with ⟨_ | e2, st4⟩ <;>
      simp [Registry.ExtractProcfile, Registry.createContainer, Registry.extractBody,
        Registry.downloadFile, Registry.removeContainer, hc, hi, hdl, ht, hr]
  · intro ctr st1 c st2 buf st3 b hc hi hdl ht
    rcases hr : r.client.RemoveContainer ctr.ID st3 with ⟨_ | e2, st4⟩ <;>
      simp [Registry.ExtractProcfile, Registry.createContainer, Registry.extractBody,
        Registry.downloadFile, Registry.removeContainer, hc, hi, hdl, ht, hr]

/-- The requests that the daemon receives while `ExtractProcfile` runs are
the requests of the call log, and recording them changes neither the result
nor the state of the daemon. -/
theorem extractProcfile_recording {σ : Type} (r : Registry σ) (img : Str) (st : σ) :
    (Registry.mk r.client.recording r.tar).ExtractProcfile img (st, []) =
      ((r.ExtractProcfile img st).1,
        ((r.ExtractProcfile img st).2.1, (r.ExtractProcfile img st).2.2),
        (r.ExtractProcfile img st).2.2) := by
  obtain ⟨p1, p2, p3, p4, p5⟩ := extractProcfile_paths r img st
  obtain ⟨q1, q2, q3, q4, q5⟩ :=
    extractProcfile_paths (Registry.mk r.client.recording r.tar) img (st, [])
  rcases hc : r.client.CreateContainer img st with ⟨e | ctr, st1⟩
  · rw [p1 e st1 hc, q1 e (st1, [Call.CreateContainer img]) (by simp [Client.recording, hc])]
  · rcases hi : r.client.InspectContainerWithOptions ctr.ID st1 with ⟨e | c, st2⟩
    · rw [p2 ctr st1 e st2 hc hi,
        q2 ctr (st1, [Call.CreateContainer img]) e
          (st2, [Call.CreateContainer img, Call.InspectContainer ctr.ID])
          (by simp [Client.recording, hc]) (by simp [Client.recording, hi])]
      simp [Client.recording]
    · rcases hdl : r.client.DownloadFromContainer ctr.ID (procfilePath c) st2 with
        ⟨⟨buf, _ | e⟩, st3⟩
      · rcases ht : readTar r.tar buf with ⟨b, _ | e⟩
        · rw [p5 ctr st1 c st2 buf st3 b hc hi hdl ht,
            q5 ctr (st1, [Call.CreateContainer img]) c
              (st2, [Call.CreateContainer img, Call.InspectContainer ctr.ID]) buf
              (st3, [Call.CreateContainer img, Call.InspectContainer ctr.ID,
                Call.DownloadFromContainer ctr.ID (procfilePath c)]) b
              (by simp [Client.recording, hc]) (by simp [Client.recording, hi])
              (by simp [Client.recording, hdl]) ht]
          simp [Client.recording]
        · rw [p4 ctr st1 c st2 buf st3 b e hc hi hdl ht,
            q4 ctr (st1, [Call.CreateContainer img]) c
              (st2, [Call.CreateContainer img, Call.InspectContainer ctr.ID]) buf
              (st3, [Call.CreateContainer img, Call.InspectContainer ctr.ID,
                Call.DownloadFromContainer ctr.ID (procfilePath c)]) b e
              (by simp [Client.recording, hc]) (by simp [Client.recording, hi])
              (by simp [Client.recording, hdl]) ht]
          simp [Client.recording]
      · rw [p3 ctr st1 c st2 buf e st3 hc hi hdl,
          q3 ctr (st1, [Call.CreateContainer img]) c
            (st2, [Call.CreateContainer img, Call.InspectContainer ctr.ID]) buf e
            (st3, [Call.CreateContainer img, Call.InspectContainer ctr.ID,
              Call.DownloadFromContainer ctr.ID (procfilePath c)])
            (by simp [Client.recording, hc]) (by simp [Client.recording, hi])
            (by simp [Client.recording, hdl])]
        simp [Client.recording]

/-- The requests the daemon receives are the requests of the call log. -/
theorem received_eq_log {σ : Type} (r : Registry σ) (img : Str) (st : σ) :
    r.received img st = (r.ExtractProcfile img st).2.2 := by
  unfold Registry.received
  rw [extractProcfile_recording]

/-- C20: when the creation of the container fails, `ExtractProcfile` returns
the error of `createContainer`, and the daemon receives no other request.
When the container was created, the daemon receives the request to remove
that container exactly once, as the last request, whatever the later steps
did: on an inspect failure, a download failure, a failure to read the
archive, and on success; the state in which the daemon is left is the state
after the client carried out that removal.  What the removal returns does
not change the bytes and the error returned.  The requests that the daemon
receives are those of the call log. -/
theorem extract_removes_once {σ : Type} (r : Registry σ) (img : Str) (st : σ) :
    (∀ e st1, r.client.CreateContainer img st = (.error e, st1) →
      r.ExtractProcfile img st =
        (([], some (Error.wrapf "creating container" e)), st1, [Call.CreateContainer img]) ∧
      r.received img st = [Call.CreateContainer img]) ∧
    (∀ ctr st1, r.client.CreateContainer img st = (.ok ctr, st1) →
      (r.received img st).count (Call.RemoveContainer ctr.ID) = 1 ∧
      (r.received img st).getLast? = some (Call.RemoveContainer ctr.ID) ∧
      (∀ id, Call.RemoveContainer id ∈ r.received img st → id = ctr.ID)) ∧
    (∀ ctr st1 e st2, r.client.CreateContainer img st = (.ok ctr, st1) →
      r.client.InspectContainerWithOptions ctr.ID st1 = (.error e, st2) →
      r.ExtractProcfile img st =
        (([], some (Error.wrapf "inspecting container" e)),
          (r.client.RemoveContainer ctr.ID st2).2,
          [Call.CreateContainer img, Call.InspectContainer ctr.ID,
            Call.RemoveContainer ctr.ID])) ∧
    (∀ ctr st1 c st2 buf e st3, r.client.CreateContainer img st = (.ok ctr, st1) →
      r.client.InspectContainerWithOptions ctr.ID st1 = (.ok c, st2) →
      r.client.DownloadFromContainer ctr.ID (procfilePath c) st2 = ((buf, some e), st3) →
      r.ExtractProcfile img st =
        (([], some (Error.wrapf "downloading procfile" e)),
          (r.client.RemoveContainer ctr.ID st3).2,
          [Call.CreateContainer img, Call.InspectContainer ctr.ID,
            Call.DownloadFromContainer ctr.ID (procfilePath c),
            Call.RemoveContainer ctr.ID])) ∧
    (∀ ctr st1 c st2 buf st3, r.client.CreateContainer img st = (.ok ctr, st1) →
      r.client.InspectContainerWithOptions ctr.ID st1 = (.ok c, st2) →
      r.client.DownloadFromContainer ctr.ID (procfilePath c) st2 = ((buf, none), st3) →
      (∀ b e, readTar r.tar buf = (b, some e) →
        r.ExtractProcfile img st =
          (([], some (Error.wrapf "downloading procfile" e)),
            (r.client.RemoveContainer ctr.ID st3).2,
            [Call.CreateContainer img, Call.InspectContainer ctr.ID,
              Call.DownloadFromContainer ctr.ID (procfilePath c),
              Call.RemoveContainer ctr.ID])) ∧
      (∀ b, readTar r.tar buf = (b, none) →
        r.ExtractProcfile img st =
          ((b, none), (r.client.RemoveContainer ctr.ID st3).2,
            [Call.CreateContainer img, Call.InspectContainer ctr.ID,
              Call.DownloadFromContainer ctr.ID (procfilePath c),
              Call.RemoveContainer ctr.ID]))) ∧
    (∀ rm, (Registry.ExtractProcfile ⟨{ r.client with RemoveContainer := rm }, r.tar⟩ img st).1 =
      (r.ExtractProcfile img st).1) ∧
    r.received img st = (r.ExtractProcfile img st).2.2 := by
  have hrec : r.received img st = (r.ExtractProcfile img st).2.2 := by
    unfold Registry.received
    rw [extractProcfile_recording]
  refine ⟨?_, ?_, ?_, ?_, ?_, ?_, hrec⟩
  · intro e st1 hc
    have h1 : r.ExtractProcfile img st =
        (([], some (Error.wrapf "creating container" e)), st1, [Call.CreateContainer img]) := by
      simp [Registry.ExtractProcfile, Registry.createContainer, hc]
    refine ⟨h1, ?_⟩
    rw [hrec, h1]
  · intro ctr st1 hc
    obtain ⟨_, h2⟩ := extractProcfile_created r img st st1 ctr hc
    rw [hrec, h2]
    rcases extractBody_calls r ctr.ID st1 with h | ⟨path, h⟩ <;> rw [h] <;> simp
  · intro ctr st1 e st2 hc hi
    rcases hr : r.client.RemoveContainer ctr.ID st2 with ⟨_ | e2, st4⟩ <;>
      simp [Registry.ExtractProcfile, Registry.createContainer, Registry.extractBody,
        Registry.removeContainer, hc, hi, hr]
  · intro ctr st1 c st2 buf e st3 hc hi hdl
    rcases hr : r.client.RemoveContainer ctr.ID st3 with ⟨_ | e2, st4⟩ <;>
      simp [Registry.ExtractProcfile, Registry.createContainer, Registry.extractBody,
        Registry.downloadFile, Registry.removeContainer, hc, hi, hdl, hr]
  · intro ctr st1 c st2 buf st3 hc hi hdl
    refine ⟨?_, ?_⟩
    · intro b e ht
      rcases hr : r.client.RemoveContainer ctr.ID st3 with ⟨_ | e2, st4⟩ <;>
        simp [Registry.ExtractProcfile, Registry.createContainer, Registry.extractBody,
          Registry.downloadFile, Registry.removeContainer, hc, hi, hdl, ht, hr]
    · intro b ht
      rcases hr : r.client.RemoveContainer ctr.ID st3 with ⟨_ | e2, st4⟩ <;>
        simp [Registry.ExtractProcfile, Registry.createContainer, Registry.extractBody,
          Registry.downloadFile, Registry.removeContainer, hc, hi, hdl, ht, hr]
  · intro rm
    rcases hc : r.client.CreateContainer img st with ⟨e | ctr, st1⟩
    · simp [Registry.ExtractProcfile, Registry.createContainer, hc]
    · have h1 := (extractProcfile_created r img st st1 ctr hc).1
      have h2 := (extractProcfile_created
        ⟨{ r.client with RemoveContainer := rm }, r.tar⟩ img st st1 ctr hc).1
      rw [h1, h2]
      rfl

/-- C20 on the daemon of the tests, which counts the requests it receives,
when the download and the removal fail: the daemon has received four
requests, the removal once and last, and the error is that of the
download. -/
theorem extract_removes_once_witness :
    (Registry.ExtractProcfile
      ⟨mockClient none (.ok ⟨[]⟩) (.ok ⟨"foo".toList, none⟩) (.ok ⟨"foo".toList, none⟩)
        ([], some (Error.new "no such file")) (some (Error.new "gone")), mockTar⟩
      "foo/bar".toList 0) =
      (([], some (Error.wrapf "downloading procfile" (Error.new "no such file"))), 4,
        [Call.CreateContainer "foo/bar".toList, Call.InspectContainer "foo".toList,
          Call.DownloadFromContainer "foo".toList "Procfile".toList,
          Call.RemoveContainer "foo".toList]) ∧
    Registry.received
      ⟨mockClient none (.ok ⟨[]⟩) (.ok ⟨"foo".toList, none⟩) (.ok ⟨"foo".toList, none⟩)
        ([], some (Error.new "no such file")) (some (Error.new "gone")), mockTar⟩
      "foo/bar".toList 0 =
        [Call.CreateContainer "foo/bar".toList, Call.InspectContainer "foo".toList,
          Call.DownloadFromContainer "foo".toList "Procfile".toList,
          Call.RemoveContainer "foo".toList] ∧
    (Registry.received
      ⟨mockClient none (.ok ⟨[]⟩) (.ok ⟨"foo".toList, none⟩) (.ok ⟨"foo".toList, none⟩)
        ([], some (Error.new "no such file")) (some (Error.new "gone")), mockTar⟩
      "foo/bar".toList 0).count (Call.RemoveContainer "foo".toList) = 1 :=
  ⟨by decide, by decide,
    ((extract_removes_once
      ⟨mockClient none (.ok ⟨[]⟩) (.ok ⟨"foo".toList, none⟩) (.ok ⟨"foo".toList, none⟩)
        ([], some (Error.new "no such file")) (some (Error.new "gone")), mockTar⟩
      "foo/bar".toList 0).2.1 ⟨"foo".toList, none⟩ 1 rfl).1⟩

end docker


/-! ## The release store -/

namespace store

theorem first_eq_none_iff (rows : List ReleaseRow) : firstByVersionDesc rows = none ↔ rows = [] := by
  cases rows with
  | nil => simp [firstByVersionDesc]
  | cons r rs =>
    simp only [firstByVersionDesc]
    cases firstByVersionDesc rs with
    | none => simp
    | some m => by_cases h : r.Version < m.Version <;> simp [h]

theorem first_max (rows : List ReleaseRow) (m : ReleaseRow)
    (h : firstByVersionDesc rows = some m) :
    m ∈ rows ∧ ∀ r ∈ rows, r.Version ≤ m.Version := by
  induction rows generalizing m with
  | nil => simp [firstByVersionDesc] at h
  | cons r rs ih =>
    simp only [firstByVersionDesc] at h
    cases hf : firstByVersionDesc rs with
    | none =>
      rw [hf] at h
      simp only [Option.some.injEq] at h
      subst h
      have hrs : rs = [] := (first_eq_none_iff rs).mp hf
      subst hrs
      simp
    | some m2 =>
      rw [hf] at h
      obtain ⟨hm, hle⟩ := ih m2 hf
      by_cases hlt : r.Version < m2.Version
      · simp only [hlt, if_true, Option.some.injEq] at h
        subst h
        refine ⟨List.mem_cons_of_mem _ hm, ?_⟩
        intro x hx
        rcases List.mem_cons.mp hx with e | e
        · rw [e]
          omega
        · exact hle x e
      · simp only [hlt, if_false, Option.some.injEq] at h
        subst h
        refine ⟨List.mem_cons_self _ _, ?_⟩
        intro x hx
        rcases List.mem_cons.mp hx with e | e
        · rw [e]
        · have := hle x e
          omega

/-- A successful `tx.Create` in a new transaction hands back the release of
`Release.created`, and has its row and the rows of `appsAdded` pending. -/
theorem create_begin (db : Database) (env : Env) (r : Release) (hi : env.insertErr = none) :
    Tx.Begin.Create db env r =
      ((⟨db.appsAdded env r, [(r.created env).row]⟩, r.created env), none) := by
  unfold Tx.Create Release.created Database.appsAdded
  rw [hi]
  cases hA : r.App with
  | none => simp [Tx.Begin]
  | some a =>
    by_cases hany : db.apps.any (fun row => decide (row.ID = (a.BeforeCreate env).ID)) = true
    · simp [Tx.saveApp, Tx.Begin, hany, Release.BeforeCreate]
    · simp [Tx.saveApp, Tx.Begin, hany, Release.BeforeCreate]

theorem created_fields (r : Release) (env : Env) :
    (r.created env).ID = env.newID ∧ (r.created env).Image = r.Image ∧
    (r.created env).Version = r.Version ∧ (r.created env).Procfile = r.Procfile ∧
    (r.created env).CreatedAt = some env.now ∧
    (r.created env).row.AppID = (r.created env).AppID ∧
    (r.created env).row.Version = r.Version := by
  unfold Release.created
  cases r.App <;> simp [Release.BeforeCreate, Release.row]

theorem created_of_none (r : Release) (env : Env) (h : r.App = none) :
    r.created env = r.BeforeCreate env ∧ (r.created env).AppID = r.AppID ∧
    (r.created env).App = none := by
  unfold Release.created
  rw [h]
  simp [Release.BeforeCreate, h]

theorem created_of_some (r : Release) (env : Env) (a : App) (h : r.App = some a) :
    (r.created env).AppID = env.newAppID ∧
    (r.created env).App = some (a.BeforeCreate env) := by
  unfold Release.created
  rw [h]
  simp [App.BeforeCreate]

theorem appsAdded_version (db : Database) (env : Env) (r : Release) (v : Int) :
    db.appsAdded env { r with Version := v } = db.appsAdded env r := rfl

/-- The statements after the version lookup, by what fails. -/
theorem insertAndCommit_cases (db : Database) (env : Env) (r : Release) (ver : Int) :
    (∃ e, env.insertErr = some e ∧
      db.insertAndCommit Tx.Begin env r ver =
        ((none, some (Error.wrapf "creating release" e)), db)) ∨
    (∃ e, env.insertErr = none ∧ env.commitErr = some e ∧
      db.insertAndCommit Tx.Begin env r ver =
        ((some (Release.created { r with Version := ver + 1 } env), some e), db)) ∨
    (env.insertErr = none ∧ env.commitErr = none ∧
      db.insertAndCommit Tx.Begin env r ver =
        ((some (Release.created { r with Version := ver + 1 } env), none),
          ⟨db.apps ++ db.appsAdded env r,
            db.releases ++ [(Release.created { r with Version := ver + 1 } env).row]⟩)) := by
  cases hi : env.insertErr with
  | some e =>
    left
    exact ⟨e, rfl, by simp [Database.insertAndCommit, Tx.Create, Tx.Rollback, hi]⟩
  | none =>
    right
    have hc0 := create_begin db env { r with Version := ver + 1 } hi
    rw [appsAdded_version] at hc0
    cases hc : env.commitErr with
    | some e =>
      left
      exact ⟨e, rfl, rfl, by
        simp [Database.insertAndCommit, hc0, Tx.Commit, Tx.Rollback, hc]⟩
    | none =>
      right
      exact ⟨rfl, rfl, by
        simp [Database.insertAndCommit, hc0, Tx.Commit, Tx.Rollback, hc]⟩

/-- The outcomes of `CreateRelease`: a failed lookup, then the outcomes of
the statements after the lookup. -/
theorem createRelease_cases (db : Database) (env : Env) (r : Release) :
    (∃ e, env.lookupErr = some e ∧ e.Is gorm.ErrRecordNotFound = false ∧
      db.CreateRelease env r =
        ((none, some (Error.wrapf "getting latest release version" e)), db)) ∨
    ((∀ e, env.lookupErr = some e → e.Is gorm.ErrRecordNotFound = true) ∧
      db.CreateRelease env r =
        db.insertAndCommit Tx.Begin env r (db.currentVersion Tx.Begin env r.AppID).1) := by
  rcases hv : db.currentVersion Tx.Begin env r.AppID with ⟨ver, _ | e⟩
  · right
    refine ⟨?_, by simp [Database.CreateRelease, hv]⟩
    intro e he
    simp [Database.currentVersion, Tx.First, he] at hv
  · by_cases hn : e.Is gorm.ErrRecordNotFound = true
    · right
      refine ⟨?_, by simp [Database.CreateRelease, hv, hn]⟩
      intro e2 he2
      simp only [Database.currentVersion, Tx.First, he2, Prod.mk.injEq, Option.some.injEq] at hv
      rw [hv.2]
      exact hn
    · left
      have hn2 : e.Is gorm.ErrRecordNotFound = false := by simpa using hn
      have hgoal : db.CreateRelease env r =
          ((none, some (Error.wrapf "getting latest release version" e)), db) := by
        simp [Database.CreateRelease, hv, hn2, Tx.Rollback]
      cases hl : env.lookupErr with
      | some e2 =>
        simp only [Database.currentVersion, Tx.First, hl, Prod.mk.injEq, Option.some.injEq] at hv
        exact ⟨e, by rw [hv.2], hn2, hgoal⟩
      | none =>
        exfalso
        simp only [Database.currentVersion, Tx.First, hl] at hv
        split at hv
        · simp only [Prod.mk.injEq, Option.some.injEq] at hv
          rw [← hv.2] at hn2
          simp [gorm.ErrRecordNotFound, Error.Is] at hn2
        · simp at hv

/-- When `CreateRelease` returns an error the database is as before. -/
theorem createRelease_err (db : Database) (env : Env) (r : Release) (out : Option Release)
    (e : Error) (db2 : Database) (h : db.CreateRelease env r = ((out, some e), db2)) :
    db2 = db := by
  rcases createRelease_cases db env r with ⟨e0, _, _, h0⟩ | ⟨_, h0⟩
  · rw [h0] at h
    simp only [Prod.mk.injEq] at h
    exact h.2.symm
  · rw [h0] at h
    rcases insertAndCommit_cases db env r (db.currentVersion Tx.Begin env r.AppID).1 with
      ⟨e1, _, h1⟩ | ⟨e1, _, _, h1⟩ | ⟨_, _, h1⟩
    · rw [h1] at h
      simp only [Prod.mk.injEq] at h
      exact h.2.symm
    · rw [h1] at h
      simp only [Prod.mk.injEq] at h
      exact h.2.symm
    · rw [h1] at h
      simp at h

/-- When `CreateRelease` returns no error it returns the release it created,
with the version after the one it looked up, and has appended its row. -/
theorem createRelease_ok (db : Database) (env : Env) (r : Release) (out : Option Release)
    (db2 : Database) (h : db.CreateRelease env r = ((out, none), db2)) :
    out = some (Release.created
      { r with Version := (db.currentVersion Tx.Begin env r.AppID).1 + 1 } env) ∧
    db2 = ⟨db.apps ++ db.appsAdded env r, db.releases ++ [(Release.created
      { r with Version := (db.currentVersion Tx.Begin env r.AppID).1 + 1 } env).row]⟩ := by
  rcases createRelease_cases db env r with ⟨e0, _, _, h0⟩ | ⟨_, h0⟩
  · rw [h0] at h
    simp at h
  · rw [h0] at h
    rcases insertAndCommit_cases db env r (db.currentVersion Tx.Begin env r.AppID).1 with
      ⟨e1, _, h1⟩ | ⟨e1, _, _, h1⟩ | ⟨_, _, h1⟩
    · rw [h1] at h
      simp at h
    · rw [h1] at h
      simp at h
    · rw [h1] at h
      simp only [Prod.mk.injEq] at h
      exact ⟨h.1.1.symm, h.2.symm⟩

end store

namespace store

/-- The version lookup finds version 0 when the app has no release. -/
theorem currentVersion_of_no_release (db : Database) (env : Env) (appID : Str)
    (hnone : ∀ row ∈ db.releases, row.AppID ≠ appID) :
    (db.currentVersion Tx.Begin env appID).1 = 0 := by
  have hf : (db.releases ++ Tx.Begin.pending).filter (fun row => row.AppID = appID) = [] := by
    rw [List.filter_eq_nil_iff]
    intro row hrow
    have hmem : row ∈ db.releases := by simpa [Tx.Begin] using hrow
    simpa using hnone row hmem
  unfold Database.currentVersion Tx.First
  cases env.lookupErr with
  | some e => rfl
  | none =>
    simp only [hf, firstByVersionDesc]

/-- C11 (as stated) fails for a release that carries its app in the field
`App`.  On a store that holds the app `a1` and no release, the call for the
app id `a1` with that app in `App` returns the AppID `a2`, the new ID that
the hook of the app drew, and not the AppID passed in; the release is stored
under `a2`, next to a second row of the app.  The call of
`TestAura_CreateRelease`, which passes the app and an empty AppID, returns
the AppID `a2` as well. -/
theorem createRelease_first_counterexample :
    (Database.mk [⟨"a1".toList, "test app".toList, some 1, none⟩] []).CreateRelease
        (Env.quietApp "r1".toList 3 "a2".toList 4)
        ⟨[], "a1".toList, some ⟨"a1".toList, "test app".toList, some 1, none⟩,
          some ⟨[], "foo/bar".toList, "latest".toList, []⟩, 0, [116, 101, 115, 116], none⟩ =
      ((some ⟨"r1".toList, "a2".toList, some ⟨"a2".toList, "test app".toList, some 4, none⟩,
          some ⟨[], "foo/bar".toList, "latest".toList, []⟩, 1, [116, 101, 115, 116], some 3⟩,
          none),
        ⟨[⟨"a1".toList, "test app".toList, some 1, none⟩,
            ⟨"a2".toList, "test app".toList, some 4, none⟩],
          [⟨"r1".toList, "a2".toList, some "foo/bar:latest".toList, 1, [116, 101, 115, 116],
            some 3⟩]⟩) ∧
    (Database.mk [⟨"a1".toList, "test app".toList, some 1, none⟩] []).CreateRelease
        (Env.quietApp "r1".toList 3 "a2".toList 4)
        ⟨[], [], some ⟨"a1".toList, "test app".toList, some 1, none⟩,
          some ⟨[], "foo/bar".toList, "latest".toList, []⟩, 0, [116, 101, 115, 116], none⟩ =
      ((some ⟨"r1".toList, "a2".toList, some ⟨"a2".toList, "test app".toList, some 4, none⟩,
          some ⟨[], "foo/bar".toList, "latest".toList, []⟩, 1, [116, 101, 115, 116], some 3⟩,
          none),
        ⟨[⟨"a1".toList, "test app".toList, some 1, none⟩,
            ⟨"a2".toList, "test app".toList, some 4, none⟩],
          [⟨"r1".toList, "a2".toList, some "foo/bar:latest".toList, 1, [116, 101, 115, 116],
            some 3⟩]⟩) := by
  refine ⟨by decide, by decide⟩

/-- C11 (amended): for every store state in which no release exists for the
AppID of the release passed in, whatever the releases of other apps, a
successful `CreateRelease` returns a release with Version 1 and with the
Image and Procfile that were passed in, and stores its row.  When the
release carries no app (`App` is nil) the AppID returned is the one passed
in and the table `apps` is unchanged.  When it carries an app, the AppID
returned, and stored, is the new ID that the hook of the app drew, the app
returned is the app passed in with that ID, and that app is added to the
table `apps` unless a row has the ID.  When nothing fails, the call is
successful. -/
theorem createRelease_first (db : Database) (env : Env) (r : Release)
    (hnone : ∀ row ∈ db.releases, row.AppID ≠ r.AppID) :
    (∀ out db2, db.CreateRelease env r = ((out, none), db2) →
      ∃ created, out = some created ∧ created.Version = 1 ∧
        created.Image = r.Image ∧ created.Procfile = r.Procfile ∧
        db2.releases = db.releases ++ [created.row] ∧ created.row.AppID = created.AppID ∧
        (r.App = none → created.AppID = r.AppID ∧ created.App = none ∧ db2.apps = db.apps) ∧
        (∀ a, r.App = some a → created.AppID = env.newAppID ∧
          created.App = some { a with ID := env.newAppID, CreatedAt := some env.appNow } ∧
          ((∃ row ∈ db.apps, row.ID = env.newAppID) → db2.apps = db.apps) ∧
          ((∀ row ∈ db.apps, row.ID ≠ env.newAppID) →
            db2.apps = db.apps ++ [{ a with ID := env.newAppID, CreatedAt := some env.appNow }]))) ∧
    (env.lookupErr = none → env.insertErr = none → env.commitErr = none →
      ∃ created db2, db.CreateRelease env r = ((some created, none), db2)) := by
  have hv := currentVersion_of_no_release db env r.AppID hnone
  constructor
  · intro out db2 h
    obtain ⟨h1, h2⟩ := createRelease_ok db env r out db2 h
    rw [hv] at h1 h2
    obtain ⟨_, f2, f3, f4, _, f6, _⟩ := created_fields { r with Version := 0 + 1 } env
    refine ⟨_, h1, ?_, f2, f4, by rw [h2], f6, ?_, ?_⟩
    · rw [f3]
      simp
    · intro hA
      obtain ⟨_, g2, g3⟩ := created_of_none { r with Version := 0 + 1 } env hA
      refine ⟨g2, g3, ?_⟩
      rw [h2]
      simp [Database.appsAdded, hA]
    · intro a hA
      obtain ⟨g1, g2⟩ := created_of_some { r with Version := 0 + 1 } env a hA
      refine ⟨g1, g2, ?_, ?_⟩
      · rintro ⟨row, hrow, hid⟩
        have hany : db.apps.any (fun row => decide (row.ID = (a.BeforeCreate env).ID)) = true := by
          simp only [List.any_eq_true, decide_eq_true_eq]
          exact ⟨row, hrow, hid⟩
        rw [h2]
        simp [Database.appsAdded, hA, hany]
      · intro hall
        rw [h2]
        simpa [Database.appsAdded, hA, App.BeforeCreate] using hall
  · intro hl hi hc
    rcases createRelease_cases db env r with ⟨e0, he0, _, _⟩ | ⟨_, h0⟩
    · rw [hl] at he0
      cases he0
    · rcases insertAndCommit_cases db env r (db.currentVersion Tx.Begin env r.AppID).1 with
        ⟨e1, he1, _⟩ | ⟨e1, _, he1, _⟩ | ⟨_, _, h1⟩
      · rw [hi] at he1
        cases he1
      · rw [hc] at he1
        cases he1
      · exact ⟨_, _, h0.trans h1⟩

/-- C11 (amended) on the first release of the app `a1`, passed by its AppID,
in a store that holds a release of the app `a0`. -/
theorem createRelease_first_witness :
    (Database.mk [] [⟨"r0".toList, "a0".toList, none, 1, [], some 3⟩]).CreateRelease
        (Env.quiet "r1".toList 5)
        ⟨[], "a1".toList, none, some ⟨[], "foo/bar".toList, "latest".toList, []⟩, 0,
          [116, 101, 115, 116], none⟩ =
      ((some ⟨"r1".toList, "a1".toList, none, some ⟨[], "foo/bar".toList, "latest".toList, []⟩, 1,
          [116, 101, 115, 116], some 5⟩, none),
        ⟨[], [⟨"r0".toList, "a0".toList, none, 1, [], some 3⟩,
          ⟨"r1".toList, "a1".toList, some "foo/bar:latest".toList, 1, [116, 101, 115, 116],
            some 5⟩]⟩) ∧
    ∃ created db2,
      (Database.mk [] [⟨"r0".toList, "a0".toList, none, 1, [], some 3⟩]).CreateRelease
        (Env.quiet "r1".toList 5)
        ⟨[], "a1".toList, none, some ⟨[], "foo/bar".toList, "latest".toList, []⟩, 0,
          [116, 101, 115, 116], none⟩ = ((some created, none), db2) :=
  ⟨by decide,
    (createRelease_first (Database.mk [] [⟨"r0".toList, "a0".toList, none, 1, [], some 3⟩])
      (Env.quiet "r1".toList 5)
      ⟨[], "a1".toList, none, some ⟨[], "foo/bar".toList, "latest".toList, []⟩, 0,
        [116, 101, 115, 116], none⟩ (by decide)).2 rfl rfl rfl⟩

/-- C14: whenever `CreateRelease` returns an error, the content of the
database is what it was before the call.  The error is that of a version
lookup that failed with another error than record-not-found, that of the
insert, or that of the commit; each of these failures makes the call
return an error. -/
theorem createRelease_error_keeps (db : Database) (env : Env) (r : Release)
    (out : Option Release) (e : Error) (db2 : Database)
    (h : db.CreateRelease env r = ((out, some e), db2)) :
    db2 = db ∧ db2.releases = db.releases ∧
    ((∃ e0, env.lookupErr = some e0 ∧ e0.Is gorm.ErrRecordNotFound = false ∧
        e = Error.wrapf "getting latest release version" e0 ∧ out = none) ∨
      (∃ e0, env.insertErr = some e0 ∧ e = Error.wrapf "creating release" e0 ∧ out = none) ∨
      (env.insertErr = none ∧ env.commitErr = some e)) ∧
    (∀ e0, env.lookupErr = some e0 → e0.Is gorm.ErrRecordNotFound = false →
      ((db.CreateRelease env r).1.2 ≠ none ∧ (db.CreateRelease env r).2 = db)) ∧
    (∀ e0, env.insertErr = some e0 →
      ((db.CreateRelease env r).1.2 ≠ none ∧ (db.CreateRelease env r).2 = db)) ∧
    (∀ e0, env.commitErr = some e0 →
      ((db.CreateRelease env r).1.2 ≠ none ∧ (db.CreateRelease env r).2 = db)) := by
  have hdb := createRelease_err db env r out e db2 h
  have hall : (db.CreateRelease env r).1.2 ≠ none → (db.CreateRelease env r).2 = db := by
    intro hne
    rcases hres : db.CreateRelease env r with ⟨⟨o, _ | e1⟩, d⟩
    · rw [hres] at hne
      exact absurd rfl hne
    · exact createRelease_err db env r o e1 d hres
  refine ⟨hdb, by rw [hdb], ?_, ?_, ?_, ?_⟩
  · rcases createRelease_cases db env r with ⟨e0, he0, hn, h0⟩ | ⟨_, h0⟩
    · left
      rw [h0] at h
      simp only [Prod.mk.injEq, Option.some.injEq] at h
      exact ⟨e0, he0, hn, h.1.2.symm, h.1.1.symm⟩
    · right
      rw [h0] at h
      rcases insertAndCommit_cases db env r (db.currentVersion Tx.Begin env r.AppID).1 with
        ⟨e1, he1, h1⟩ | ⟨e1, hi1, he1, h1⟩ | ⟨_, _, h1⟩
      · left
        rw [h1] at h
        simp only [Prod.mk.injEq, Option.some.injEq] at h
        exact ⟨e1, he1, h.1.2.symm, h.1.1.symm⟩
      · right
        rw [h1] at h
        simp only [Prod.mk.injEq, Option.some.injEq] at h
        exact ⟨hi1, by rw [he1, h.1.2]⟩
      · rw [h1] at h
        simp at h
  · intro e0 he0 hn
    have hne : (db.CreateRelease env r).1.2 ≠ none := by
      rcases createRelease_cases db env r with ⟨e1, _, _, h0⟩ | ⟨hall0, _⟩
      · rw [h0]
        simp
      · have := hall0 e0 he0
        rw [hn] at this
        cases this
    exact ⟨hne, hall hne⟩
  · intro e0 he0
    have hne : (db.CreateRelease env r).1.2 ≠ none := by
      rcases createRelease_cases db env r with ⟨e1, _, _, h0⟩ | ⟨_, h0⟩
      · rw [h0]
        simp
      · rw [h0]
        rcases insertAndCommit_cases db env r (db.currentVersion Tx.Begin env r.AppID).1 with
          ⟨e1, _, h1⟩ | ⟨e1, hi1, _, _⟩ | ⟨hi1, _, _⟩
        · rw [h1]
          simp
        · rw [he0] at hi1
          cases hi1
        · rw [he0] at hi1
          cases hi1
    exact ⟨hne, hall hne⟩
  · intro e0 he0
    have hne : (db.CreateRelease env r).1.2 ≠ none := by
      rcases createRelease_cases db env r with ⟨e1, _, _, h0⟩ | ⟨_, h0⟩
      · rw [h0]
        simp
      · rw [h0]
        rcases insertAndCommit_cases db env r (db.currentVersion Tx.Begin env r.AppID).1 with
          ⟨e1, _, h1⟩ | ⟨e1, _, _, h1⟩ | ⟨_, hc1, _⟩
        · rw [h1]
          simp
        · rw [h1]
          simp
        · rw [he0] at hc1
          cases hc1
    exact ⟨hne, hall hne⟩

/-- C14 on a call whose commit fails: the release is returned next to the
error, and no row is stored. -/
theorem createRelease_error_keeps_witness :
    (Database.mk [] [⟨"r0".toList, "a0".toList, none, 1, [], some 3⟩]).CreateRelease
        ⟨none, none, some (Error.new "commit failed"), "r1".toList, 5, [], 0⟩
        ⟨[], "a0".toList, none, none, 0, [], none⟩ =
      ((some ⟨"r1".toList, "a0".toList, none, none, 2, [], some 5⟩,
          some (Error.new "commit failed")),
        Database.mk [] [⟨"r0".toList, "a0".toList, none, 1, [], some 3⟩]) ∧
    Database.mk [] [⟨"r0".toList, "a0".toList, none, 1, [], some 3⟩] =
      Database.mk [] [⟨"r0".toList, "a0".toList, none, 1, [], some 3⟩] :=
  ⟨by decide,
    (createRelease_error_keeps (Database.mk [] [⟨"r0".toList, "a0".toList, none, 1, [], some 3⟩])
      ⟨none, none, some (Error.new "commit failed"), "r1".toList, 5, [], 0⟩
      ⟨[], "a0".toList, none, none, 0, [], none⟩
      (some ⟨"r1".toList, "a0".toList, none, none, 2, [], some 5⟩)
      (Error.new "commit failed")
      (Database.mk [] [⟨"r0".toList, "a0".toList, none, 1, [], some 3⟩]) (by decide)).1⟩

end store

namespace store

theorem versionsOf_append (apps : List App) (rows : List ReleaseRow) (row : ReleaseRow)
    (a : Str) :
    (Database.mk apps (rows ++ [row])).versionsOf a =
      if row.AppID = a then (Database.mk apps rows).versionsOf a ++ [row.Version]
      else (Database.mk apps rows).versionsOf a := by
  unfold Database.versionsOf
  by_cases h : row.AppID = a <;> simp [List.filter_append, List.filter_cons, h]

theorem mem_versionsUpTo (n : Nat) (v : Int) : v ∈ versionsUpTo n ↔ 1 ≤ v ∧ v ≤ n := by
  simp only [versionsUpTo, List.mem_map, List.mem_range]
  constructor
  · rintro ⟨i, hi, rfl⟩
    omega
  · rintro ⟨h1, h2⟩
    exact ⟨(v - 1).toNat, by omega, by omega⟩

theorem length_versionsUpTo (n : Nat) : (versionsUpTo n).length = n := by
  simp [versionsUpTo]

theorem versionsUpTo_succ (n : Nat) : versionsUpTo (n + 1) = versionsUpTo n ++ [(n : Int) + 1] := by
  simp [versionsUpTo, List.range_succ]

theorem nodup_versionsUpTo (n : Nat) : (versionsUpTo n).Nodup := by
  unfold versionsUpTo
  apply List.Nodup.map
  · intro i j hij
    simp only at hij
    omega
  · exact List.nodup_range n

/-- When the versions of an app are 1 to n, the version lookup finds n. -/
theorem currentVersion_of_contiguous (db : Database) (env : Env) (a : Str)
    (hinv : db.versionsOf a = versionsUpTo (db.versionsOf a).length)
    (hl : env.lookupErr = none) :
    (db.currentVersion Tx.Begin env a).1 = (db.versionsOf a).length := by
  have hrows : (db.releases ++ Tx.Begin.pending).filter (fun row => row.AppID = a) =
      db.releases.filter (fun row => row.AppID = a) := by simp [Tx.Begin]
  unfold Database.currentVersion Tx.First
  rw [hl, hrows]
  cases hf : firstByVersionDesc (db.releases.filter (fun row => row.AppID = a)) with
  | none =>
    have hnil := (first_eq_none_iff _).mp hf
    simp [Database.versionsOf, hnil]
  | some m =>
    obtain ⟨hm, hmax⟩ := first_max _ m hf
    have hmv : m.Version ∈ db.versionsOf a := List.mem_map.mpr ⟨m, hm, rfl⟩
    have hpos : 0 < (db.versionsOf a).length := List.length_pos_of_mem hmv
    have hmv2 := hmv
    rw [hinv, mem_versionsUpTo] at hmv2
    have hn : ((db.versionsOf a).length : Int) ∈ db.versionsOf a := by
      have : ((db.versionsOf a).length : Int) ∈ versionsUpTo (db.versionsOf a).length := by
        rw [mem_versionsUpTo]
        omega
      rw [← hinv] at this
      exact this
    obtain ⟨row, hrow, hv⟩ := List.mem_map.mp hn
    have hle := hmax row hrow
    show m.Version = _
    omega

theorem deleteApp_releases (db : Database) (now : Nat) (app : App) (err : Option Error) :
    (db.DeleteApp now app err).2.releases = db.releases := by
  unfold Database.DeleteApp Database.UpdateApp
  cases err with
  | some e => rfl
  | none => split_ifs <;> rfl

theorem deleteApp_versionsOf (db : Database) (now : Nat) (app : App) (err : Option Error)
    (a : Str) : (db.DeleteApp now app err).2.versionsOf a = db.versionsOf a := by
  unfold Database.versionsOf
  rw [deleteApp_releases]

/-- A successful `CreateRelease` of a release without an app, on a store
where the versions of the app are 1 to n, stores version n + 1 for the app
and nothing for another app. -/
theorem createRelease_versionsOf (db : Database) (env : Env) (r : Release)
    (hs : env.lookupSound) (hA : r.App = none)
    (hinv : db.versionsOf r.AppID = versionsUpTo (db.versionsOf r.AppID).length)
    (out : Option Release) (db2 : Database)
    (h : db.CreateRelease env r = ((out, none), db2)) :
    (∃ created, out = some created ∧
      created.Version = ((db.versionsOf r.AppID).length : Int) + 1) ∧
    db2.versionsOf r.AppID =
      db.versionsOf r.AppID ++ [((db.versionsOf r.AppID).length : Int) + 1] ∧
    ∀ a, a ≠ r.AppID → db2.versionsOf a = db.versionsOf a := by
  have hl : env.lookupErr = none := by
    rcases createRelease_cases db env r with ⟨e0, _, _, h0⟩ | ⟨hall, _⟩
    · rw [h0] at h
      simp at h
    · cases hle : env.lookupErr with
      | none => rfl
      | some e =>
        have h1 := hall e hle
        have h2 := hs e hle
        rw [h1] at h2
        cases h2
  have hv := currentVersion_of_contiguous db env r.AppID hinv hl
  obtain ⟨h1, h2⟩ := createRelease_ok db env r out db2 h
  rw [hv] at h1 h2
  obtain ⟨_, _, f3, _, _, f6, f7⟩ :=
    created_fields { r with Version := ((db.versionsOf r.AppID).length : Int) + 1 } env
  obtain ⟨_, g2, _⟩ :=
    created_of_none { r with Version := ((db.versionsOf r.AppID).length : Int) + 1 } env hA
  refine ⟨⟨_, h1, f3⟩, ?_, ?_⟩
  · rw [h2, versionsOf_append, f6, g2, f7]
    simp [Database.versionsOf]
  · intro a ha
    rw [h2, versionsOf_append, f6, g2]
    have hne : ¬ r.AppID = a := fun e => ha e.symm
    simp [hne, Database.versionsOf]

/-- A store reached by calls that pass no app is a reachable store. -/
theorem reachable_of_byAppID (db : Database) (h : ReachableByAppID db) : Reachable db := by
  induction h with
  | empty apps => exact Reachable.empty apps
  | createRelease db env r _ hs _ ih => exact Reachable.createRelease db env r ih hs
  | deleteApp db now app err _ ih => exact Reachable.deleteApp db now app err ih

/-- In every store reached by calls of `CreateRelease` that pass no app the
versions of an app are 1 to n, in the order of their insertion. -/
theorem reachable_contiguous (db : Database) (h : ReachableByAppID db) (a : Str) :
    db.versionsOf a = versionsUpTo (db.versionsOf a).length := by
  induction h generalizing a with
  | empty apps => simp [Database.versionsOf, versionsUpTo]
  | createRelease db env r _ hs hA ih =>
    rcases hres : db.CreateRelease env r with ⟨⟨out, _ | e⟩, db2⟩
    · obtain ⟨_, h2, h3⟩ := createRelease_versionsOf db env r hs hA (ih r.AppID) out db2 hres
      by_cases ha : a = r.AppID
      · subst ha
        show db2.versionsOf r.AppID = _
        rw [h2]
        simp only [List.length_append, List.length_singleton, versionsUpTo_succ]
        rw [← ih r.AppID]
      · show db2.versionsOf a = _
        rw [h3 a ha]
        exact ih a
    · have hdb := createRelease_err db env r out e db2 hres
      show db2.versionsOf a = _
      rw [hdb]
      exact ih a
  | deleteApp db now app err _ ih =>
    rw [deleteApp_versionsOf]
    exact ih a

end store

namespace store

/-- C12 (as stated) fails when a release is created with its app in the
field `App`.  On the empty store a first release is created with a new app
in `App`: the app is saved under the ID `a1` and the release gets Version 1
under `a1`.  A second release is created for the AppID `a1` with that app in
`App`: it gets Version 2, but the app is saved again, under the new ID `a2`,
and the release is stored under `a2`.  So the only stored release of the app
id `a2` has Version 2: the versions of `a2` are not the numbers from 1 to
the number of its releases. -/
theorem versions_contiguous_counterexample :
    Reachable skewDatabase ∧
    skewDatabase =
      ⟨[⟨"a1".toList, "test app".toList, some 1, none⟩,
          ⟨"a2".toList, "test app".toList, some 3, none⟩],
        [⟨"r1".toList, "a1".toList, none, 1, [], some 2⟩,
          ⟨"r2".toList, "a2".toList, none, 2, [], some 4⟩]⟩ ∧
    skewDatabase.versionsOf "a2".toList = [2] ∧
    skewDatabase.versionsOf "a2".toList ≠
      versionsUpTo (skewDatabase.versionsOf "a2".toList).length ∧
    ¬ (∀ v, v ∈ skewDatabase.versionsOf "a2".toList ↔
      1 ≤ v ∧ v ≤ (skewDatabase.versionsOf "a2".toList).length) := by
  have hq : ∀ env : Env, env.lookupErr = none → env.lookupSound := by
    intro env hl e he
    rw [hl] at he
    cases he
  refine ⟨?_, by decide, by decide, by decide, ?_⟩
  · unfold skewDatabase
    exact Reachable.createRelease _ _ _
      (Reachable.createRelease _ _ _ (Reachable.empty _) (hq _ rfl)) (hq _ rfl)
  · intro hall
    have h2 : (2 : Int) ∈ skewDatabase.versionsOf "a2".toList := by decide
    have h3 : (skewDatabase.versionsOf "a2".toList).length = 1 := by decide
    have := ((hall 2).mp h2).2
    rw [h3] at this
    omega

/-- C12 (amended): in every store state reached from a store without
releases by calls of `DeleteApp` and by calls of `CreateRelease` that name
the app by `AppID` and pass a nil `App`, for every app id the versions of
its stored releases are 1, 2, ..., n in the order of insertion, n being the
number of its releases: they are pairwise distinct and are exactly the
numbers from 1 to n.  Each successful such `CreateRelease` for the app
assigns n + 1, the greatest version of the app plus one, and stores it;
`DeleteApp` leaves the releases as they are. -/
theorem versions_contiguous (db : Database) (h : ReachableByAppID db) (a : Str) :
    (db.versionsOf a).length = (db.releases.filter (fun row => row.AppID = a)).length ∧
    db.versionsOf a = versionsUpTo (db.versionsOf a).length ∧
    (db.versionsOf a).Nodup ∧
    (∀ v, v ∈ db.versionsOf a ↔ 1 ≤ v ∧ v ≤ (db.versionsOf a).length) ∧
    (∀ env r out db2, env.lookupSound → r.App = none → r.AppID = a →
      db.CreateRelease env r = ((out, none), db2) →
      (∃ created, out = some created ∧ created.Version = ((db.versionsOf a).length : Int) + 1) ∧
      db2.versionsOf a = db.versionsOf a ++ [((db.versionsOf a).length : Int) + 1]) ∧
    (∀ now app err, (db.DeleteApp now app err).2.releases = db.releases) := by
  have hinv := reachable_contiguous db h a
  refine ⟨by simp [Database.versionsOf], hinv, ?_, ?_, ?_, ?_⟩
  · rw [hinv]
    exact nodup_versionsUpTo _
  · intro v
    constructor
    · intro hv
      rw [hinv] at hv
      exact (mem_versionsUpTo _ v).mp hv
    · intro hv
      rw [hinv]
      exact (mem_versionsUpTo _ v).mpr hv
  · intro env r out db2 hs hA hr hres
    subst hr
    obtain ⟨h1, h2, _⟩ := createRelease_versionsOf db env r hs hA hinv out db2 hres
    exact ⟨h1, h2⟩
  · intro now app err
    exact deleteApp_releases db now app err

/-- The store of the example is reached by calls that pass no app. -/
theorem demoDatabase_reachable : ReachableByAppID demoDatabase := by
  have hq : ∀ id now, (Env.quiet id now).lookupSound := by
    intro id now e he
    simp [Env.quiet] at he
  unfold demoDatabase
  exact ReachableByAppID.createRelease _ _ _
    (ReachableByAppID.createRelease _ _ _
      (ReachableByAppID.deleteApp _ _ _ _
        (ReachableByAppID.createRelease _ _ _
          (ReachableByAppID.createRelease _ _ _ (ReachableByAppID.empty []) (hq _ _) rfl)
          (hq _ _) rfl)) (hq _ _) rfl) (hq _ _) rfl

/-- C12 (amended) on the store of the example: the app `a1` has the versions
1, 2, 3, the third assigned after its soft deletion. -/
theorem versions_contiguous_witness :
    ReachableByAppID demoDatabase ∧ demoDatabase.versionsOf "a1".toList = [1, 2, 3] ∧
    demoDatabase.versionsOf "a1".toList =
      versionsUpTo (demoDatabase.versionsOf "a1".toList).length :=
  ⟨demoDatabase_reachable, by decide,
    (versions_contiguous demoDatabase demoDatabase_reachable "a1".toList).2.1⟩

/-- A call of `CreateRelease` that runs its three steps with no other call
between them is the function `CreateRelease`. -/
theorem runSchedule_alone (db : Database) (env : Env) (r : Release) :
    runSchedule db [Progress.start env r] [0, 0, 0] =
      ((db.CreateRelease env r).2, [Progress.done (db.CreateRelease env r).1]) := by
  rcases hv : db.currentVersion Tx.Begin env r.AppID with ⟨ver, _ | e⟩
  · rcases hc : Tx.Begin.Create db env { r with Version := ver + 1 } with ⟨⟨tx1, created⟩, _ | e1⟩
    · rcases hm : tx1.Commit db env with ⟨⟨db1, tx2⟩, cerr⟩
      simp [runSchedule, Progress.step, Database.CreateRelease, Database.insertAndCommit, hv, hc,
        hm]
    · simp [runSchedule, Progress.step, Database.CreateRelease, Database.insertAndCommit, hv, hc]
  · by_cases hn : e.Is gorm.ErrRecordNotFound = true
    · rcases hc : Tx.Begin.Create db env { r with Version := ver + 1 } with
        ⟨⟨tx1, created⟩, _ | e1⟩
      · rcases hm : tx1.Commit db env with ⟨⟨db1, tx2⟩, cerr⟩
        simp [runSchedule, Progress.step, Database.CreateRelease, Database.insertAndCommit, hv,
          hn, hc, hm]
      · simp [runSchedule, Progress.step, Database.CreateRelease, Database.insertAndCommit, hv,
          hn, hc]
    · simp [runSchedule, Progress.step, Database.CreateRelease, hv, hn]

/-- C13 fails on the code: two calls of `CreateRelease` for the app `a` on an
empty store, nothing failing, that run their version queries before either
inserts, both return Version 1 and both rows are stored, so the versions of
the app are 1 and 1 and not 1 and 2.  Run one after the other the same calls
store the versions 1 and 2. -/
theorem createRelease_race :
    runSchedule ⟨[], []⟩
        [Progress.start (Env.quiet "r1".toList 5) ⟨[], "a".toList, none, none, 0, [], none⟩,
          Progress.start (Env.quiet "r2".toList 6) ⟨[], "a".toList, none, none, 0, [], none⟩]
        [0, 1, 0, 1, 0, 1] =
      (⟨[], [⟨"r1".toList, "a".toList, none, 1, [], some 5⟩,
          ⟨"r2".toList, "a".toList, none, 1, [], some 6⟩]⟩,
        [Progress.done (some ⟨"r1".toList, "a".toList, none, none, 1, [], some 5⟩, none),
          Progress.done (some ⟨"r2".toList, "a".toList, none, none, 1, [], some 6⟩, none)]) ∧
    (runSchedule ⟨[], []⟩
        [Progress.start (Env.quiet "r1".toList 5) ⟨[], "a".toList, none, none, 0, [], none⟩,
          Progress.start (Env.quiet "r2".toList 6) ⟨[], "a".toList, none, none, 0, [], none⟩]
        [0, 1, 0, 1, 0, 1]).1.versionsOf "a".toList = [1, 1] ∧
    (runSchedule ⟨[], []⟩
        [Progress.start (Env.quiet "r1".toList 5) ⟨[], "a".toList, none, none, 0, [], none⟩,
          Progress.start (Env.quiet "r2".toList 6) ⟨[], "a".toList, none, none, 0, [], none⟩]
        [0, 0, 0, 1, 1, 1]).1.versionsOf "a".toList = [1, 2] := by
  refine ⟨by decide, by decide, by decide⟩

end store

/-! ## The codec: database values and further properties -/

namespace image

open strings

/-- C22: `Scan` agrees with `Decode` and is atomic.  For a string it returns
an error exactly when `Decode` does, the very error of `Decode`; on success
the receiver becomes the decoded image, on error the receiver is unchanged.
For every value that is not a string it returns nil and leaves the receiver
unchanged. -/
theorem scan_agrees (i : Image) :
    (∀ s, ((i.Scan (.string s)).2 ≠ none ↔ ∃ e, Decode s = .error e) ∧
      (∀ img, Decode s = .ok img → i.Scan (.string s) = (img, none)) ∧
      (∀ e, Decode s = .error e → i.Scan (.string s) = (i, some e))) ∧
    (∀ src, (∀ s, src ≠ .string s) → i.Scan src = (i, none)) ∧
    i.Scan (.string "foo/bar:latest".toList) =
      (⟨[], "foo/bar".toList, "latest".toList, []⟩, none) ∧
    i.Scan (.int64 1) = (i, none) ∧
    i.Scan (.string []) = (i, some (Error.new "invalid image format")) := by
  refine ⟨?_, ?_, ?_, rfl, ?_⟩
  · intro s
    refine ⟨?_, ?_, ?_⟩
    · cases hd : Decode s with
      | error e => simp [Image.Scan, hd]
      | ok img => simp [Image.Scan, hd]
    · intro img hd
      simp [Image.Scan, hd]
    · intro e hd
      simp [Image.Scan, hd]
  · intro src hsrc
    cases src with
    | string s => exact absurd rfl (hsrc s)
    | null => rfl
    | int64 n => rfl
    | bool b => rfl
    | bytes b => rfl
    | time t => rfl
  · have hd : Decode "foo/bar:latest".toList =
        .ok ⟨[], "foo/bar".toList, "latest".toList, []⟩ := by decide
    simp only [Image.Scan, hd]
  · have hd : Decode [] = .error (Error.new "invalid image format") := by decide
    simp [Image.Scan, hd]

/-- C23: for every image, `Value` returns the text of `String` and a nil
error; that text is what the row of a release holds in its image column. -/
theorem value_is_string (i : Image) :
    i.Value = (driver.Value.string i.String, none) ∧
    (∀ r : store.Release, r.Image = some i →
      r.row.Image.map driver.Value.string = some i.Value.1) ∧
    (Image.mk [] "foo/bar".toList "latest".toList []).Value =
      (driver.Value.string "foo/bar:latest".toList, none) := by
  refine ⟨rfl, ?_, by decide⟩
  intro r hr
  simp [store.Release.row, hr, Image.Value]

theorem takeWhile_append_at (b c : Str) (h : '@' ∉ b) :
    (b ++ '@' :: c).takeWhile (fun x => !(x == '@')) = b := by
  induction b with
  | nil => simp
  | cons x xs ih =>
    have hx : ¬ x = '@' := fun e => h (by simp [e])
    have hxs : '@' ∉ xs := fun e => h (by simp [e])
    simp [List.takeWhile_cons, hx, ih hxs]

/-- C28: for all texts `a` and `b` without `@` and every text `c`, `Decode`
returns for `a@b@c` the image and the error it returns for `a@b`: the text
from the second `@` on is dropped. -/
theorem decode_second_at (a b c : Str) (ha : '@' ∉ a) (hb : '@' ∉ b) :
    Decode (a ++ '@' :: (b ++ '@' :: c)) = Decode (a ++ '@' :: b) := by
  have h1 : splitRepositoryTag (a ++ '@' :: (b ++ '@' :: c)) = (a, b) := by
    rw [splitRepositoryTag_at a _ ha, takeWhile_append_at b c hb]
  have h2 : splitRepositoryTag (a ++ '@' :: b) = (a, b) := by
    rw [splitRepositoryTag_at a _ ha, takeWhile_ne_eq_self b '@' hb]
  unfold Decode
  rw [h1, h2]

/-- C28 on `foo/bar@sha256:c3ab8@x:y`. -/
theorem decode_second_at_witness :
    '@' ∉ "foo/bar".toList ∧ '@' ∉ "sha256:c3ab8".toList ∧
    Decode ("foo/bar".toList ++ '@' :: ("sha256:c3ab8".toList ++ '@' :: "x:y".toList)) =
      Decode ("foo/bar".toList ++ '@' :: "sha256:c3ab8".toList) ∧
    Decode "foo/bar@sha256:c3ab8@x:y".toList =
      .ok ⟨[], "foo/bar".toList, [], "sha256:c3ab8".toList⟩ :=
  ⟨by decide, by decide,
    decode_second_at "foo/bar".toList "sha256:c3ab8".toList "x:y".toList (by decide) (by decide),
    by decide⟩

/-- C29: in every image that `Decode` returns without error the Tag contains
no `:`, the Digest is empty or contains a `:`, and the Digest is non-empty
only if the text contains `@`. -/
theorem decode_qualifier_shape (s : Str) (img : Image) (h : Decode s = .ok img) :
    ':' ∉ img.Tag ∧ (img.Digest = [] ∨ ':' ∈ img.Digest) ∧ (img.Digest ≠ [] → '@' ∈ s) := by
  obtain ⟨_, _, _, ht, hd⟩ := decode_ok_inv s img h
  by_cases hc : Contains (splitRepositoryTag s).2 ':' = true
  · rw [if_pos hc] at ht hd
    have hmem := (contains_iff _ _).mp hc
    refine ⟨by rw [ht]; simp, Or.inr (by rw [hd]; exact hmem), ?_⟩
    intro _
    rcases splitRepositoryTag_shape s with ⟨hat, _⟩ | ⟨_, _, hq, _⟩ | ⟨_, _, hq, _⟩
    · exact hat
    · rw [hq] at hmem
      simp at hmem
    · exact absurd hmem hq
  · rw [if_neg hc] at ht hd
    refine ⟨?_, Or.inl hd, fun hne => absurd hd hne⟩
    rw [ht]
    exact fun hm => hc ((contains_iff _ _).mpr hm)

/-- C29 on `foo/bar@sha256:c3ab8`. -/
theorem decode_qualifier_shape_witness :
    Decode "foo/bar@sha256:c3ab8".toList =
      .ok ⟨[], "foo/bar".toList, [], "sha256:c3ab8".toList⟩ ∧
    ':' ∉ ([] : Str) ∧ ("sha256:c3ab8".toList = [] ∨ ':' ∈ "sha256:c3ab8".toList) ∧
    ("sha256:c3ab8".toList ≠ [] → '@' ∈ "foo/bar@sha256:c3ab8".toList) :=
  ⟨by decide,
    decode_qualifier_shape "foo/bar@sha256:c3ab8".toList
      ⟨[], "foo/bar".toList, [], "sha256:c3ab8".toList⟩ (by decide)⟩

end image

namespace image

open strings

/-- Decoding the formatted name of a well-formed registry and repository,
followed by `:` and a tag without `:`, `/` and `@`, gives the tagged image
of that registry and repository. -/
theorem decode_name_tag (reg repo t : Str) (hrepo : repo ≠ [])
    (hreg : '@' ∉ reg) (hrep : '@' ∉ repo)
    (h0 : reg = [] → repo.count '/' ≤ 1)
    (h1 : reg ≠ [] → '/' ∉ reg ∧ '/' ∈ repo)
    (ht1 : ':' ∉ t) (ht2 : '/' ∉ t) (ht3 : '@' ∉ t) :
    Decode ((if reg ≠ [] then reg ++ ['/'] ++ repo else repo) ++ ':' :: t) =
      .ok ⟨reg, repo, t, []⟩ := by
  have hat : '@' ∉ (if reg ≠ [] then reg ++ ['/'] ++ repo else repo) ++ ':' :: t := by
    split_ifs <;> simp [hreg, hrep, ht3]
  have hne : (if reg ≠ [] then reg ++ ['/'] ++ repo else repo) ≠ [] := by
    split_ifs <;> simp [hrepo]
  have hs := splitRepositoryTag_tag _ t hat ht1 ht2
  have hp : (splitRepositoryTag
      ((if reg ≠ [] then reg ++ ['/'] ++ repo else repo) ++ ':' :: t)).1 ≠ [] := by
    rw [hs]
    exact hne
  have hc : ¬ Contains t ':' = true := fun e => ht1 ((contains_iff _ _).mp e)
  rw [decode_ok_of_part _ hp, hs]
  simp only [splitRepository_format reg repo h0 h1, hc, if_false]
  rfl

/-- Decoding the formatted name of a well-formed registry and repository, in
which a `:` of the repository is followed by a `/`, gives the image of that
registry and repository without tag and digest. -/
theorem decode_name (reg repo : Str) (hrepo : repo ≠ [])
    (hreg : '@' ∉ reg) (hrep : '@' ∉ repo)
    (h0 : reg = [] → repo.count '/' ≤ 1)
    (h1 : reg ≠ [] → '/' ∉ reg ∧ '/' ∈ repo)
    (h3 : ∀ a b, repo = a ++ ':' :: b → '/' ∈ b) :
    Decode (if reg ≠ [] then reg ++ ['/'] ++ repo else repo) = .ok ⟨reg, repo, [], []⟩ := by
  have hat : '@' ∉ (if reg ≠ [] then reg ++ ['/'] ++ repo else repo) := by
    split_ifs <;> simp [hreg, hrep]
  have hne : (if reg ≠ [] then reg ++ ['/'] ++ repo else repo) ≠ [] := by
    split_ifs <;> simp [hrepo]
  have hs : splitRepositoryTag (if reg ≠ [] then reg ++ ['/'] ++ repo else repo) =
      (if reg ≠ [] then reg ++ ['/'] ++ repo else repo, []) := by
    by_cases hc : ':' ∈ (if reg ≠ [] then reg ++ ['/'] ++ repo else repo)
    · obtain ⟨p, t, e, ht⟩ := exists_last _ ':' hc
      have hslash : '/' ∈ t := by
        by_cases hr : reg = []
        · rw [if_neg (not_not.mpr hr)] at e
          exact h3 p t e
        · rw [if_pos hr] at e
          have e2 : reg ++ '/' :: repo = p ++ ':' :: t := by
            rw [← e]
            simp
          rcases List.append_eq_append_iff.mp e2 with ⟨a, _, eb⟩ | ⟨a, _, eb⟩
          · cases a with
            | nil =>
              simp only [List.nil_append, List.cons.injEq] at eb
              exact absurd eb.1 (by decide)
            | cons x xs =>
              simp only [List.cons_append, List.cons.injEq] at eb
              exact h3 xs t eb.2
          · cases a with
            | nil =>
              simp only [List.nil_append, List.cons.injEq] at eb
              exact absurd eb.1 (by decide)
            | cons x xs =>
              simp only [List.cons_append, List.cons.injEq] at eb
              rw [eb.2]
              simp
      rw [e] at hat ⊢
      exact splitRepositoryTag_quirk p t hat ht hslash
    · exact splitRepositoryTag_plain _ hat hc
  have hp : (splitRepositoryTag (if reg ≠ [] then reg ++ ['/'] ++ repo else repo)).1 ≠ [] := by
    rw [hs]
    exact hne
  rw [decode_ok_of_part _ hp, hs]
  simp only [splitRepository_format reg repo h0 h1]
  rfl

/-- The function `Decode` undoes `String` on an image with a well-formed
registry and repository, a tag without `:`, `/` and `@`, a digest with a `:`
and without `@`, not both set, and, when neither is set, a `/` after every
`:` of the repository. -/
theorem decode_string_wf (i : Image) (hrepo : i.Repository ≠ [])
    (hreg : '@' ∉ i.Registry) (hrep : '@' ∉ i.Repository)
    (h0 : i.Registry = [] → i.Repository.count '/' ≤ 1)
    (h1 : i.Registry ≠ [] → '/' ∉ i.Registry ∧ '/' ∈ i.Repository)
    (hx : i.Tag = [] ∨ i.Digest = [])
    (ht : ':' ∉ i.Tag ∧ '/' ∉ i.Tag ∧ '@' ∉ i.Tag)
    (hd : i.Digest ≠ [] → ':' ∈ i.Digest ∧ '@' ∉ i.Digest)
    (h3 : i.Tag = [] → i.Digest = [] → ∀ a b, i.Repository = a ++ ':' :: b → '/' ∈ b) :
    Decode i.String = .ok i := by
  obtain ⟨reg, repo, tag, digest⟩ := i
  simp only at hrepo hreg hrep h0 h1 hx ht hd h3
  unfold Image.String
  simp only
  by_cases hdg : digest = []
  · subst hdg
    by_cases htg : tag = []
    · subst htg
      simp only [ne_eq, not_true_eq_false, if_false]
      exact decode_name reg repo hrepo hreg hrep h0 h1 (h3 rfl rfl)
    · simp only [ne_eq, not_true_eq_false, if_false, htg, not_false_eq_true, if_true]
      have e : (if ¬ reg = [] then reg ++ ['/'] ++ repo else repo) ++ [':'] ++ tag =
          (if reg ≠ [] then reg ++ ['/'] ++ repo else repo) ++ ':' :: tag := by simp
      rw [e]
      exact decode_name_tag reg repo tag hrepo hreg hrep h0 h1 ht.1 ht.2.1 ht.2.2
  · have htg : tag = [] := hx.resolve_right hdg
    subst htg
    simp only [ne_eq, hdg, not_false_eq_true, if_true]
    have e : (if ¬ reg = [] then reg ++ ['/'] ++ repo else repo) ++ ['@'] ++ digest =
        (if reg ≠ [] then reg ++ ['/'] ++ repo else repo) ++ '@' :: digest := by simp
    rw [e]
    exact decode_name_digest reg repo digest hrepo hreg hrep h0 h1 (hd hdg).1 (hd hdg).2

end image

namespace image

open strings

/-- C26: for every image with a non-empty Repository without `@` and `:`, a
Registry without `@` and `/`, at most one `/` in the Repository when the
Registry is empty and at least one when it is not, at most one of Tag and
Digest set, a Tag without `:`, `/` and `@`, and a Digest, if set, with a
`:` and without `@`, `Decode` of `String()` succeeds and returns exactly the
image.  The Registry may hold a `:`, as `localhost:5000` does. -/
theorem decode_string_wellformed (i : Image) (hrepo : i.Repository ≠ [])
    (hrep1 : '@' ∉ i.Repository) (hrep2 : ':' ∉ i.Repository)
    (hreg1 : '@' ∉ i.Registry) (hreg2 : '/' ∉ i.Registry)
    (h0 : i.Registry = [] → i.Repository.count '/' ≤ 1)
    (h1 : i.Registry ≠ [] → '/' ∈ i.Repository)
    (hx : i.Tag = [] ∨ i.Digest = [])
    (ht : ':' ∉ i.Tag ∧ '/' ∉ i.Tag ∧ '@' ∉ i.Tag)
    (hd : i.Digest ≠ [] → ':' ∈ i.Digest ∧ '@' ∉ i.Digest) :
    Decode i.String = .ok i := by
  refine decode_string_wf i hrepo hreg1 hrep1 h0 (fun h => ⟨hreg2, h1 h⟩) hx ht hd ?_
  intro _ _ a b e
  exact absurd (by rw [e]; simp) hrep2

/-- C26 on an image with the registry `localhost:5000`. -/
theorem decode_string_wellformed_witness :
    (Image.mk "localhost:5000".toList "foo/bar".toList "latest".toList []).String =
      "localhost:5000/foo/bar:latest".toList ∧
    Decode (Image.mk "localhost:5000".toList "foo/bar".toList "latest".toList []).String =
      .ok ⟨"localhost:5000".toList, "foo/bar".toList, "latest".toList, []⟩ :=
  ⟨by decide,
    decode_string_wellformed ⟨"localhost:5000".toList, "foo/bar".toList, "latest".toList, []⟩
      (by decide) (by decide) (by decide) (by decide) (by decide) (by decide) (fun _ => by decide)
      (Or.inr rfl) (by decide) (fun h => absurd rfl h)⟩

/-- What `splitRepository` returns is made of the bytes of its argument; the
registry has no `/`, and a non-empty registry comes with a repository that
has one. -/
theorem splitRepository_parts (p : Str) :
    (∀ c, c ∈ (splitRepository p).1 → c ∈ p) ∧ (∀ c, c ∈ (splitRepository p).2 → c ∈ p) ∧
    '/' ∉ (splitRepository p).1 ∧
    ((splitRepository p).1 ≠ [] → '/' ∈ (splitRepository p).2) := by
  by_cases hm : '/' ∈ p
  · obtain ⟨a, r, e, ha⟩ := exists_first p '/' hm
    subst e
    by_cases hr : '/' ∈ r
    · rw [splitRepository_many a r ha hr]
      refine ⟨?_, ?_, ha, fun _ => hr⟩
      · intro c hc
        simp [hc]
      · intro c hc
        simp [hc]
    · rw [splitRepository_one a r ha hr]
      simp
  · rw [splitRepository_none p hm]
    simp

/-- The images that `Decode` returns: the repository is not empty, registry,
repository and tag hold no `@`, the registry no `/`, a non-empty registry
comes with a `/` in the repository, the tag holds no `:`, a digest holds a
`:` and no `@`, and tag and digest are not both set. -/
theorem decode_ok_facts (s : Str) (img : Image) (h : Decode s = .ok img) :
    img.Repository ≠ [] ∧ '@' ∉ img.Registry ∧ '@' ∉ img.Repository ∧
    (img.Registry ≠ [] → '/' ∉ img.Registry ∧ '/' ∈ img.Repository) ∧
    (img.Tag = [] ∨ img.Digest = []) ∧ ':' ∉ img.Tag ∧ '@' ∉ img.Tag ∧
    (img.Digest ≠ [] → ':' ∈ img.Digest ∧ '@' ∉ img.Digest) := by
  obtain ⟨hp, hreg, hrepo, ht, hd⟩ := decode_ok_inv s img h
  obtain ⟨hs1, hs2, hs3, hs4⟩ := splitRepository_parts (splitRepositoryTag s).1
  have hatp : '@' ∉ (splitRepositoryTag s).1 ∧ '@' ∉ (splitRepositoryTag s).2 := by
    rcases splitRepositoryTag_shape s with ⟨_, d, _, h1, h2⟩ | ⟨hat, e, h2, _⟩ | ⟨hat, e, _, _⟩
    · refine ⟨h1, ?_⟩
      rw [h2]
      exact not_mem_takeWhile_ne d '@'
    · refine ⟨?_, by rw [h2]; simp⟩
      rw [← e]
      exact hat
    · rw [e] at hat
      simp only [List.mem_append, List.mem_cons, not_or] at hat
      exact ⟨hat.1, hat.2.2⟩
  rw [← hreg] at hs1 hs3 hs4
  rw [← hrepo] at hs2 hs4
  refine ⟨?_, fun hm => hatp.1 (hs1 _ hm), fun hm => hatp.1 (hs2 _ hm),
    fun hne => ⟨hs3, hs4 hne⟩, ?_, ?_, ?_, ?_⟩
  · rw [hrepo]
    exact fun e => hp ((splitRepository_snd_eq_nil_iff _).mp e)
  · by_cases hc : Contains (splitRepositoryTag s).2 ':' = true
    · left
      rw [ht, if_pos hc]
    · right
      rw [hd, if_neg hc]
  · by_cases hc : Contains (splitRepositoryTag s).2 ':' = true
    · rw [ht, if_pos hc]
      simp
    · rw [ht, if_neg hc]
      exact fun hm => hc ((contains_iff _ _).mpr hm)
  · by_cases hc : Contains (splitRepositoryTag s).2 ':' = true
    · rw [ht, if_pos hc]
      simp
    · rw [ht, if_neg hc]
      exact hatp.2
  · intro hne
    by_cases hc : Contains (splitRepositoryTag s).2 ':' = true
    · rw [hd, if_pos hc]
      exact ⟨(contains_iff _ _).mp hc, hatp.2⟩
    · rw [hd, if_neg hc] at hne
      exact absurd rfl hne

/-- C27 (as stated) fails: `Decode` accepts `/a/b/c`, `a@b/c` and `a:b:`, and
decoding the text of the decoded image gives another image.  The first
loses its empty first segment and gets the registry `a`; the tag `b/c` of
the second is read back as part of the repository; the repository `a:b` of
the third is read back as the repository `a` with the tag `b`.  `Decode`
also accepts `::`, and decoding the text of the decoded image, which is `:`,
fails. -/
theorem decode_stored_counterexample :
    (Decode "::".toList = .ok ⟨[], ":".toList, [], []⟩ ∧
      (Image.mk [] ":".toList [] []).String = ":".toList ∧
      Decode (Image.mk [] ":".toList [] []).String =
        .error (Error.new "invalid image format") ∧
      ∀ i : Image, i.Scan (Image.mk [] ":".toList [] []).Value.1 =
        (i, some (Error.new "invalid image format"))) ∧
    (Decode "/a/b/c".toList = .ok ⟨[], "a/b/c".toList, [], []⟩ ∧
      Decode (Image.mk [] "a/b/c".toList [] []).String =
        .ok ⟨"a".toList, "b/c".toList, [], []⟩) ∧
    (Decode "a@b/c".toList = .ok ⟨[], "a".toList, "b/c".toList, []⟩ ∧
      Decode (Image.mk [] "a".toList "b/c".toList []).String =
        .ok ⟨[], "a:b/c".toList, [], []⟩) ∧
    (Decode "a:b:".toList = .ok ⟨[], "a:b".toList, [], []⟩ ∧
      Decode (Image.mk [] "a:b".toList [] []).String =
        .ok ⟨[], "a".toList, "b".toList, []⟩) := by
  refine ⟨⟨by decide, by decide, by decide, ?_⟩, by decide⟩
  intro i
  have hd : Decode (Image.mk [] ":".toList [] []).String =
      .error (Error.new "invalid image format") := by decide
  simp only [Image.Value, Image.Scan, hd]

/-- C27 (amended): for every text that `Decode` accepts, decoding the text of
the decoded image succeeds and gives the same image, and so does `Scan` of
its `Value`, provided the decoded image has a Registry or at most one `/` in
its Repository, no `/` in its Tag, and, when it has neither Tag nor Digest,
a `/` after every `:` of its Repository. -/
theorem decode_stored (s : Str) (img : Image) (h : Decode s = .ok img)
    (c1 : img.Registry = [] → img.Repository.count '/' ≤ 1)
    (c2 : '/' ∉ img.Tag)
    (c3 : img.Tag = [] → img.Digest = [] → ∀ a b, img.Repository = a ++ ':' :: b → '/' ∈ b) :
    Decode img.String = .ok img ∧
    ∀ i : Image, i.Scan img.Value.1 = (img, none) := by
  obtain ⟨f1, f2, f3, f4, f5, f6, f7, f8⟩ := decode_ok_facts s img h
  have hdec := decode_string_wf img f1 f2 f3 c1 f4 f5 ⟨f6, c2, f7⟩ f8 c3
  refine ⟨hdec, ?_⟩
  intro i
  simp only [Image.Value, Image.Scan, hdec]

/-- C27 (amended) on `ghcr.io/foo/bar:latest`. -/
theorem decode_stored_witness :
    Decode "ghcr.io/foo/bar:latest".toList =
      .ok ⟨"ghcr.io".toList, "foo/bar".toList, "latest".toList, []⟩ ∧
    Decode (Image.mk "ghcr.io".toList "foo/bar".toList "latest".toList []).String =
      .ok ⟨"ghcr.io".toList, "foo/bar".toList, "latest".toList, []⟩ :=
  ⟨by decide,
    (decode_stored "ghcr.io/foo/bar:latest".toList
      ⟨"ghcr.io".toList, "foo/bar".toList, "latest".toList, []⟩ (by decide)
      (fun h => absurd h (by decide)) (by decide) (fun h => absurd h (by decide))).1⟩

end image

namespace store

/-- The version lookup reads the releases of the app only. -/
theorem currentVersion_congr (db1 db2 : Database) (env1 env2 : Env) (a : Str)
    (hl : env1.lookupErr = env2.lookupErr)
    (hf : db1.releases.filter (fun row => row.AppID = a) =
      db2.releases.filter (fun row => row.AppID = a)) :
    db1.currentVersion Tx.Begin env1 a = db2.currentVersion Tx.Begin env2 a := by
  have h1 : (db1.releases ++ Tx.Begin.pending).filter (fun row => row.AppID = a) =
      (db2.releases ++ Tx.Begin.pending).filter (fun row => row.AppID = a) := by
    simp only [Tx.Begin, List.append_nil]
    exact hf
  unfold Database.currentVersion Tx.First
  rw [hl, h1]

/-- The Go results of the statements after the version lookup do not depend
on the content of the database. -/
theorem insertAndCommit_fst (db1 db2 : Database) (env : Env) (r : Release) (ver : Int) :
    (db1.insertAndCommit Tx.Begin env r ver).1 = (db2.insertAndCommit Tx.Begin env r ver).1 := by
  rcases insertAndCommit_cases db1 env r ver with ⟨e1, hi1, h1⟩ | ⟨e1, hi1, hc1, h1⟩ | ⟨hi1, hc1, h1⟩ <;>
    rcases insertAndCommit_cases db2 env r ver with
      ⟨e2, hi2, h2⟩ | ⟨e2, hi2, hc2, h2⟩ | ⟨hi2, hc2, h2⟩ <;>
    rw [h1, h2] <;> simp_all

/-- The Go results of `CreateRelease` depend on the database through the
version lookup only. -/
theorem createRelease_fst_congr (db1 db2 : Database) (env : Env) (r : Release)
    (hv : db1.currentVersion Tx.Begin env r.AppID = db2.currentVersion Tx.Begin env r.AppID) :
    (db1.CreateRelease env r).1 = (db2.CreateRelease env r).1 := by
  rcases createRelease_cases db1 env r with ⟨e1, hl1, hn1, h1⟩ | ⟨hall1, h1⟩ <;>
    rcases createRelease_cases db2 env r with ⟨e2, hl2, hn2, h2⟩ | ⟨hall2, h2⟩
  · rw [h1, h2]
    rw [hl1] at hl2
    cases hl2
    rfl
  · have := hall2 e1 hl1
    rw [hn1] at this
    cases this
  · have := hall1 e2 hl2
    rw [hn2] at this
    cases this
  · rw [h1, h2, hv]
    exact insertAndCommit_fst db1 db2 env r _

/-- C30: what `CreateRelease` returns, and so the version it assigns, is the
same on every store that holds the same releases of the AppID passed in, and
any two successful calls for one AppID, on stores with the same releases of
it, assign the same version.  A successful call leaves every stored release,
of every app id, as it is, and stores one row after them: for every app id
the releases are the releases before, followed by the new row when it is a
row of that id.  The new row is a row of the AppID passed in when the
release carries no app, so that the releases of every other app id are the
same list as before; when the release carries an app the new row is a row of
the new ID of that app.  The table `apps` keeps its rows. -/
theorem createRelease_scoped (db : Database) (env : Env) (r : Release) (out : Option Release)
    (db2 : Database) (h : db.CreateRelease env r = ((out, none), db2)) :
    (∃ created, out = some created ∧
      db2.releases = db.releases ++ [created.row] ∧ created.row.AppID = created.AppID ∧
      created.row.Version = created.Version ∧
      (r.App = none → created.AppID = r.AppID) ∧
      (∀ a, r.App = some a → created.AppID = env.newAppID) ∧
      (∀ a, db2.releases.filter (fun row => row.AppID = a) =
        db.releases.filter (fun row => row.AppID = a) ++
          (if created.AppID = a then [created.row] else []))) ∧
    (∀ a, r.App = none → a ≠ r.AppID →
      db2.releases.filter (fun row => row.AppID = a) =
        db.releases.filter (fun row => row.AppID = a)) ∧
    (∀ a, a ≠ r.AppID → a ≠ env.newAppID →
      db2.releases.filter (fun row => row.AppID = a) =
        db.releases.filter (fun row => row.AppID = a)) ∧
    db2.apps = db.apps ++ db.appsAdded env r ∧ (r.App = none → db2.apps = db.apps) ∧
    (∀ dbx : Database,
      dbx.releases.filter (fun row => row.AppID = r.AppID) =
        db.releases.filter (fun row => row.AppID = r.AppID) →
      (dbx.CreateRelease env r).1 = (out, none)) ∧
    (∀ (dbx : Database) (envx : Env) (rx : Release) (outx : Option Release) (dbx2 : Database),
      env.lookupSound → envx.lookupSound → rx.AppID = r.AppID →
      dbx.releases.filter (fun row => row.AppID = r.AppID) =
        db.releases.filter (fun row => row.AppID = r.AppID) →
      dbx.CreateRelease envx rx = ((outx, none), dbx2) →
      ∃ c cx, out = some c ∧ outx = some cx ∧ cx.Version = c.Version) := by
  obtain ⟨h1, h2⟩ := createRelease_ok db env r out db2 h
  obtain ⟨_, _, f3, _, _, f6, f7⟩ := created_fields
    { r with Version := (db.currentVersion Tx.Begin env r.AppID).1 + 1 } env
  have hfilter : ∀ a, db2.releases.filter (fun row => row.AppID = a) =
      db.releases.filter (fun row => row.AppID = a) ++
        (if (Release.created
            { r with Version := (db.currentVersion Tx.Begin env r.AppID).1 + 1 } env).AppID = a
          then [(Release.created
            { r with Version := (db.currentVersion Tx.Begin env r.AppID).1 + 1 } env).row]
          else []) := by
    intro a
    rw [h2]
    simp only [List.filter_append]
    congr 1
    by_cases ha : (Release.created
        { r with Version := (db.currentVersion Tx.Begin env r.AppID).1 + 1 } env).AppID = a
    · simp [List.filter_cons, f6, ha]
    · simp [List.filter_cons, f6, ha]
  have hnoneApp : r.App = none → (Release.created
      { r with Version := (db.currentVersion Tx.Begin env r.AppID).1 + 1 } env).AppID =
        r.AppID := by
    intro hA
    exact (created_of_none
      { r with Version := (db.currentVersion Tx.Begin env r.AppID).1 + 1 } env hA).2.1
  have hsomeApp : ∀ a, r.App = some a → (Release.created
      { r with Version := (db.currentVersion Tx.Begin env r.AppID).1 + 1 } env).AppID =
        env.newAppID := by
    intro a hA
    exact (created_of_some
      { r with Version := (db.currentVersion Tx.Begin env r.AppID).1 + 1 } env a hA).1
  refine ⟨⟨_, h1, by rw [h2], f6, by rw [f7, f3], hnoneApp, hsomeApp, hfilter⟩,
    ?_, ?_, by rw [h2], ?_, ?_, ?_⟩
  · intro a hA ha
    rw [hfilter a, hnoneApp hA, if_neg (fun e => ha e.symm)]
    simp
  · intro a ha hb
    have hcases : (Release.created
        { r with Version := (db.currentVersion Tx.Begin env r.AppID).1 + 1 } env).AppID =
          r.AppID ∨ (Release.created
        { r with Version := (db.currentVersion Tx.Begin env r.AppID).1 + 1 } env).AppID =
          env.newAppID := by
      rcases Option.eq_none_or_eq_some r.App with hA | ⟨x, hA⟩
      · exact Or.inl (hnoneApp hA)
      · exact Or.inr (hsomeApp x hA)
    rcases hcases with e | e
    · rw [hfilter a, e, if_neg (fun e => ha e.symm)]
      simp
    · rw [hfilter a, e, if_neg (fun e => hb e.symm)]
      simp
  · intro hA
    rw [h2]
    simp [Database.appsAdded, hA]
  · intro dbx hf
    have hv := currentVersion_congr dbx db env env r.AppID rfl hf
    rw [createRelease_fst_congr dbx db env r hv, h]
  · intro dbx envx rx outx dbx2 hs hsx hrx hf hx
    obtain ⟨hx1, _⟩ := createRelease_ok dbx envx rx outx dbx2 hx
    have hnone : ∀ (d : Database) (e : Env) (q : Release) (o : Option Release) (d2 : Database),
        e.lookupSound → d.CreateRelease e q = ((o, none), d2) → e.lookupErr = none := by
      intro d e q o d2 hse hd
      rcases createRelease_cases d e q with ⟨e0, _, _, h0⟩ | ⟨hall, _⟩
      · rw [h0] at hd
        simp at hd
      · cases hle : e.lookupErr with
        | none => rfl
        | some e1 =>
          have t1 := hall e1 hle
          have t2 := hse e1 hle
          rw [t1] at t2
          cases t2
    have hl := hnone db env r out db2 hs h
    have hlx := hnone dbx envx rx outx dbx2 hsx hx
    have hv : dbx.currentVersion Tx.Begin envx rx.AppID = db.currentVersion Tx.Begin env r.AppID := by
      rw [hrx]
      exact currentVersion_congr dbx db envx env r.AppID (by rw [hl, hlx]) hf
    obtain ⟨_, _, fx3, _, _, _, _⟩ := created_fields
      { rx with Version := (dbx.currentVersion Tx.Begin envx rx.AppID).1 + 1 } envx
    refine ⟨_, _, h1, hx1, ?_⟩
    rw [fx3, f3, hv]

/-- C30 on a release of the app `a1` in a store that holds a release of it
and one of the app `a0`. -/
theorem createRelease_scoped_witness :
    (Database.mk [] [⟨"r0".toList, "a0".toList, none, 7, [], some 3⟩,
        ⟨"r1".toList, "a1".toList, none, 1, [], some 4⟩]).CreateRelease
        (Env.quiet "r2".toList 5) ⟨[], "a1".toList, none, none, 0, [], none⟩ =
      ((some ⟨"r2".toList, "a1".toList, none, none, 2, [], some 5⟩, none),
        ⟨[], [⟨"r0".toList, "a0".toList, none, 7, [], some 3⟩,
          ⟨"r1".toList, "a1".toList, none, 1, [], some 4⟩,
          ⟨"r2".toList, "a1".toList, none, 2, [], some 5⟩]⟩) ∧
    (∀ dbx : Database,
      dbx.releases.filter (fun row => row.AppID = "a1".toList) =
        (Database.mk [] [⟨"r0".toList, "a0".toList, none, 7, [], some 3⟩,
          ⟨"r1".toList, "a1".toList, none, 1, [], some 4⟩]).releases.filter
            (fun row => row.AppID = "a1".toList) →
      (dbx.CreateRelease (Env.quiet "r2".toList 5) ⟨[], "a1".toList, none, none, 0, [], none⟩).1 =
        (some ⟨"r2".toList, "a1".toList, none, none, 2, [], some 5⟩, none)) :=
  ⟨by decide,
    (createRelease_scoped
      (Database.mk [] [⟨"r0".toList, "a0".toList, none, 7, [], some 3⟩,
        ⟨"r1".toList, "a1".toList, none, 1, [], some 4⟩])
      (Env.quiet "r2".toList 5) ⟨[], "a1".toList, none, none, 0, [], none⟩
      (some ⟨"r2".toList, "a1".toList, none, none, 2, [], some 5⟩)
      ⟨[], [⟨"r0".toList, "a0".toList, none, 7, [], some 3⟩,
        ⟨"r1".toList, "a1".toList, none, 1, [], some 4⟩,
        ⟨"r2".toList, "a1".toList, none, 2, [], some 5⟩]⟩ (by decide)).2.2.2.2.2.1⟩

end store

/-! ## The handler of a release -/

namespace api

/-- C25 fails on the code.  The handler answers 400 with the message
`version must be a positive integer`, and looks nothing up, whenever
`strconv.Atoi` rejects the version parameter, as it does for `abc`.  But
`Atoi` accepts `0` and `-1`, and for these the handler looks up the app and
the release and answers 200: the query with a version that is not greater
than 0 has no version filter, so the release of the lowest version of the
app is returned. -/
theorem handleGetRelease_version :
    (∀ (σ : Type) (s : Delegate σ) (appID verStr : Str) (st : σ) (e : Error),
      strconv.Atoi verStr = .error e →
      handleGetRelease s appID verStr st =
        (⟨400, .error "version must be a positive integer"⟩, st, [])) ∧
    strconv.Atoi "abc".toList = .error strconv.ErrSyntax ∧
    strconv.Atoi "0".toList = .ok 0 ∧ strconv.Atoi "-1".toList = .ok (-1) ∧
    handleGetRelease
        (listDelegate [⟨"123".toList, "app".toList, some 1, none⟩]
          [⟨"r2".toList, "123".toList, none, none, 2, [], none⟩,
            ⟨"r1".toList, "123".toList, none, none, 1, [], none⟩])
        "123".toList "0".toList 0 =
      (⟨200, .release (some ⟨"r1".toList, "123".toList, none, none, 1, [], none⟩)⟩, 2,
        [Call.AppsFind ⟨"123".toList, []⟩,
          Call.ReleasesFind ⟨some ⟨"123".toList, "app".toList, some 1, none⟩, 0⟩]) ∧
    handleGetRelease
        (listDelegate [⟨"123".toList, "app".toList, some 1, none⟩]
          [⟨"r2".toList, "123".toList, none, none, 2, [], none⟩,
            ⟨"r1".toList, "123".toList, none, none, 1, [], none⟩])
        "123".toList "-1".toList 0 =
      (⟨200, .release (some ⟨"r1".toList, "123".toList, none, none, 1, [], none⟩)⟩, 2,
        [Call.AppsFind ⟨"123".toList, []⟩,
          Call.ReleasesFind ⟨some ⟨"123".toList, "app".toList, some 1, none⟩, -1⟩]) := by
  refine ⟨?_, by decide, by decide, by decide, by decide, by decide⟩
  intro σ s appID verStr st e he
  simp [handleGetRelease, he]

end api

/-! ## The apps queries -/

namespace store

theorem mem_orderByName (rows : List App) (x : App) : x ∈ orderByName rows ↔ x ∈ rows :=
  (List.perm_insertionSort _ rows).mem_iff

/-- What `Apps` returns are rows of the table that `AppsQuery.scope` lets
through. -/
theorem mem_apps (db : Database) (q : AppsQuery) (x : App) (h : x ∈ (db.Apps q none).1) :
    x ∈ db.apps ∧ q.scope x = true := by
  simp only [Database.Apps, mem_orderByName, List.mem_filter] at h
  exact h

/-- What `App` returns is a row of the table that `AppsQuery.scope` lets
through. -/
theorem app_some (db : Database) (q : AppsQuery) (x : App) (h : (db.App q none).1 = some x) :
    x ∈ db.apps ∧ q.scope x = true := by
  simp only [Database.App] at h
  cases ho : orderByName (db.apps.filter q.scope) with
  | nil =>
    rw [ho] at h
    simp at h
  | cons a rest =>
    rw [ho] at h
    simp only [Option.some.injEq] at h
    subst h
    have hm : a ∈ orderByName (db.apps.filter q.scope) := by
      rw [ho]
      simp
    rw [mem_orderByName, List.mem_filter] at hm
    exact hm

theorem scope_deletedAt (q : AppsQuery) (x : App) (h : q.scope x = true) : x.DeletedAt = none := by
  simp only [AppsQuery.scope, Bool.and_eq_true, decide_eq_true_eq] at h
  exact h.1.1

/-- After a successful `DeleteApp` every row with the ID of the app has
`deleted_at` set, and there is such a row. -/
theorem deleteApp_rows (db : Database) (now : Nat) (app : App) :
    (∀ row ∈ (db.DeleteApp now app none).2.apps, row.ID = app.ID → row.DeletedAt = some now) ∧
    (∃ row ∈ (db.DeleteApp now app none).2.apps, row.ID = app.ID ∧ row.DeletedAt = some now) ∧
    db.apps.length ≤ (db.DeleteApp now app none).2.apps.length := by
  unfold Database.DeleteApp Database.UpdateApp
  by_cases hany : db.apps.any (fun row => decide (row.ID = app.ID)) = true
  · simp only [hany, if_true]
    refine ⟨?_, ?_, by simp⟩
    · intro row hrow hid
      simp only [List.mem_map] at hrow
      obtain ⟨x, _, hx⟩ := hrow
      by_cases hxi : x.ID = app.ID
      · rw [if_pos hxi] at hx
        rw [← hx]
      · rw [if_neg hxi] at hx
        rw [hx] at hxi
        exact absurd hid hxi
    · simp only [List.any_eq_true, decide_eq_true_eq] at hany
      obtain ⟨x, hx, hxi⟩ := hany
      refine ⟨{ app with DeletedAt := some now }, ?_, rfl, rfl⟩
      simp only [List.mem_map]
      exact ⟨x, hx, by rw [if_pos hxi]⟩
  · simp only [hany]
    simp only [List.any_eq_true, decide_eq_true_eq, not_exists, not_and] at hany
    refine ⟨?_, ?_, by simp⟩
    · intro row hrow hid
      simp only [Bool.false_eq_true, if_false, List.mem_append, List.mem_singleton] at hrow
      rcases hrow with hrow | hrow
      · exact absurd hid (hany row hrow)
      · rw [hrow]
    · refine ⟨{ app with DeletedAt := some now }, ?_, rfl, rfl⟩
      simp

/-- A later `DeleteApp`, of any app, failing or not, leaves set the
`deleted_at` of the rows of an ID on which it is set. -/
theorem deleteApp_keeps_hidden (db : Database) (id : Str)
    (h : ∀ row ∈ db.apps, row.ID = id → row.DeletedAt ≠ none)
    (now : Nat) (app : App) (err : Option Error) :
    ∀ row ∈ (db.DeleteApp now app err).2.apps, row.ID = id → row.DeletedAt ≠ none := by
  unfold Database.DeleteApp Database.UpdateApp
  cases err with
  | some e => exact h
  | none =>
    by_cases hany : db.apps.any (fun row => decide (row.ID = app.ID)) = true
    · simp only [hany, if_true]
      intro row hrow hid
      simp only [List.mem_map] at hrow
      obtain ⟨x, hx, hxe⟩ := hrow
      by_cases hxi : x.ID = app.ID
      · rw [if_pos hxi] at hxe
        rw [← hxe]
        simp
      · rw [if_neg hxi] at hxe
        rw [← hxe]
        rw [← hxe] at hid
        exact h x hx hid
    · simp only [hany]
      intro row hrow hid
      simp only [Bool.false_eq_true, if_false, List.mem_append, List.mem_singleton] at hrow
      rcases hrow with hrow | hrow
      · exact h row hrow hid
      · rw [hrow]
        simp

/-- The method `CreateRelease` keeps the rows of the table `apps`.  It adds
at most one row, the app of the release with the new ID, and only when no
row has that ID. -/
theorem createRelease_apps (db : Database) (env : Env) (r : Release) :
    (db.CreateRelease env r).2.apps = db.apps ∨
    ∃ a, r.App = some a ∧ (db.CreateRelease env r).2.apps = db.apps ++ [a.BeforeCreate env] ∧
      ∀ row ∈ db.apps, row.ID ≠ env.newAppID := by
  rcases hres : db.CreateRelease env r with ⟨⟨out, _ | e⟩, db2⟩
  · have h2 := (createRelease_ok db env r out db2 hres).2
    rw [h2]
    simp only
    rcases Option.eq_none_or_eq_some r.App with hA | ⟨a, hA⟩
    · left
      simp [Database.appsAdded, hA]
    · by_cases hany : db.apps.any (fun row => decide (row.ID = (a.BeforeCreate env).ID)) = true
      · left
        simp [Database.appsAdded, hA, hany]
      · right
        refine ⟨a, hA, by simp [Database.appsAdded, hA, hany], ?_⟩
        simpa [App.BeforeCreate] using hany
  · left
    rw [createRelease_err db env r out e db2 hres]

/-- A later `DeleteApp` keeps a row of each ID that has one. -/
theorem deleteApp_keeps_id (db : Database) (id : Str) (h : ∃ row ∈ db.apps, row.ID = id)
    (now : Nat) (app : App) (err : Option Error) :
    ∃ row ∈ (db.DeleteApp now app err).2.apps, row.ID = id := by
  obtain ⟨x, hx, hxi⟩ := h
  unfold Database.DeleteApp Database.UpdateApp
  cases err with
  | some e => exact ⟨x, hx, hxi⟩
  | none =>
    by_cases hany : db.apps.any (fun row => decide (row.ID = app.ID)) = true
    · simp only [hany, if_true]
      by_cases hxa : x.ID = app.ID
      · refine ⟨{ app with DeletedAt := some now }, ?_, ?_⟩
        · simp only [List.mem_map]
          exact ⟨x, hx, by rw [if_pos hxa]⟩
        · show app.ID = id
          rw [← hxa, hxi]
      · refine ⟨x, ?_, hxi⟩
        simp only [List.mem_map]
        exact ⟨x, hx, by rw [if_neg hxa]⟩
    · simp only [hany]
      exact ⟨x, by simp [hx], hxi⟩

/-- C24: after a successful `DeleteApp` of an app, `Apps` and `App` return no
row with the ID of that app, for every query; the row of the app is in the
table with `deleted_at` set, and the table has lost no row.  Every apps
query returns rows with `deleted_at` null only.  Later calls of `DeleteApp`
and `CreateRelease` do not bring the app back: `CreateRelease` writes the
table `apps` only for a release that carries an app, and then it adds a row
with a new ID, and only when no row has that ID; and the row of the app
stays in the table. -/
theorem deleted_app_hidden (db : Database) (now : Nat) (app : App) (q : AppsQuery) :
    (∀ row ∈ ((db.DeleteApp now app none).2.Apps q none).1, row.ID ≠ app.ID) ∧
    (∀ out, ((db.DeleteApp now app none).2.App q none).1 = some out → out.ID ≠ app.ID) ∧
    (∃ row ∈ (db.DeleteApp now app none).2.apps, row.ID = app.ID ∧ row.DeletedAt = some now) ∧
    db.apps.length ≤ (db.DeleteApp now app none).2.apps.length ∧
    (∀ (d : Database) (qx : AppsQuery),
      (∀ row ∈ (d.Apps qx none).1, row.DeletedAt = none ∧ row ∈ d.apps) ∧
      (∀ out, (d.App qx none).1 = some out → out.DeletedAt = none ∧ out ∈ d.apps)) ∧
    (∀ d : Database, (∀ row ∈ d.apps, row.ID = app.ID → row.DeletedAt ≠ none) →
      (∀ qx, (∀ row ∈ (d.Apps qx none).1, row.ID ≠ app.ID) ∧
        (∀ out, (d.App qx none).1 = some out → out.ID ≠ app.ID)) ∧
      (∀ now2 app2 err2, ∀ row ∈ (d.DeleteApp now2 app2 err2).2.apps,
        row.ID = app.ID → row.DeletedAt ≠ none) ∧
      (∀ env r, (env.newAppID ≠ app.ID ∨ ∃ row ∈ d.apps, row.ID = app.ID) →
        ∀ row ∈ (d.CreateRelease env r).2.apps, row.ID = app.ID → row.DeletedAt ≠ none)) ∧
    (∀ d : Database, (∃ row ∈ d.apps, row.ID = app.ID) →
      (∀ now2 app2 err2, ∃ row ∈ (d.DeleteApp now2 app2 err2).2.apps, row.ID = app.ID) ∧
      (∀ env r, ∃ row ∈ (d.CreateRelease env r).2.apps, row.ID = app.ID)) := by
  obtain ⟨h1, h2, h3⟩ := deleteApp_rows db now app
  refine ⟨?_, ?_, h2, h3, ?_, ?_, ?_⟩
  · intro row hrow hid
    obtain ⟨hm, hs⟩ := mem_apps _ q row hrow
    have := h1 row hm hid
    rw [scope_deletedAt q row hs] at this
    cases this
  · intro out hout hid
    obtain ⟨hm, hs⟩ := app_some _ q out hout
    have := h1 out hm hid
    rw [scope_deletedAt q out hs] at this
    cases this
  · intro d qx
    constructor
    · intro row hrow
      obtain ⟨hm, hs⟩ := mem_apps d qx row hrow
      exact ⟨scope_deletedAt qx row hs, hm⟩
    · intro out hout
      obtain ⟨hm, hs⟩ := app_some d qx out hout
      exact ⟨scope_deletedAt qx out hs, hm⟩
  · intro d hd
    refine ⟨?_, ?_, ?_⟩
    · intro qx
      constructor
      · intro row hrow hid
        obtain ⟨hm, hs⟩ := mem_apps d qx row hrow
        exact hd row hm hid (scope_deletedAt qx row hs)
      · intro out hout hid
        obtain ⟨hm, hs⟩ := app_some d qx out hout
        exact hd out hm hid (scope_deletedAt qx out hs)
    · intro now2 app2 err2
      exact deleteApp_keeps_hidden d app.ID hd now2 app2 err2
    · intro env r hfresh row hrow hid
      rcases createRelease_apps d env r with e | ⟨a, _, e, hnew⟩
      · rw [e] at hrow
        exact hd row hrow hid
      · rw [e] at hrow
        rcases List.mem_append.mp hrow with hm | hm
        · exact hd row hm hid
        · exfalso
          have hrid : row.ID = env.newAppID := by
            rw [List.mem_singleton.mp hm]
            rfl
          rcases hfresh with hf | ⟨x, hx, hxi⟩
          · exact hf (by rw [← hrid, hid])
          · exact hnew x hx (by rw [hxi, ← hid, hrid])
  · intro d hex
    refine ⟨?_, ?_⟩
    · intro now2 app2 err2
      exact deleteApp_keeps_id d app.ID hex now2 app2 err2
    · intro env r
      obtain ⟨x, hx, hxi⟩ := hex
      rcases createRelease_apps d env r with e | ⟨a, _, e, _⟩
      · rw [e]
        exact ⟨x, hx, hxi⟩
      · rw [e]
        exact ⟨x, by simp [hx], hxi⟩

end store

/-! ## The path of the procfile -/

namespace strings

theorem join_cons_cons (a b : Str) (more : List Str) (sep : Str) :
    Join (a :: b :: more) sep = a ++ sep ++ Join (b :: more) sep := by
  simp [Join]

theorem join_append_singleton (elems : List Str) (x sep : Str) (h : elems ≠ []) :
    Join (elems ++ [x]) sep = Join elems sep ++ sep ++ x := by
  induction elems with
  | nil => exact absurd rfl h
  | cons a more ih =>
    cases more with
    | nil => simp [Join]
    | cons b more2 =>
      have := ih (by simp)
      simp only [List.cons_append] at this ⊢
      rw [join_cons_cons, this, join_cons_cons]
      simp

/-- Splitting the join of elements without the separator gives the elements
back. -/
theorem split_join (elems : List Str) (c : Char) (h : elems ≠ [])
    (hc : ∀ e ∈ elems, c ∉ e) : Split (Join elems [c]) c = elems := by
  induction elems with
  | nil => exact absurd rfl h
  | cons a more ih =>
    cases more with
    | nil =>
      simp only [Join]
      exact split_of_not_mem a c (hc a (by simp))
    | cons b more2 =>
      have hrest := ih (by simp) (fun e he => hc e (List.mem_cons_of_mem _ he))
      rw [join_cons_cons]
      have e : a ++ [c] ++ Join (b :: more2) [c] = a ++ c :: Join (b :: more2) [c] := by simp
      rw [e, split_append a _ c (hc a (by simp)), hrest]

/-- Splitting a text at a separator splits what stands before an occurrence
of the separator and what stands after it. -/
theorem split_append_sep (a b : Str) (c : Char) :
    Split (a ++ c :: b) c = Split a c ++ Split b c := by
  induction a with
  | nil => simp [Split]
  | cons x xs ih =>
    by_cases hx : x = c
    · simp [Split, hx, ih]
    · obtain ⟨h, t, ht⟩ := List.exists_cons_of_ne_nil (split_ne_nil xs c)
      simp [Split, hx, ih, ht]

end strings

namespace filepath

open strings

/-- The function `Clean` keeps, in their order, elements that are not empty,
not `.` and not `..`. -/
theorem foldl_cleanElem_proper (rooted : Bool) (elems kept : List Str)
    (h : ∀ e ∈ elems, e ≠ [] ∧ e ≠ ['.'] ∧ e ≠ ['.', '.']) :
    elems.foldl (cleanElem rooted) kept = elems.reverse ++ kept := by
  induction elems generalizing kept with
  | nil => simp
  | cons a more ih =>
    obtain ⟨h1, h2, h3⟩ := h a (by simp)
    have hstep : cleanElem rooted kept a = a :: kept := by
      simp [cleanElem, h1, h2, h3]
    simp only [List.foldl_cons, hstep]
    rw [ih _ (fun e he => h e (List.mem_cons_of_mem _ he))]
    simp

/-- A rooted path of proper elements is clean. -/
theorem clean_rooted (elems : List Str) (hne : elems ≠ [])
    (h : ∀ e ∈ elems, e ≠ [] ∧ e ≠ ['.'] ∧ e ≠ ['.', '.'])
    (hs : ∀ e ∈ elems, '/' ∉ e) :
    Clean ('/' :: strings.Join elems ['/']) = '/' :: strings.Join elems ['/'] := by
  have hsplit : Split ('/' :: strings.Join elems ['/']) '/' = [] :: elems := by
    have := split_append [] (strings.Join elems ['/']) '/' (by simp)
    simp only [List.nil_append] at this
    rw [this, split_join elems '/' hne hs]
  unfold Clean
  simp only [List.cons_ne_nil, if_false, List.head?_cons, decide_True, if_true, hsplit,
    List.foldl_cons]
  have h0 : cleanElem true [] [] = [] := by simp [cleanElem]
  rw [h0, foldl_cleanElem_proper true elems [] h]
  simp

/-- A path of proper elements that is not rooted is clean. -/
theorem clean_relative (elems : List Str) (hne : elems ≠ [])
    (h : ∀ e ∈ elems, e ≠ [] ∧ e ≠ ['.'] ∧ e ≠ ['.', '.'])
    (hs : ∀ e ∈ elems, '/' ∉ e) :
    Clean (strings.Join elems ['/']) = strings.Join elems ['/'] := by
  obtain ⟨a, more, rfl⟩ := List.exists_cons_of_ne_nil hne
  obtain ⟨x, xs, hx⟩ := List.exists_cons_of_ne_nil (h a (by simp)).1
  have hxs : x ≠ '/' := by
    intro e
    have := hs a (by simp)
    rw [hx, e] at this
    simp at this
  have hhead : ∃ t, strings.Join (a :: more) ['/'] = x :: t := by
    cases more with
    | nil => exact ⟨xs, by simp [strings.Join, hx]⟩
    | cons b more2 => exact ⟨_, by rw [join_cons_cons, hx]; rfl⟩
  obtain ⟨t, ht⟩ := hhead
  have hroot : (decide ((strings.Join (a :: more) ['/']).head? = some '/')) = false := by
    rw [ht]
    simp [hxs]
  unfold Clean
  simp only [hroot, split_join (a :: more) '/' hne hs, foldl_cleanElem_proper false (a :: more) [] h,
    List.append_nil, List.reverse_reverse]
  rw [ht]
  simp

/-- The function `Clean` goes through the elements of a path from left to
right: two paths with the same first part, whose further elements have the
same effect, are cleaned to the same path. -/
theorem clean_tail (w : Str) (hw : w ≠ []) (ys zs : List Str) (hy : ys ≠ []) (hz : zs ≠ [])
    (hys : ∀ e ∈ ys, '/' ∉ e) (hzs : ∀ e ∈ zs, '/' ∉ e)
    (hf : ∀ rooted kept, ys.foldl (cleanElem rooted) kept = zs.foldl (cleanElem rooted) kept) :
    Clean (w ++ '/' :: strings.Join ys ['/']) = Clean (w ++ '/' :: strings.Join zs ['/']) := by
  have key : ∀ ts : List Str, ts ≠ [] → (∀ e ∈ ts, '/' ∉ e) →
      Clean (w ++ '/' :: strings.Join ts ['/']) =
        if w.head? = some '/' then
          '/' :: strings.Join (ts.foldl (cleanElem (decide (w.head? = some '/')))
            ((Split w '/').foldl (cleanElem (decide (w.head? = some '/'))) [])).reverse ['/']
        else if strings.Join (ts.foldl (cleanElem (decide (w.head? = some '/')))
            ((Split w '/').foldl (cleanElem (decide (w.head? = some '/'))) [])).reverse ['/'] = []
          then ['.']
        else strings.Join (ts.foldl (cleanElem (decide (w.head? = some '/')))
            ((Split w '/').foldl (cleanElem (decide (w.head? = some '/'))) [])).reverse ['/'] := by
    intro ts ht hts
    obtain ⟨x, xs, rfl⟩ := List.exists_cons_of_ne_nil hw
    unfold Clean
    simp only [List.cons_append, List.cons_ne_nil, if_false, List.head?_cons]
    rw [← List.cons_append, split_append_sep, split_join ts '/' ht hts, List.foldl_append]
    simp
  rw [key ys hy hys, key zs hz hzs, hf]

/-- Joining to a working directory that ends in `/`, in `/.` or in a proper
element followed by `/..` is joining to the directory without that end. -/
theorem join_dots (w b : Str) (hw : w ≠ []) (hb : '/' ∉ b) :
    Join (w ++ ['/']) b = Join w b ∧ Join (w ++ ['/', '.']) b = Join w b ∧
    ∀ e : Str, e ≠ [] → e ≠ ['.'] → e ≠ ['.', '.'] → '/' ∉ e →
      Join (w ++ '/' :: e ++ ['/', '.', '.']) b = Join w b := by
  have hbase : Join w b = Clean (w ++ '/' :: strings.Join [b] ['/']) := by
    unfold Join
    rw [if_pos hw]
    simp [strings.Join]
  have hmem1 : ∀ e ∈ [b], '/' ∉ e := by
    intro e he
    rw [List.mem_singleton.mp he]
    exact hb
  refine ⟨?_, ?_, ?_⟩
  · have h1 : Join (w ++ ['/']) b = Clean (w ++ '/' :: strings.Join [[], b] ['/']) := by
      unfold Join
      rw [if_pos (by simp)]
      simp [strings.Join]
    rw [h1, hbase]
    refine clean_tail w hw _ _ (by simp) (by simp) ?_ hmem1 ?_
    · intro e he
      simp only [List.mem_cons, List.mem_singleton, List.not_mem_nil, or_false] at he
      rcases he with rfl | rfl
      · simp
      · exact hb
    · intro rooted kept
      simp [cleanElem]
  · have h1 : Join (w ++ ['/', '.']) b = Clean (w ++ '/' :: strings.Join [['.'], b] ['/']) := by
      unfold Join
      rw [if_pos (by simp)]
      simp [strings.Join]
    rw [h1, hbase]
    refine clean_tail w hw _ _ (by simp) (by simp) ?_ hmem1 ?_
    · intro e he
      simp only [List.mem_cons, List.mem_singleton, List.not_mem_nil, or_false] at he
      rcases he with rfl | rfl
      · simp
      · exact hb
    · intro rooted kept
      simp [cleanElem]
  · intro e he1 he2 he3 hes
    have h1 : Join (w ++ '/' :: e ++ ['/', '.', '.']) b =
        Clean (w ++ '/' :: strings.Join [e, ['.', '.'], b] ['/']) := by
      unfold Join
      rw [if_pos (by simp)]
      simp [strings.Join]
    rw [h1, hbase]
    refine clean_tail w hw _ _ (by simp) (by simp) ?_ hmem1 ?_
    · intro x hx
      simp only [List.mem_cons, List.mem_singleton, List.not_mem_nil, or_false] at hx
      rcases hx with rfl | rfl | rfl
      · exact hes
      · simp
      · exact hb
    · intro rooted kept
      have hstep1 : cleanElem rooted kept e = e :: kept := by
        simp [cleanElem, he1, he2, he3]
      have hstep2 : cleanElem rooted (e :: kept) ['.', '.'] = kept := by
        simp [cleanElem, he3]
      simp only [List.foldl_cons, List.foldl_nil, hstep1, hstep2]

end filepath

namespace docker

open strings

/-- C21: the path `ExtractProcfile` asks the container for is `filepath.Join`
of the working directory of the container and `Procfile`: the daemon
receives one download request, for that path, and what `ExtractProcfile`
returns is read from the answer of the client to the request for that path.
The path is `Procfile` when the container has no configuration or an empty
working directory.  For a working directory made of proper elements (not
empty, not `.`, not `..`) it is the directory, a `/` and `Procfile`, whether
the directory is rooted or not; `/app` gives `/app/Procfile`.  As
`filepath.Join` cleans the path, a `/`, a `/.` and a proper element followed
by `/..` at the end of the working directory do not change the path, and a
`..` that has no element to remove stays in a path that is not rooted. -/
theorem procfile_path :
    (∀ (σ : Type) (r : Registry σ) (img : Str) (st st1 st2 : σ) (ctr c : Container),
      r.client.CreateContainer img st = (.ok ctr, st1) →
      r.client.InspectContainerWithOptions ctr.ID st1 = (.ok c, st2) →
      r.received img st =
        [Call.CreateContainer img, Call.InspectContainer ctr.ID,
          Call.DownloadFromContainer ctr.ID (procfilePath c), Call.RemoveContainer ctr.ID] ∧
      (∀ buf e st3,
        r.client.DownloadFromContainer ctr.ID (procfilePath c) st2 = ((buf, some e), st3) →
        r.ExtractProcfile img st =
          (([], some (Error.wrapf "downloading procfile" e)),
            (r.client.RemoveContainer ctr.ID st3).2,
            [Call.CreateContainer img, Call.InspectContainer ctr.ID,
              Call.DownloadFromContainer ctr.ID (procfilePath c),
              Call.RemoveContainer ctr.ID])) ∧
      (∀ buf st3 b,
        r.client.DownloadFromContainer ctr.ID (procfilePath c) st2 = ((buf, none), st3) →
        readTar r.tar buf = (b, none) →
        r.ExtractProcfile img st =
          ((b, none), (r.client.RemoveContainer ctr.ID st3).2,
            [Call.CreateContainer img, Call.InspectContainer ctr.ID,
              Call.DownloadFromContainer ctr.ID (procfilePath c),
              Call.RemoveContainer ctr.ID]))) ∧
    (∀ c : Container, c.Config = none → procfilePath c = "Procfile".toList) ∧
    (∀ (c : Container) (cfg : Config), c.Config = some cfg →
      procfilePath c = filepath.Join cfg.WorkingDir "Procfile".toList ∧
      (cfg.WorkingDir = [] → procfilePath c = "Procfile".toList)) ∧
    (∀ (c : Container) (cfg : Config) (elems : List Str), c.Config = some cfg → elems ≠ [] →
      (∀ e ∈ elems, e ≠ [] ∧ e ≠ ['.'] ∧ e ≠ ['.', '.']) → (∀ e ∈ elems, '/' ∉ e) →
      (cfg.WorkingDir = '/' :: strings.Join elems ['/'] ∨ cfg.WorkingDir = strings.Join elems ['/']) →
      procfilePath c = cfg.WorkingDir ++ "/Procfile".toList) ∧
    (∀ (c : Container) (cfg : Config) (w : Str), c.Config = some cfg → w ≠ [] →
      (cfg.WorkingDir = w ++ ['/'] ∨ cfg.WorkingDir = w ++ ['/', '.'] ∨
        ∃ e : Str, e ≠ [] ∧ e ≠ ['.'] ∧ e ≠ ['.', '.'] ∧ '/' ∉ e ∧
          cfg.WorkingDir = w ++ '/' :: e ++ ['/', '.', '.']) →
      procfilePath c = filepath.Join w "Procfile".toList) ∧
    Registry.ExtractProcfile
        ⟨fileDaemon (some ⟨[], "/app".toList⟩) "/app/Procfile".toList [119, 101, 98], mockTar⟩
        "foo/bar:latest".toList [] =
      (([119, 101, 98], none),
        [Call.CreateContainer "foo/bar:latest".toList, Call.InspectContainer "foo".toList,
          Call.DownloadFromContainer "foo".toList "/app/Procfile".toList,
          Call.RemoveContainer "foo".toList],
        [Call.CreateContainer "foo/bar:latest".toList, Call.InspectContainer "foo".toList,
          Call.DownloadFromContainer "foo".toList "/app/Procfile".toList,
          Call.RemoveContainer "foo".toList]) ∧
    Registry.ExtractProcfile
        ⟨fileDaemon none "Procfile".toList [119, 101, 98], mockTar⟩
        "foo/bar:latest".toList [] =
      (([119, 101, 98], none),
        [Call.CreateContainer "foo/bar:latest".toList, Call.InspectContainer "foo".toList,
          Call.DownloadFromContainer "foo".toList "Procfile".toList,
          Call.RemoveContainer "foo".toList],
        [Call.CreateContainer "foo/bar:latest".toList, Call.InspectContainer "foo".toList,
          Call.DownloadFromContainer "foo".toList "Procfile".toList,
          Call.RemoveContainer "foo".toList]) ∧
    procfilePath ⟨"foo".toList, some ⟨[], "/app".toList⟩⟩ = "/app/Procfile".toList ∧
    procfilePath ⟨"foo".toList, some ⟨[], "/".toList⟩⟩ = "/Procfile".toList ∧
    procfilePath ⟨"foo".toList, some ⟨[], "/app/".toList⟩⟩ = "/app/Procfile".toList ∧
    procfilePath ⟨"foo".toList, some ⟨[], "/app/./x/..".toList⟩⟩ = "/app/Procfile".toList ∧
    procfilePath ⟨"foo".toList, some ⟨[], "a//b".toList⟩⟩ = "a/b/Procfile".toList ∧
    procfilePath ⟨"foo".toList, some ⟨[], "./app".toList⟩⟩ = "app/Procfile".toList ∧
    procfilePath ⟨"foo".toList, some ⟨[], ".".toList⟩⟩ = "Procfile".toList ∧
    procfilePath ⟨"foo".toList, some ⟨[], "a/..".toList⟩⟩ = "Procfile".toList ∧
    procfilePath ⟨"foo".toList, some ⟨[], "..".toList⟩⟩ = "../Procfile".toList ∧
    procfilePath ⟨"foo".toList, some ⟨[], "../x".toList⟩⟩ = "../x/Procfile".toList ∧
    procfilePath ⟨"foo".toList, some ⟨[], "a/../..".toList⟩⟩ = "../Procfile".toList ∧
    procfilePath ⟨"foo".toList, some ⟨[], "/..".toList⟩⟩ = "/Procfile".toList := by
  refine ⟨?_, ?_, ?_, ?_, ?_, by decide, by decide, by decide, by decide, by decide, by decide,
    by decide, by decide, by decide, by decide, by decide, by decide, by decide, by decide⟩
  · intro σ r img st st1 st2 ctr c hc hi
    have hrec : r.received img st = (r.ExtractProcfile img st).2.2 := by
      unfold Registry.received
      rw [extractProcfile_recording]
    refine ⟨?_, ?_, ?_⟩
    · rw [hrec]
      rcases hdl : r.client.DownloadFromContainer ctr.ID (procfilePath c) st2 with
        ⟨⟨buf, _ | e⟩, st3⟩
      · rcases ht : readTar r.tar buf with ⟨b, _ | e⟩ <;>
          rcases hr : r.client.RemoveContainer ctr.ID st3 with ⟨_ | e2, st4⟩ <;>
          simp [Registry.ExtractProcfile, Registry.createContainer, Registry.extractBody,
            Registry.downloadFile, Registry.removeContainer, hc, hi, hdl, ht, hr]
      · rcases hr : r.client.RemoveContainer ctr.ID st3 with ⟨_ | e2, st4⟩ <;>
          simp [Registry.ExtractProcfile, Registry.createContainer, Registry.extractBody,
            Registry.downloadFile, Registry.removeContainer, hc, hi, hdl, hr]
    · intro buf e st3 hdl
      rcases hr : r.client.RemoveContainer ctr.ID st3 with ⟨_ | e2, st4⟩ <;>
        simp [Registry.ExtractProcfile, Registry.createContainer, Registry.extractBody,
          Registry.downloadFile, Registry.removeContainer, hc, hi, hdl, hr]
    · intro buf st3 b hdl ht
      rcases hr : r.client.RemoveContainer ctr.ID st3 with ⟨_ | e2, st4⟩ <;>
        simp [Registry.ExtractProcfile, Registry.createContainer, Registry.extractBody,
          Registry.downloadFile, Registry.removeContainer, hc, hi, hdl, ht, hr]
  · intro c hc
    simp only [procfilePath, hc]
    decide
  · intro c cfg hc
    refine ⟨by simp only [procfilePath, hc], ?_⟩
    intro hw
    simp only [procfilePath, hc, hw]
    decide
  · intro c cfg elems hc hne hp hs hw
    have hp2 : ∀ e ∈ elems ++ ["Procfile".toList], e ≠ [] ∧ e ≠ ['.'] ∧ e ≠ ['.', '.'] := by
      intro e he
      rcases List.mem_append.mp he with h1 | h1
      · exact hp e h1
      · rw [List.mem_singleton.mp h1]
        decide
    have hs2 : ∀ e ∈ elems ++ ["Procfile".toList], '/' ∉ e := by
      intro e he
      rcases List.mem_append.mp he with h1 | h1
      · exact hs e h1
      · rw [List.mem_singleton.mp h1]
        decide
    have hj := join_append_singleton elems "Procfile".toList ['/'] hne
    simp only [procfilePath, hc]
    rcases hw with hw | hw
    · have hwne : cfg.WorkingDir ≠ [] := by rw [hw]; simp
      have e1 : cfg.WorkingDir ++ ['/'] ++ "Procfile".toList =
          '/' :: strings.Join (elems ++ ["Procfile".toList]) ['/'] := by
        rw [hw, hj]
        simp
      unfold filepath.Join
      rw [if_pos hwne, e1, filepath.clean_rooted _ (by simp) hp2 hs2, hj, hw]
      simp
    · have hwne : cfg.WorkingDir ≠ [] := by
        rw [hw]
        obtain ⟨a, more, rfl⟩ := List.exists_cons_of_ne_nil hne
        obtain ⟨x, xs, hx⟩ := List.exists_cons_of_ne_nil (hp a (by simp)).1
        cases more with
        | nil => simp [strings.Join, hx]
        | cons b more2 => rw [join_cons_cons, hx]; simp
      have e1 : cfg.WorkingDir ++ ['/'] ++ "Procfile".toList =
          strings.Join (elems ++ ["Procfile".toList]) ['/'] := by
        rw [hw, hj]
      unfold filepath.Join
      rw [if_pos hwne, e1, filepath.clean_relative _ (by simp) hp2 hs2, hj, hw]
      simp
  · intro c cfg w hc hw hwd
    obtain ⟨j1, j2, j3⟩ := filepath.join_dots w "Procfile".toList hw (by decide)
    simp only [procfilePath, hc]
    rcases hwd with e | e | ⟨x, hx1, hx2, hx3, hx4, e⟩
    · rw [e, j1]
    · rw [e, j2]
    · rw [e, j3 x hx1 hx2 hx3 hx4]

end docker
